import Mathlib

/-!
Verification development for the dataflow-analysis core of the compiler:
the equality analysis (union-find with box/snapshot relational index), the
forward dataflow driver, and the early-terminate ("unsafe panic") pass.

The Rust code is shallowly embedded:
* `OrderedHashMap` (an insertion-ordered map, an IndexMap wrapper) is
  modelled as an association list with no duplicate keys.  `insertV`
  matches `IndexMap::insert` (value replaced in place when the key is
  present, appended at the end otherwise), `swapRemove` matches
  `IndexMap::swap_remove` (the removed slot receives the map's last entry),
  `entryOrInsert` matches `entry(k).or_insert(d)`.
* `VariableId` is `Nat`.
* Functions that recurse through the union-find parent map or through
  recursive `union` calls take an explicit fuel argument and return
  `Option`; `none` models divergence of the source recursion (which in the
  Rust code can only happen on states that are never produced).
-/

set_option maxHeartbeats 1000000

abbrev VariableId := Nat

namespace OHM

variable {κ β : Type} [DecidableEq κ]

/-- Lookup in an insertion-ordered association map (first matching key). -/
def getV : List (κ × β) → κ → Option β
  | [], _ => none
  | e :: rest, k => if e.1 = k then some e.2 else getV rest k

/-- `IndexMap::insert`: replace the value in place when the key is present,
append at the end otherwise. -/
def insertV : List (κ × β) → κ → β → List (κ × β)
  | [], k, v => [(k, v)]
  | e :: rest, k, v => if e.1 = k then (k, v) :: rest else e :: insertV rest k v

/-- `IndexMap::swap_remove`: remove the entry of `k`; the map's last entry is
moved into the freed slot. Returns the removed value and the new map. -/
def swapRemove : List (κ × β) → κ → Option β × List (κ × β)
  | [], _ => (none, [])
  | e :: rest, k =>
    if e.1 = k then
      match rest.getLast? with
      | none => (some e.2, [])
      | some last => (some e.2, last :: rest.dropLast)
    else
      let p := swapRemove rest k
      (p.1, e :: p.2)

/-- `map.entry(k).or_insert(d)`: insert `d` only when `k` is absent
(appending at the end). -/
def entryOrInsert (m : List (κ × β)) (k : κ) (d : β) : List (κ × β) :=
  match getV m k with
  | some _ => m
  | none => m ++ [(k, d)]

/-- `*f(map.entry(k).or_default()) = v`: mutate the entry of `k` through `f`,
starting from the default when `k` is absent. -/
def updateEntry (m : List (κ × β)) (k : κ) (d : β) (f : β → β) : List (κ × β) :=
  insertV m k (f ((getV m k).getD d))

/-- The keys, in insertion order. -/
def keys (m : List (κ × β)) : List κ := m.map Prod.fst

end OHM

/-- `ClassInfo`: the relationships an equivalence class representative may
carry (equality_analysis.rs). -/
structure ClassInfo where
  boxed_class : Option VariableId := none
  unboxed_class : Option VariableId := none
  snapshot_class : Option VariableId := none
  original_class : Option VariableId := none
deriving DecidableEq, Repr, Inhabited

namespace ClassInfo

/-- `ClassInfo::referenced_vars`, in the source's array order
`[boxed, original, snapshot, unboxed]`. -/
def referenced_vars (ci : ClassInfo) : List VariableId :=
  [ci.boxed_class, ci.original_class, ci.snapshot_class, ci.unboxed_class].filterMap id

/-- `ClassInfo::is_empty`. -/
def is_empty (ci : ClassInfo) : Bool := ci.referenced_vars.isEmpty

end ClassInfo

/-- The four relation fields of a `ClassInfo`, standing for the Rust field
accessors `|ci| &mut ci.xxx_class` passed to `get_related`/`set_relationship`. -/
inductive RelField
  | boxedF
  | unboxedF
  | snapF
  | origF
deriving DecidableEq, Repr

namespace RelField

def get : RelField → ClassInfo → Option VariableId
  | boxedF, ci => ci.boxed_class
  | unboxedF, ci => ci.unboxed_class
  | snapF, ci => ci.snapshot_class
  | origF, ci => ci.original_class

def set : RelField → Option VariableId → ClassInfo → ClassInfo
  | boxedF, v, ci => { ci with boxed_class := v }
  | unboxedF, v, ci => { ci with unboxed_class := v }
  | snapF, v, ci => { ci with snapshot_class := v }
  | origF, v, ci => { ci with original_class := v }

/-- The opposite direction of each relation field pair. -/
def opp : RelField → RelField
  | boxedF => unboxedF
  | unboxedF => boxedF
  | snapF => origF
  | origF => snapF

end RelField

/-- `EqualityState`: union-find parent map plus per-representative class
info (equality_analysis.rs). -/
structure EqualityState where
  union_find : List (VariableId × VariableId) := []
  class_info : List (VariableId × ClassInfo) := []
deriving DecidableEq, Repr, Inhabited

namespace EqualityState

/-- `EqualityState::get_parent`: parent of a variable, itself when absent. -/
def get_parent (uf : List (VariableId × VariableId)) (v : VariableId) : VariableId :=
  (OHM.getV uf v).getD v

/-- `EqualityState::get_class_info`: class info of a variable, default when
absent. -/
def get_class_info (s : EqualityState) (v : VariableId) : ClassInfo :=
  (OHM.getV s.class_info v).getD {}

/-- `EqualityState::find_immut`, with fuel: follow parent links to the root
without mutating. `none` models divergence (a cyclic parent map). -/
def findD : Nat → List (VariableId × VariableId) → VariableId → Option VariableId
  | 0, _, _ => none
  | fuel + 1, uf, v =>
    let p := get_parent uf v
    if p = v then some v else findD fuel uf p

/-- `find_immut` at the canonical fuel (one more than the map's size, enough
for every forest). -/
def find_immut (s : EqualityState) (v : VariableId) : Option VariableId :=
  findD (s.union_find.length + 1) s.union_find v

/-- Total version of `find_immut` used in theorem statements: on a forest it
is the representative, and it defaults to `v` where the source diverges. -/
def rootD (uf : List (VariableId × VariableId)) (v : VariableId) : VariableId :=
  (findD (uf.length + 1) uf v).getD v

/-- `EqualityState::find` with fuel: follow parent links to the root and
apply path compression (every visited node's parent is rewritten to the
root), returning the updated parent map with the root. -/
def findA : Nat → List (VariableId × VariableId) → VariableId →
    Option (List (VariableId × VariableId) × VariableId)
  | 0, _, _ => none
  | fuel + 1, uf, v =>
    let p := get_parent uf v
    if p = v then some (uf, v)
    else
      match findA fuel uf p with
      | none => none
      | some (uf', root) => some (OHM.insertV uf' v root, root)

/-- `EqualityState::find` on a state (fuel one more than the map's size). -/
def find (s : EqualityState) (v : VariableId) : Option (EqualityState × VariableId) :=
  (findA (s.union_find.length + 1) s.union_find v).map
    fun p => ({ s with union_find := p.1 }, p.2)

end EqualityState

namespace EqualityState

/-- One field of `ClassInfo::merge`: both sides set and different values
calls the union function, otherwise `new.or(old)`. `rec` is the recursive
`union` at the next fuel level. -/
def mergeField
    (rec : EqualityState → VariableId → VariableId → Option (EqualityState × VariableId))
    (s : EqualityState) :
    Option VariableId → Option VariableId → Option (EqualityState × Option VariableId)
  | some nv, some ov =>
    if nv ≠ ov then (rec s nv ov).map fun p => (p.1, some p.2)
    else some (s, some nv)
  | nv, ov => some (s, nv.or ov)

/-- `ClassInfo::merge(new_info, old_info, union_fn)`: the four fields are
merged in source order, threading the state of the recursive unions. -/
def mergeInfos
    (rec : EqualityState → VariableId → VariableId → Option (EqualityState × VariableId))
    (s : EqualityState) (new_info old_info : ClassInfo) :
    Option (EqualityState × ClassInfo) :=
  match mergeField rec s new_info.boxed_class old_info.boxed_class with
  | none => none
  | some (s4, bx) =>
    match mergeField rec s4 new_info.unboxed_class old_info.unboxed_class with
    | none => none
    | some (s5, ub) =>
      match mergeField rec s5 new_info.snapshot_class old_info.snapshot_class with
      | none => none
      | some (s6, sn) =>
        match mergeField rec s6 new_info.original_class old_info.original_class with
        | none => none
        | some (s7, og) => some (s7, ⟨bx, ub, sn, og⟩)

/-- The link-and-merge path of `union` for a chosen pair
`(new_root, old_root)`: link, take both class-info entries out, merge them
(`ClassInfo::merge`), re-resolve the root and store the merged info when
non-empty, and return `find(new_root)`. -/
def unionLinkGo
    (rec : EqualityState → VariableId → VariableId → Option (EqualityState × VariableId))
    (s : EqualityState) (new_root old_root : VariableId) : Option (EqualityState × VariableId) :=
  let s1 : EqualityState := { s with
    union_find := OHM.insertV (OHM.entryOrInsert s.union_find new_root new_root)
      old_root new_root }
  let po := OHM.swapRemove s1.class_info old_root
  let pn := OHM.swapRemove po.2 new_root
  match mergeInfos rec { s1 with class_info := pn.2 } (pn.1.getD {}) (po.1.getD {}) with
  | none => none
  | some (s7, merged) =>
    if merged.is_empty then s7.find new_root
    else
      match s7.find new_root with
      | none => none
      | some (s8, final_root) =>
        ({ s8 with
          class_info := OHM.insertV s8.class_info final_root merged }).find new_root

/-- The link-and-merge path of `union`, entered when the two finds returned
distinct roots: always choose the lower ID as the new root to maintain
canonical form. -/
def unionLink
    (rec : EqualityState → VariableId → VariableId → Option (EqualityState × VariableId))
    (s : EqualityState) (root_a root_b : VariableId) : Option (EqualityState × VariableId) :=
  if root_a < root_b then unionLinkGo rec s root_a root_b
  else unionLinkGo rec s root_b root_a

/-- The body of `EqualityState::union` for one fuel level; `rec` is the
recursive `union` used by `ClassInfo::merge`'s `union_fn`. -/
def unionBody
    (rec : EqualityState → VariableId → VariableId → Option (EqualityState × VariableId))
    (s : EqualityState) (a b : VariableId) : Option (EqualityState × VariableId) :=
  match s.find a with
  | none => none
  | some (s1, root_a) =>
    match s1.find b with
    | none => none
    | some (s2, root_b) =>
      if root_a = root_b then some (s2, root_a)
      else unionLink rec s2 root_a root_b

/-- `EqualityState::union`, with fuel bounding the depth of recursive
unions performed while merging `class_info`. -/
def union : Nat → EqualityState → VariableId → VariableId →
    Option (EqualityState × VariableId)
  | 0, _, _, _ => none
  | fuel + 1, s, a, b => unionBody (union fuel) s a b

/-- `mergeField` instrumented to record, for every recursive `union`
invocation performed by `ClassInfo::merge`, the state before and after
that invocation (used to settle the claim about class counts). -/
def mergeFieldT
    (rec : EqualityState → VariableId → VariableId →
      Option (EqualityState × VariableId × List (EqualityState × EqualityState)))
    (s : EqualityState) :
    Option VariableId → Option VariableId →
      Option (EqualityState × Option VariableId × List (EqualityState × EqualityState))
  | some nv, some ov =>
    if nv ≠ ov then (rec s nv ov).map fun p => (p.1, some p.2.1, (s, p.1) :: p.2.2)
    else some (s, some nv, [])
  | nv, ov => some (s, nv.or ov, [])

/-- `ClassInfo::merge` instrumented with the recursive-union trace. -/
def mergeInfosT
    (rec : EqualityState → VariableId → VariableId →
      Option (EqualityState × VariableId × List (EqualityState × EqualityState)))
    (s : EqualityState) (new_info old_info : ClassInfo) :
    Option (EqualityState × ClassInfo × List (EqualityState × EqualityState)) :=
  match mergeFieldT rec s new_info.boxed_class old_info.boxed_class with
  | none => none
  | some (s4, bx, t1) =>
    match mergeFieldT rec s4 new_info.unboxed_class old_info.unboxed_class with
    | none => none
    | some (s5, ub, t2) =>
      match mergeFieldT rec s5 new_info.snapshot_class old_info.snapshot_class with
      | none => none
      | some (s6, sn, t3) =>
        match mergeFieldT rec s6 new_info.original_class old_info.original_class with
        | none => none
        | some (s7, og, t4) => some (s7, ⟨bx, ub, sn, og⟩, t1 ++ t2 ++ t3 ++ t4)

/-- The link-and-merge path of the instrumented union, for a chosen pair. -/
def unionLinkGoT
    (rec : EqualityState → VariableId → VariableId →
      Option (EqualityState × VariableId × List (EqualityState × EqualityState)))
    (s : EqualityState) (new_root old_root : VariableId) :
    Option (EqualityState × VariableId × List (EqualityState × EqualityState)) :=
  let s1 : EqualityState := { s with
    union_find := OHM.insertV (OHM.entryOrInsert s.union_find new_root new_root)
      old_root new_root }
  let po := OHM.swapRemove s1.class_info old_root
  let pn := OHM.swapRemove po.2 new_root
  match mergeInfosT rec { s1 with class_info := pn.2 } (pn.1.getD {}) (po.1.getD {}) with
  | none => none
  | some (s7, merged, tr) =>
    let after :=
      if merged.is_empty then s7.find new_root
      else
        match s7.find new_root with
        | none => none
        | some (s8, final_root) =>
          ({ s8 with
            class_info := OHM.insertV s8.class_info final_root merged }).find new_root
    match after with
    | none => none
    | some (s9, r) => some (s9, r, tr)

/-- The link-and-merge path of the instrumented union. -/
def unionLinkT
    (rec : EqualityState → VariableId → VariableId →
      Option (EqualityState × VariableId × List (EqualityState × EqualityState)))
    (s : EqualityState) (root_a root_b : VariableId) :
    Option (EqualityState × VariableId × List (EqualityState × EqualityState)) :=
  if root_a < root_b then unionLinkGoT rec s root_a root_b
  else unionLinkGoT rec s root_b root_a

/-- `EqualityState::union` instrumented with the trace of recursive union
invocations (their before/after states). -/
def unionT : Nat → EqualityState → VariableId → VariableId →
    Option (EqualityState × VariableId × List (EqualityState × EqualityState))
  | 0, _, _, _ => none
  | fuel + 1, s, a, b =>
    match s.find a with
    | none => none
    | some (s1, root_a) =>
      match s1.find b with
      | none => none
      | some (s2, root_b) =>
        if root_a = root_b then some (s2, root_a, [])
        else unionLinkT (unionT fuel) s2 root_a root_b

/-- `EqualityState::get_related`: representative's class-info field,
re-resolved through `find`. The outer `Option` is fuel exhaustion of the
embedded `find`; the inner one is the source's return value. -/
def get_related (s : EqualityState) (v : VariableId) (field : RelField) :
    Option (EqualityState × Option VariableId) :=
  match s.find v with
  | none => none
  | some (s1, rep) =>
    match field.get (s1.get_class_info rep) with
    | none => some (s1, none)
    | some related =>
      match s1.find related with
      | none => none
      | some (s2, r) => some (s2, some r)

/-- `EqualityState::set_relationship`. -/
def set_relationship (fuel : Nat) (s : EqualityState) (var_a var_b : VariableId)
    (field_a_to_b field_b_to_a : RelField) : Option EqualityState :=
  match get_related s var_a field_a_to_b with
  | none => none
  | some (s1, ex_a) =>
    match (match ex_a with
           | some existing => (union fuel s1 var_b existing).map Prod.fst
           | none => some s1) with
    | none => none
    | some s2 =>
      match get_related s2 var_b field_b_to_a with
      | none => none
      | some (s3, ex_b) =>
        match (match ex_b with
               | some existing => (union fuel s3 var_a existing).map Prod.fst
               | none => some s3) with
        | none => none
        | some s4 =>
          -- Re-find after potential unions — representatives may have changed.
          match s4.find var_a with
          | none => none
          | some (s5, rep_a) =>
            match s5.find var_b with
            | none => none
            | some (s6, rep_b) =>
              let s7 : EqualityState := { s6 with
                class_info := OHM.updateEntry s6.class_info rep_a {}
                  (field_a_to_b.set (some rep_b)) }
              some { s7 with
                class_info := OHM.updateEntry s7.class_info rep_b {}
                  (field_b_to_a.set (some rep_a)) }

/-- `EqualityState::set_box_relationship`: boxed_var = Box(unboxed_var). -/
def set_box_relationship (fuel : Nat) (s : EqualityState)
    (unboxed_var boxed_var : VariableId) : Option EqualityState :=
  set_relationship fuel s unboxed_var boxed_var .boxedF .unboxedF

/-- `EqualityState::set_snapshot_relationship`: snapshot_var = @original_var. -/
def set_snapshot_relationship (fuel : Nat) (s : EqualityState)
    (original_var snapshot_var : VariableId) : Option EqualityState :=
  set_relationship fuel s original_var snapshot_var .snapF .origF

end EqualityState

/-- All variables occurring in a state: parent-map keys and values,
class-info keys and referenced field values. -/
def mentionedVars (s : EqualityState) : List VariableId :=
  s.union_find.map Prod.fst ++ s.union_find.map Prod.snd ++ s.class_info.map Prod.fst
    ++ (s.class_info.map Prod.snd).flatMap ClassInfo.referenced_vars

/-- The number of equivalence classes of a state, counted over the
variables the state mentions (every unmentioned variable is alone in its
class). -/
def classCount (s : EqualityState) : Nat :=
  (((mentionedVars s).map (EqualityState.rootD s.union_find)).dedup).length

/-- Lowered-IR statements, with the payloads the analyses consume: the
variable ids of the snapshot/desnap/box/unbox statements, and for `Call`
the extern-function identity used for side-effect classification (`none`
when the callee is not an extern function). The remaining variants are
opaque to both analyses. -/
inductive Statement
  | snapshotS (input original snap : VariableId)
  | desnapS (input output : VariableId)
  | intoBoxS (input output : VariableId)
  | unboxS (input output : VariableId)
  | structConstructS
  | structDestructureS
  | enumConstructS
  | constS
  | callS (externFn : Option Nat)
deriving DecidableEq, Repr

namespace EqualityState

/-- `EqualityAnalysis::transfer_stmt`. -/
def transfer_stmt (fuel : Nat) (s : EqualityState) : Statement → Option EqualityState
  | .snapshotS input original snap =>
    match union fuel s original input with
    | none => none
    | some (s1, _) => set_snapshot_relationship fuel s1 input snap
  | .desnapS input output => set_snapshot_relationship fuel s output input
  | .intoBoxS input output => set_box_relationship fuel s input output
  | .unboxS input output => set_box_relationship fuel s output input
  | .structConstructS => some s
  | .structDestructureS => some s
  | .enumConstructS => some s
  | .constS => some s
  | .callS _ => some s

/-- The unions performed by `EqualityAnalysis::transfer_edge` on a `Goto`
edge: for each `(dst, src)` of the remapping, `union(dst, src)`. -/
def applyRemapping (fuel : Nat) (s : EqualityState) :
    List (VariableId × VariableId) → Option EqualityState
  | [] => some s
  | (dst, src) :: rest =>
    match union fuel s dst src with
    | none => none
    | some (s1, _) => applyRemapping fuel s1 rest

end EqualityState

/-- `merge_referenced_vars`: all variables in either state's parent-map
keys or referenced by any class info of either state, in iteration order. -/
def merge_referenced_vars (info1 info2 : EqualityState) : List VariableId :=
  (info1.union_find.map Prod.fst ++ info2.union_find.map Prod.fst)
    ++ ((info1.class_info.map Prod.snd ++ info2.class_info.map Prod.snd).flatMap
        ClassInfo.referenced_vars)

/-- The grouping step of `EqualityAnalysis::merge`: group every referenced
variable by its pair of representatives `(find_immut in info1, find_immut
in info2)`. -/
def buildGroups (info1 info2 : EqualityState) :
    Option (List ((VariableId × VariableId) × List VariableId)) :=
  (merge_referenced_vars info1 info2).foldlM
    (fun groups var =>
      match info1.find_immut var, info2.find_immut var with
      | some r1, some r2 => some (OHM.updateEntry groups (r1, r2) [] (fun l => l ++ [var]))
      | _, _ => none)
    []

/-- The union step of `EqualityAnalysis::merge`: union all members within
each group of size at least two. -/
def unionGroups (fuel : Nat) (result : EqualityState)
    (groups : List ((VariableId × VariableId) × List VariableId)) : Option EqualityState :=
  groups.foldlM
    (fun result kv =>
      match kv.2 with
      | [] => some result
      | [_] => some result
      | first :: rest =>
        rest.foldlM (fun r var => (EqualityState.union fuel r first var).map Prod.fst) result)
    result

/-- The secondary index of `EqualityAnalysis::merge`:
`rep1 -> [(rep2, intersection representative in result)]`. -/
def buildIntersections (result : EqualityState)
    (groups : List ((VariableId × VariableId) × List VariableId)) :
    Option (EqualityState × List (VariableId × List (VariableId × VariableId))) :=
  groups.foldlM
    (fun p kv =>
      match kv.2 with
      | [] => some p
      | v0 :: _ =>
        match p.1.find v0 with
        | none => none
        | some (result, rep) =>
          some (result, OHM.updateEntry p.2 kv.1.1 [] (fun l => l ++ [(kv.1.2, rep)])))
    (result, [])

/-- `find_intersection_rep` of `merge_class_relationships`. -/
def find_intersection_rep (result : EqualityState) (info1 info2 : EqualityState)
    (intersections : List (VariableId × List (VariableId × VariableId)))
    (rep1 rep2 : Option VariableId) : Option (EqualityState × Option VariableId) :=
  match rep1, rep2 with
  | some r1, some r2 =>
    match info1.find_immut r1 with
    | none => none
    | some rr1 =>
      match info2.find_immut r2 with
      | none => none
      | some rr2 =>
        match OHM.getV intersections rr1 with
        | none => some (result, none)
        | some lst =>
          match lst.find? (fun q => q.1 == rr2) with
          | none => some (result, none)
          | some q =>
            match result.find q.2 with
            | none => none
            | some (res2, rep) => some (res2, some rep)
  | _, _ => some (result, none)

/-- `merge_class_relationships`: install in the result every box/snapshot
relation that both branches agree on, through the intersection index. -/
def merge_class_relationships (fuel : Nat) (info1 info2 : EqualityState)
    (intersections : List (VariableId × List (VariableId × VariableId)))
    (result : EqualityState) : Option EqualityState :=
  info1.class_info.foldlM
    (fun result entry =>
      ((OHM.getV intersections entry.1).getD []).foldlM
        (fun result q =>
          match OHM.getV info2.class_info q.1 with
          | none => some result
          | some class2 =>
            match find_intersection_rep result info1 info2 intersections
                entry.2.boxed_class class2.boxed_class with
            | none => none
            | some (result1, boxedRep) =>
              match (match boxedRep with
                     | some br => EqualityState.set_box_relationship fuel result1 q.2 br
                     | none => some result1) with
              | none => none
              | some result2 =>
                match find_intersection_rep result2 info1 info2 intersections
                    entry.2.snapshot_class class2.snapshot_class with
                | none => none
                | some (result3, snapRep) =>
                  match snapRep with
                  | some sr => EqualityState.set_snapshot_relationship fuel result3 q.2 sr
                  | none => some result3)
        result)
    result

/-- `EqualityAnalysis::merge`: intersection-based join of two states. -/
def EqualityAnalysis.merge (fuel : Nat) (info1 info2 : EqualityState) :
    Option EqualityState :=
  match buildGroups info1 info2 with
  | none => none
  | some groups =>
    match unionGroups fuel {} groups with
    | none => none
    | some result0 =>
      match buildIntersections result0 groups with
      | none => none
      | some (result, intersections) =>
        merge_class_relationships fuel info1 info2 intersections result

/-- A variable not mentioned anywhere in a state. Statement outputs and
goto-remapping destinations are fresh in this sense when the analysis
runs, by the single-definition property of the lowered IR. -/
def FreshVar (s : EqualityState) (v : VariableId) : Prop := v ∉ mentionedVars s

/-- Freshness of a statement's outputs relative to the state in which the
statement is transferred (the IR defines each variable once, and a
statement's outputs differ from its inputs). -/
def StmtOutputsFresh (s : EqualityState) : Statement → Prop
  | .snapshotS input original snap =>
      FreshVar s original ∧ FreshVar s snap ∧ snap ≠ original ∧ snap ≠ input ∧ original ≠ input
  | .desnapS input output => FreshVar s output ∧ output ≠ input
  | .intoBoxS input output => FreshVar s output ∧ output ≠ input
  | .unboxS input output => FreshVar s output ∧ output ≠ input
  | _ => True

/-- The equality states the analysis can produce: the empty initial state,
closed under statement transfer, the unions a goto edge's remapping
performs (destination fresh, as in the IR), and the intersection merge. -/
inductive Produced : EqualityState → Prop
  | empty : Produced {}
  | stmt {s s' : EqualityState} {fuel : Nat} {st : Statement} :
      Produced s → StmtOutputsFresh s st →
      EqualityState.transfer_stmt fuel s st = some s' → Produced s'
  | edgeUnion {s s' : EqualityState} {fuel : Nat} {dst src r : VariableId} :
      Produced s → FreshVar s dst → dst ≠ src →
      EqualityState.union fuel s dst src = some (s', r) → Produced s'
  | mergeStep {s1 s2 s' : EqualityState} {fuel : Nat} :
      Produced s1 → Produced s2 →
      EqualityAnalysis.merge fuel s1 s2 = some s' → Produced s'

/-- A match arm: only the target block matters to the analyses. -/
structure MatchArmM where
  block_id : Nat
deriving DecidableEq, Repr

/-- A match's info: arms, location, the matched function and inputs (as in
`MatchExternInfo`; the analyses use arms and location, the rewriter also
writes function and inputs). -/
structure MatchInfoM where
  arms : List MatchArmM
  location : Nat
  function : Nat
  inputs : List VariableId
deriving DecidableEq, Repr

/-- `BlockEnd`. -/
inductive BlockEndM
  | goto (target : Nat) (remapping : List (VariableId × VariableId))
  | matchEnd (info : MatchInfoM)
  | ret
  | panicB
  | notSet
deriving DecidableEq, Repr

/-- `BlockEnd::location`, for the cases the analyses consult (a match's
location; the other ends' locations are never read by the embedded code). -/
def BlockEndM.location : BlockEndM → Option Nat
  | .matchEnd mi => some mi.location
  | _ => none

/-- A basic block. -/
structure BlockM where
  statements : List Statement
  endB : BlockEndM
deriving DecidableEq, Repr

/-- A lowered function: its blocks (root is block 0). -/
structure LoweredM where
  blocks : List BlockM
deriving DecidableEq, Repr

/-- An edge handed to `transfer_edge`. -/
inductive EdgeM
  | gotoE (target : Nat) (remapping : List (VariableId × VariableId))
  | matchArmE (arm : MatchArmM) (info : MatchInfoM)
deriving DecidableEq, Repr

/-- The successor block ids of a block end. -/
def BlockEndM.successors : BlockEndM → List Nat
  | .goto target _ => [target]
  | .matchEnd mi => mi.arms.map MatchArmM.block_id
  | _ => []

/-- `EqualityAnalysis::transfer_edge`: union remapped variables on a goto,
clone unchanged on a match arm. -/
def EqualityAnalysis.transfer_edge (fuel : Nat) (s : EqualityState) :
    EdgeM → Option EqualityState
  | .gotoE _ remapping => EqualityState.applyRemapping fuel s remapping
  | .matchArmE _ _ => pure s

/-- An analyzer for the forward driver: the `DataflowAnalyzer` trait with
the analyzer's own mutable state made explicit (`σ`). -/
structure AnalyzerM (σ Info : Type) where
  initial_info : σ → Nat → BlockEndM → σ × Info
  mergeInfo : σ → LoweredM → Nat × Nat → Info → Info → σ × Info
  visit_block_start : σ → Info → Nat → BlockM → σ × Info
  transfer_block : σ → Info → Nat → BlockM → σ × Info
  transfer_edge : σ → Info → EdgeM → σ × Info

/-- `compute_predecessor_counts` (forward.rs). Out-of-range successor ids
would make the source panic; `List.set` is then the identity, and the
theorems' hypotheses rule that case out. -/
def compute_predecessor_counts (lowered : LoweredM) : List Nat :=
  lowered.blocks.foldl
    (fun counts block =>
      match block.endB with
      | .goto target _ => counts.set target (counts.getD target 0 + 1)
      | .matchEnd mi =>
        mi.arms.foldl (fun c arm => c.set arm.block_id (c.getD arm.block_id 0 + 1)) counts
      | _ => counts)
    (List.replicate lowered.blocks.length 0)

/-- The forward driver's mutable state, with the order blocks are popped
from the ready stack recorded for the visited-once property. -/
structure FwdState (σ Info : Type) where
  a : σ
  predecessor_counts : List Nat
  incoming : List (Option Info)
  block_info : List (Option Info)
  ready : List Nat
  popped : List Nat

/-- `ForwardDataflowAnalysis::add_and_maybe_ready`. The source decrements a
`usize` that cannot underflow in a consistent run; `Nat` subtraction agrees
there. -/
def add_and_maybe_ready {σ Info : Type} (A : AnalyzerM σ Info) (lowered : LoweredM)
    (st : FwdState σ Info) (target : Nat) (info : Info) : FwdState σ Info :=
  let (a, merged) :=
    match (st.incoming.getD target none) with
    | some existing => A.mergeInfo st.a lowered (target, 0) existing info
    | none => (st.a, info)
  let c := st.predecessor_counts.getD target 0
  { st with
    a := a
    incoming := st.incoming.set target (some merged)
    predecessor_counts := st.predecessor_counts.set target (c - 1)
    ready := if c - 1 = 0 then target :: st.ready else st.ready }

/-- `ForwardDataflowAnalysis::propagate_to_successors`. A `NotSet` block
end is modelled as having no successors (the source marks it
unreachable); the theorems' IR hypotheses keep it out of real runs. -/
def propagate_to_successors {σ Info : Type} (A : AnalyzerM σ Info) (lowered : LoweredM)
    (st : FwdState σ Info) (block_id : Nat) (info : Info) : FwdState σ Info :=
  match (lowered.blocks.getD block_id ⟨[], .notSet⟩).endB with
  | .goto target remapping =>
    let (a, tinfo) := A.transfer_edge st.a info (.gotoE target remapping)
    add_and_maybe_ready A lowered { st with a := a } target tinfo
  | .matchEnd mi =>
    mi.arms.foldl
      (fun st arm =>
        let (a, ainfo) := A.transfer_edge st.a info (.matchArmE arm mi)
        add_and_maybe_ready A lowered { st with a := a } arm.block_id ainfo)
      st
  | _ => st

/-- The loop of `ForwardDataflowAnalysis::run`, with fuel (the source loops
until the ready stack is empty; under the theorems' hypotheses the number
of iterations is at most the number of blocks). The ready stack is LIFO:
pushes cons, pops take the head. The source `unwrap`s the incoming info;
the hypotheses guarantee it is present, and `default` is returned where the
source would panic. -/
def runLoop {σ Info : Type} [Inhabited Info] (A : AnalyzerM σ Info) (lowered : LoweredM) :
    Nat → FwdState σ Info → FwdState σ Info
  | 0, st => st
  | fuel + 1, st =>
    match st.ready with
    | [] => st
    | block_id :: rest =>
      let st := { st with ready := rest, popped := st.popped ++ [block_id] }
      let block := lowered.blocks.getD block_id ⟨[], .notSet⟩
      let info := (st.incoming.getD block_id none).getD default
      let (a, info) := A.visit_block_start st.a info block_id block
      let (a, info) := A.transfer_block a info block_id block
      let st := propagate_to_successors A lowered { st with a := a } block_id info
      let st := { st with block_info := st.block_info.set block_id (some info) }
      runLoop A lowered fuel st

/-- `ForwardDataflowAnalysis::run`. -/
def ForwardDataflowAnalysis.run {σ Info : Type} [Inhabited Info] (A : AnalyzerM σ Info)
    (a0 : σ) (lowered : LoweredM) (fuel : Nat) : FwdState σ Info :=
  let n := lowered.blocks.length
  let (a1, rootInfo) := A.initial_info a0 0 (lowered.blocks.getD 0 ⟨[], .notSet⟩).endB
  runLoop A lowered fuel
    { a := a1
      predecessor_counts := compute_predecessor_counts lowered
      incoming := (List.replicate n (none : Option Info)).set 0 (some rootInfo)
      block_info := List.replicate n none
      ready := [0]
      popped := [] }

/-- `ReachableSideEffects`: can this point still reach a return or a
side-effect statement. -/
inductive ReachableSideEffects
  | reachable
  | unreachableR (loc : Nat)
deriving DecidableEq, Repr, Inhabited

/-- A recorded fix: a statement location `(block_id, statement_index)` and
the location of the responsible match. -/
abbrev FixM := (Nat × Nat) × Nat

/-- `UnsafePanicContext::has_side_effects`: a call statement whose callee
is an extern function of the configured side-effect set. -/
def has_side_effects (side_effect_fns : List Nat) : Statement → Bool
  | .callS (some f) => side_effect_fns.contains f
  | _ => false

/-- `UnsafePanicContext::initial_info`: a match end starts unreachable at
the match's location, everything else reachable. -/
def UnsafePanicContext.initial_info (blockEnd : BlockEndM) : ReachableSideEffects :=
  match blockEnd with
  | .matchEnd mi => .unreachableR mi.location
  | _ => .reachable

/-- `UnsafePanicContext::merge`: reachable wins; two unreachables merge to
the popping block's end location (`unwrap`ped in the source; 0 where the
source would panic, never hit under the modelled driver's use). -/
def UnsafePanicContext.mergeInfo (lowered : LoweredM) (block_id : Nat)
    (i1 i2 : ReachableSideEffects) : ReachableSideEffects :=
  match i1, i2 with
  | .reachable, _ => .reachable
  | _, .reachable => .reachable
  | .unreachableR _, .unreachableR _ =>
    .unreachableR (((lowered.blocks.getD block_id ⟨[], .notSet⟩).endB.location).getD 0)

/-- The index of the first side-effect statement at or after position `i`,
scanning forward (the statement loop of the source `transfer_block`). -/
def scanSideEffect (side_effect_fns : List Nat) : List Statement → Nat → Option Nat
  | [], _ => none
  | st :: rest, i =>
    if has_side_effects side_effect_fns st then some i
    else scanSideEffect side_effect_fns rest (i + 1)

/-- `UnsafePanicContext::transfer_block`: record a fix at the end of a
match-terminated block whose exit state is unreachable; then scan the
statements (the source iterates them in forward order) and, at the first
side-effect statement found while still unreachable, record a fix at its
index and switch to reachable. Returns the recorded fixes and the final
info. -/
def UnsafePanicContext.transfer_block (side_effect_fns : List Nat) (block_id : Nat)
    (block : BlockM) (info : ReachableSideEffects) : List FixM × ReachableSideEffects :=
  let fixes0 : List FixM :=
    match block.endB, info with
    | .matchEnd mi, .unreachableR _ => [((block_id, block.statements.length), mi.location)]
    | _, _ => []
  match info with
  | .reachable => (fixes0, info)
  | .unreachableR loc =>
    match scanSideEffect side_effect_fns block.statements 0 with
    | some i => (fixes0 ++ [((block_id, i), loc)], .reachable)
    | none => (fixes0, info)

/-- `UnsafePanicContext::transfer_edge`: on a match arm whose state is
unreachable, record a fix at the arm's start; propagate unchanged. Returns
the recorded fixes. -/
def UnsafePanicContext.transfer_edge (edge : EdgeM) (info : ReachableSideEffects) :
    List FixM :=
  match edge, info with
  | .matchArmE arm _, .unreachableR l => [((arm.block_id, 0), l)]
  | _, _ => []

/-- Modelled from the spec: the number of outgoing edges of each block
(§4.4 backward driver, whose source file is not among the provided files);
a match with no arms is terminal. -/
def successor_counts (lowered : LoweredM) : List Nat :=
  lowered.blocks.map (fun b => b.endB.successors.length)

/-- Modelled from the spec: the edges from a predecessor block `p` into
block `b`, as `transfer_edge` receives them (§4.4). -/
def edgesInto (lowered : LoweredM) (b : Nat) : List (Nat × EdgeM) :=
  (List.range lowered.blocks.length).flatMap fun p =>
    match (lowered.blocks.getD p ⟨[], .notSet⟩).endB with
    | .goto target remapping => if target = b then [(p, .gotoE target remapping)] else []
    | .matchEnd mi =>
      (mi.arms.filter (fun arm => arm.block_id == b)).map fun arm => (p, .matchArmE arm mi)
    | _ => []

/-- The backward driver's mutable state for the early-terminate pass. -/
structure BackState where
  fixes : List FixM
  counts : List Nat
  incoming : List (Option ReachableSideEffects)
  block_info : List (Option ReachableSideEffects)
  ready : List Nat
deriving Repr

/-- Modelled from the spec: feeding a predecessor `p` with a state flowing
back from a popped successor — merge with what already flowed, decrement
the successor count, and mark ready at zero (§4.4, symmetric to
`add_and_maybe_ready`). -/
def backFeed (lowered : LoweredM) (st : BackState) (p : Nat)
    (info : ReachableSideEffects) : BackState :=
  let merged :=
    match st.incoming.getD p none with
    | some existing => UnsafePanicContext.mergeInfo lowered p existing info
    | none => info
  let c := st.counts.getD p 0
  { st with
    incoming := st.incoming.set p (some merged)
    counts := st.counts.set p (c - 1)
    ready := if c - 1 = 0 then p :: st.ready else st.ready }

/-- Modelled from the spec: the backward driver's loop for the
early-terminate analyzer (§4.4): pop a ready block, run its
`transfer_block` on the state at its exit, record the result, and
propagate through each incoming edge to the block's predecessors. -/
def backRunLoop (side_effect_fns : List Nat) (lowered : LoweredM) :
    Nat → BackState → BackState
  | 0, st => st
  | fuel + 1, st =>
    match st.ready with
    | [] => st
    | b :: rest =>
      let st := { st with ready := rest }
      let block := lowered.blocks.getD b ⟨[], .notSet⟩
      let info := (st.incoming.getD b none).getD (UnsafePanicContext.initial_info block.endB)
      let p := UnsafePanicContext.transfer_block side_effect_fns b block info
      let st := { st with fixes := st.fixes ++ p.1, block_info := st.block_info.set b (some p.2) }
      let st := (edgesInto lowered b).foldl
        (fun st pe =>
          let st := { st with fixes := st.fixes ++ UnsafePanicContext.transfer_edge pe.2 p.2 }
          backFeed lowered st pe.1 p.2)
        st
      backRunLoop side_effect_fns lowered fuel st

/-- Modelled from the spec: the backward driver's run for the
early-terminate analyzer (§4.4): seed the ready stack with the terminal
blocks (each initialized through `initial_info`), loop, return the final
state; the root's computed info is what `early_unsafe_panic` consumes. -/
def backRun (side_effect_fns : List Nat) (lowered : LoweredM) : BackState :=
  let n := lowered.blocks.length
  let counts := successor_counts lowered
  let terminals := (List.range n).filter (fun b => counts.getD b 1 = 0)
  let incoming := terminals.foldl
    (fun (inc : List (Option ReachableSideEffects)) b =>
      inc.set b (some (UnsafePanicContext.initial_info (lowered.blocks.getD b ⟨[], .notSet⟩).endB)))
    (List.replicate n none)
  backRunLoop side_effect_fns lowered (n * n + 1)
    { fixes := [], counts := counts, incoming := incoming, block_info := List.replicate n none,
      ready := terminals.reverse }

/-- Applying one recorded fix: truncate the block's statements at the
statement index and replace its end with a zero-arm extern match on the
trap function (the rewrite loop of `early_unsafe_panic`). -/
def applyFix (panic_fn : Nat) (lw : LoweredM) (fix : FixM) : LoweredM :=
  let ((block_id, statement_idx), location) := fix
  match lw.blocks.getD block_id ⟨[], .notSet⟩ with
  | blk =>
    ⟨lw.blocks.set block_id
      ⟨blk.statements.take statement_idx,
        .matchEnd ⟨[], location, panic_fn, []⟩⟩⟩

/-- `early_unsafe_panic` (early_unsafe_panic.rs): run the backward
analysis; if the root is unreachable replace everything with a single trap
at the root, otherwise apply the recorded fixes. `flag` is the host's
`unsafe_panic` flag, `side_effect_fns` the configured side-effect externs
(print, trace), `panic_fn` the trap function's id. -/
def early_unsafe_panic (flag : Bool) (side_effect_fns : List Nat) (panic_fn : Nat)
    (lowered : LoweredM) : LoweredM :=
  if !flag || lowered.blocks.isEmpty then lowered
  else
    let st := backRun side_effect_fns lowered
    let root_info := (st.block_info.getD 0 none).getD .reachable
    let fixes :=
      match root_info with
      | .unreachableR location => [((0, 0), location)]
      | .reachable => st.fixes
    fixes.foldl (applyFix panic_fn) lowered

namespace OHM

variable {κ β : Type} [DecidableEq κ]

/-- No key occurs twice: the structural invariant of an `OrderedHashMap`. -/
def NodupKeys (m : List (κ × β)) : Prop := (keys m).Nodup

theorem getV_nil (k : κ) : getV ([] : List (κ × β)) k = none := rfl

theorem getV_cons (e : κ × β) (m : List (κ × β)) (k : κ) :
    getV (e :: m) k = if e.1 = k then some e.2 else getV m k := rfl

theorem insertV_nil (k : κ) (v : β) : insertV ([] : List (κ × β)) k v = [(k, v)] := rfl

theorem insertV_cons (e : κ × β) (m : List (κ × β)) (k : κ) (v : β) :
    insertV (e :: m) k v = if e.1 = k then (k, v) :: m else e :: insertV m k v := rfl

theorem keys_nil : keys ([] : List (κ × β)) = [] := rfl

theorem mem_keys_cons {e : κ × β} {m : List (κ × β)} {k : κ} :
    k ∈ keys (e :: m) ↔ k = e.1 ∨ k ∈ keys m := by
  rw [keys, List.map_cons, List.mem_cons]
  rfl

theorem getV_eq_none {m : List (κ × β)} {k : κ} : getV m k = none ↔ k ∉ keys m := by
  induction m with
  | nil => simp [getV_nil, keys_nil]
  | cons e rest ih =>
    rw [mem_keys_cons, getV_cons]
    by_cases h : e.1 = k
    · simp [h]
    · rw [if_neg h, ih]
      constructor
      · rintro hn (hk | hk)
        · exact h hk.symm
        · exact hn hk
      · intro hn hk
        exact hn (Or.inr hk)

theorem mem_keys_of_getV {m : List (κ × β)} {k : κ} {v : β} (h : getV m k = some v) :
    k ∈ keys m := by
  by_contra hk
  rw [getV_eq_none.2 hk] at h
  cases h

theorem getV_isSome {m : List (κ × β)} {k : κ} : (getV m k).isSome ↔ k ∈ keys m := by
  rcases h : getV m k with _ | v
  · simp [getV_eq_none.1 h]
  · simp [mem_keys_of_getV h]

theorem getV_mem {m : List (κ × β)} {k : κ} {v : β} (h : getV m k = some v) : (k, v) ∈ m := by
  induction m with
  | nil => cases h
  | cons e rest ih =>
    rw [getV_cons] at h
    by_cases he : e.1 = k
    · rw [if_pos he] at h
      cases h
      have : e = (k, e.2) := by
        cases e
        cases he
        rfl
      rw [← this]
      exact List.mem_cons_self e rest
    · rw [if_neg he] at h
      exact List.mem_cons_of_mem e (ih h)

theorem getV_of_mem {m : List (κ × β)} {k : κ} {v : β} (hnd : NodupKeys m)
    (h : (k, v) ∈ m) : getV m k = some v := by
  induction m with
  | nil => cases h
  | cons e rest ih =>
    rw [NodupKeys, keys, List.map_cons, List.nodup_cons] at hnd
    rcases List.mem_cons.1 h with h | h
    · subst h
      rw [getV_cons, if_pos rfl]
    · have hk : k ∈ keys rest := List.mem_map_of_mem Prod.fst h
      have hne : e.1 ≠ k := fun he => hnd.1 (he ▸ hk)
      rw [getV_cons, if_neg hne]
      exact ih hnd.2 h

theorem getV_insertV_self (m : List (κ × β)) (k : κ) (v : β) :
    getV (insertV m k v) k = some v := by
  induction m with
  | nil => rw [insertV_nil, getV_cons, if_pos rfl]
  | cons e rest ih =>
    by_cases h : e.1 = k
    · rw [insertV_cons, if_pos h, getV_cons, if_pos rfl]
    · rw [insertV_cons, if_neg h, getV_cons, if_neg h]
      exact ih

theorem getV_insertV_ne (m : List (κ × β)) {k k' : κ} (v : β) (h : k' ≠ k) :
    getV (insertV m k v) k' = getV m k' := by
  have hkk : ¬ (k = k') := fun hk => h hk.symm
  induction m with
  | nil => rw [insertV_nil, getV_cons, if_neg hkk, getV_nil]
  | cons e rest ih =>
    by_cases he : e.1 = k
    · subst he
      rw [insertV_cons, if_pos rfl, getV_cons, getV_cons, if_neg hkk, if_neg hkk]
    · rw [insertV_cons, if_neg he, getV_cons, getV_cons]
      by_cases he' : e.1 = k'
      · rw [if_pos he', if_pos he']
      · rw [if_neg he', if_neg he']
        exact ih

theorem keys_insertV (m : List (κ × β)) (k : κ) (v : β) {x : κ} :
    x ∈ keys (insertV m k v) ↔ x = k ∨ x ∈ keys m := by
  induction m with
  | nil =>
    rw [insertV_nil, mem_keys_cons, keys_nil]
  | cons e rest ih =>
    by_cases he : e.1 = k
    · rw [insertV_cons, if_pos he, mem_keys_cons, mem_keys_cons, he]
      tauto
    · rw [insertV_cons, if_neg he, mem_keys_cons, mem_keys_cons, ih]
      tauto

theorem nodupKeys_insertV (m : List (κ × β)) (k : κ) (v : β) (hnd : NodupKeys m) :
    NodupKeys (insertV m k v) := by
  induction m with
  | nil =>
    rw [insertV_nil, NodupKeys, keys, List.map_cons]
    simp [keys_nil]
  | cons e rest ih =>
    rw [NodupKeys, keys, List.map_cons, List.nodup_cons] at hnd
    by_cases he : e.1 = k
    · subst he
      rw [NodupKeys, insertV_cons, if_pos rfl, keys, List.map_cons]
      exact List.nodup_cons.2 hnd
    · rw [NodupKeys, insertV_cons, if_neg he, keys, List.map_cons, List.nodup_cons]
      refine ⟨fun hk => ?_, ih hnd.2⟩
      rcases (keys_insertV rest k v).1 hk with h | h
      · exact he h
      · exact hnd.1 h

theorem swapRemove_fst (m : List (κ × β)) (k : κ) : (swapRemove m k).1 = getV m k := by
  induction m with
  | nil => rfl
  | cons e rest ih =>
    by_cases he : e.1 = k
    · rcases h : rest.getLast? with _ | last <;> simp [swapRemove, getV_cons, he, h]
    · simp [swapRemove, getV_cons, he, ih]

theorem swapRemove_perm (m : List (κ × β)) (k : κ) :
    (swapRemove m k).2.Perm (m.eraseP (fun e => e.1 == k)) := by
  induction m with
  | nil => simp [swapRemove]
  | cons e rest ih =>
    by_cases he : e.1 = k
    · have heb : (e.1 == k) = true := by simp [he]
      rcases h : rest.getLast? with _ | last
      · have : rest = [] := by
          cases rest with
          | nil => rfl
          | cons a l => rw [List.getLast?_cons] at h; cases h
        subst this
        simp [swapRemove, he, h, List.eraseP_cons, heb]
      · have hr : rest.dropLast ++ [last] = rest := List.dropLast_append_getLast? last h
        have hperm : (last :: rest.dropLast).Perm rest := by
          have := (List.perm_append_singleton last rest.dropLast).symm
          rw [hr] at this
          exact this
        have h2 : (swapRemove (e :: rest) k).2 = last :: rest.dropLast := by
          simp [swapRemove, he, h]
        have h3 : (e :: rest).eraseP (fun x => x.1 == k) = rest := by
          simp [List.eraseP_cons, heb]
        rw [h2, h3]
        exact hperm
    · have heb : (e.1 == k) = false := by simp [he]
      have h2 : (swapRemove (e :: rest) k).2 = e :: (swapRemove rest k).2 := by
        simp [swapRemove, he]
      have h3 : (e :: rest).eraseP (fun x => x.1 == k) = e :: rest.eraseP (fun x => x.1 == k) := by
        simp [List.eraseP_cons, heb]
      rw [h2, h3]
      exact ih.cons e

theorem keys_swapRemove_subset (m : List (κ × β)) (k : κ) {x : κ} :
    x ∈ keys (swapRemove m k).2 → x ∈ keys m := by
  intro hx
  rcases List.mem_map.1 hx with ⟨e, he, rfl⟩
  have := (swapRemove_perm m k).mem_iff.1 he
  exact List.mem_map_of_mem Prod.fst (List.mem_of_mem_eraseP this)

theorem nodupKeys_swapRemove (m : List (κ × β)) (k : κ) (hnd : NodupKeys m) :
    NodupKeys (swapRemove m k).2 := by
  have hperm : (keys (swapRemove m k).2).Perm (keys (m.eraseP (fun e => e.1 == k))) :=
    (swapRemove_perm m k).map Prod.fst
  refine hperm.nodup_iff.2 ?_
  exact List.Nodup.sublist ((List.eraseP_sublist m).map Prod.fst) hnd

theorem keys_eraseP_self {m : List (κ × β)} {k : κ} (hnd : NodupKeys m) :
    k ∉ keys (m.eraseP (fun e => e.1 == k)) := by
  induction m with
  | nil => simp [keys_nil]
  | cons a rest ih =>
    rw [NodupKeys, keys, List.map_cons, List.nodup_cons] at hnd
    by_cases ha : a.1 = k
    · have hab : (a.1 == k) = true := by simp [ha]
      rw [List.eraseP_cons, hab, cond_true]
      exact fun hk => hnd.1 (ha ▸ hk)
    · have hab : (a.1 == k) = false := by simp [ha]
      rw [List.eraseP_cons, hab, cond_false]
      intro hk
      rcases mem_keys_cons.1 hk with h | h
      · exact ha h.symm
      · exact ih hnd.2 h

theorem getV_swapRemove_self (m : List (κ × β)) (k : κ) (hnd : NodupKeys m) :
    getV (swapRemove m k).2 k = none := by
  rw [getV_eq_none]
  intro hx
  have hperm : (keys (swapRemove m k).2).Perm (keys (m.eraseP (fun e => e.1 == k))) :=
    (swapRemove_perm m k).map Prod.fst
  exact keys_eraseP_self hnd (hperm.mem_iff.1 hx)

theorem getV_swapRemove_ne (m : List (κ × β)) {k k' : κ} (hnd : NodupKeys m) (h : k' ≠ k) :
    getV (swapRemove m k).2 k' = getV m k' := by
  rcases hv : getV (swapRemove m k).2 k' with _ | v
  · rcases hv' : getV m k' with _ | v'
    · rfl
    · exfalso
      have hmem : (k', v') ∈ m := getV_mem hv'
      have hne : ¬ ((fun (e : κ × β) => e.1 == k) (k', v') = true) := by simp [h]
      have : (k', v') ∈ (swapRemove m k).2 :=
        (swapRemove_perm m k).mem_iff.2
          ((List.mem_eraseP_of_neg (p := fun e => e.1 == k) (a := (k', v')) (l := m) hne).2 hmem)
      have := getV_of_mem (nodupKeys_swapRemove m k hnd) this
      rw [hv] at this
      cases this
  · have hmem : (k', v) ∈ (swapRemove m k).2 := getV_mem hv
    have : (k', v) ∈ m := List.mem_of_mem_eraseP ((swapRemove_perm m k).mem_iff.1 hmem)
    rw [getV_of_mem hnd this]

theorem getV_entryOrInsert_self (m : List (κ × β)) (k : κ) (d : β) :
    getV (entryOrInsert m k d) k = some ((getV m k).getD d) := by
  rcases h : getV m k with _ | v
  · rw [entryOrInsert, h]
    induction m with
    | nil => rw [List.nil_append, getV_cons, if_pos rfl]; rfl
    | cons e rest ih =>
      have hne : e.1 ≠ k := by
        intro hk
        rw [getV_cons, if_pos hk] at h
        cases h
      rw [getV_cons, if_neg hne] at h
      rw [List.cons_append, getV_cons, if_neg hne]
      exact ih h
  · rw [entryOrInsert, h]
    simpa using h

theorem getV_entryOrInsert_ne (m : List (κ × β)) {k k' : κ} (d : β) (h : k' ≠ k) :
    getV (entryOrInsert m k d) k' = getV m k' := by
  rw [entryOrInsert]
  rcases getV m k with _ | v
  · induction m with
    | nil =>
      rw [List.nil_append, getV_cons, if_neg (fun he => h he.symm), getV_nil]
    | cons e rest ih =>
      rw [List.cons_append, getV_cons, getV_cons]
      by_cases he : e.1 = k'
      · rw [if_pos he, if_pos he]
      · rw [if_neg he, if_neg he]
        exact ih
  · rfl

theorem keys_entryOrInsert (m : List (κ × β)) (k : κ) (d : β) {x : κ} :
    x ∈ keys (entryOrInsert m k d) ↔ x = k ∨ x ∈ keys m := by
  rw [entryOrInsert]
  rcases h : getV m k with _ | v
  · rw [keys, List.map_append, List.mem_append]
    constructor
    · rintro (hx | hx)
      · exact .inr hx
      · left
        simpa using hx
    · rintro (hx | hx)
      · right
        simp [hx]
      · exact .inl hx
  · constructor
    · exact .inr
    · rintro (rfl | hx)
      · exact mem_keys_of_getV h
      · exact hx

theorem nodupKeys_entryOrInsert (m : List (κ × β)) (k : κ) (d : β) (hnd : NodupKeys m) :
    NodupKeys (entryOrInsert m k d) := by
  rw [entryOrInsert]
  rcases h : getV m k with _ | v
  · rw [NodupKeys, keys, List.map_append]
    refine List.Nodup.append hnd (by simp [keys]) ?_
    intro x hx hx'
    have : x = k := by simpa [keys] using hx'
    subst this
    exact (getV_eq_none.1 h) hx
  · exact hnd

theorem getV_updateEntry_self (m : List (κ × β)) (k : κ) (d : β) (f : β → β) :
    getV (updateEntry m k d f) k = some (f ((getV m k).getD d)) :=
  getV_insertV_self m k _

theorem getV_updateEntry_ne (m : List (κ × β)) {k k' : κ} (d : β) (f : β → β) (h : k' ≠ k) :
    getV (updateEntry m k d f) k' = getV m k' :=
  getV_insertV_ne m _ h

theorem keys_updateEntry (m : List (κ × β)) (k : κ) (d : β) (f : β → β) {x : κ} :
    x ∈ keys (updateEntry m k d f) ↔ x = k ∨ x ∈ keys m :=
  keys_insertV m k _

theorem nodupKeys_updateEntry (m : List (κ × β)) (k : κ) (d : β) (f : β → β)
    (hnd : NodupKeys m) : NodupKeys (updateEntry m k d f) :=
  nodupKeys_insertV m k _ hnd

theorem length_insertV_mem (m : List (κ × β)) (k : κ) (v : β) (h : k ∈ keys m) :
    (insertV m k v).length = m.length := by
  induction m with
  | nil => cases h
  | cons e rest ih =>
    by_cases he : e.1 = k
    · rw [insertV_cons, if_pos he]
      rfl
    · have : k ∈ keys rest := by
        rcases mem_keys_cons.1 h with h' | h'
        · exact absurd h'.symm he
        · exact h'
      rw [insertV_cons, if_neg he, List.length_cons, List.length_cons, ih this]

end OHM

set_option linter.unusedSectionVars false

namespace EqualityState

/-- The union-find parent map type. -/
abbrev UF := List (VariableId × VariableId)

/-- `RootsTo uf v r`: following parent links from `v` reaches the root `r`.
This is the graph of `find_immut` where the source's recursion terminates. -/
inductive RootsTo (uf : UF) : VariableId → VariableId → Prop
  | self {v : VariableId} : get_parent uf v = v → RootsTo uf v v
  | step {v p r : VariableId} : get_parent uf v = p → p ≠ v → RootsTo uf p r →
      RootsTo uf v r

theorem RootsTo.root_parent {uf : UF} {v r : VariableId} (h : RootsTo uf v r) :
    get_parent uf r = r := by
  induction h with
  | self hv => exact hv
  | step hp hne hr ih => exact ih

theorem RootsTo.unique {uf : UF} {v r1 r2 : VariableId} (h1 : RootsTo uf v r1)
    (h2 : RootsTo uf v r2) : r1 = r2 := by
  induction h1 with
  | self hv =>
    cases h2 with
    | self _ => rfl
    | step hp hne hr => exact absurd (hp.symm.trans hv) hne
  | step hp hne hr ih =>
    cases h2 with
    | self hv => exact absurd (hp.symm.trans hv) hne
    | step hp' hne' hr' =>
      exact ih ((hp'.symm.trans hp) ▸ hr')

theorem rootsTo_self_of_not_mem {uf : UF} {v : VariableId} (h : v ∉ OHM.keys uf) :
    RootsTo uf v v :=
  .self (by rw [get_parent, OHM.getV_eq_none.2 h]; rfl)

theorem RootsTo.root_self {uf : UF} {v r : VariableId} (h : RootsTo uf v r) :
    RootsTo uf r r :=
  .self h.root_parent

theorem findD_rootsTo {f : Nat} {uf : UF} {v r : VariableId}
    (h : findD f uf v = some r) : RootsTo uf v r := by
  induction f generalizing v with
  | zero => cases h
  | succ f ih =>
    rw [findD] at h
    by_cases hp : get_parent uf v = v
    · rw [if_pos hp] at h
      cases h
      exact .self hp
    · rw [if_neg hp] at h
      exact .step rfl hp (ih h)

theorem findD_mono {f f' : Nat} {uf : UF} {v r : VariableId}
    (h : findD f uf v = some r) (hf : f ≤ f') : findD f' uf v = some r := by
  induction f generalizing v f' with
  | zero => cases h
  | succ f ih =>
    rw [findD] at h
    rcases Nat.exists_eq_add_of_le hf with ⟨k, rfl⟩
    rw [Nat.succ_add, findD]
    by_cases hp : get_parent uf v = v
    · rw [if_pos hp] at h
      rw [if_pos hp]
      exact h
    · rw [if_neg hp] at h
      rw [if_neg hp]
      exact ih h (Nat.le_add_right f k)

/-- The explicit chain of non-root nodes visited from `v` to its root. -/
inductive ChainTo (uf : UF) : VariableId → VariableId → List VariableId → Prop
  | self {v : VariableId} : get_parent uf v = v → ChainTo uf v v []
  | step {v p r : VariableId} {c : List VariableId} : get_parent uf v = p → p ≠ v →
      ChainTo uf p r c → ChainTo uf v r (v :: c)

theorem chainTo_of_rootsTo {uf : UF} {v r : VariableId} (h : RootsTo uf v r) :
    ∃ c, ChainTo uf v r c := by
  induction h with
  | self hv => exact ⟨[], .self hv⟩
  | step hp hne hr ih =>
    rcases ih with ⟨c, hc⟩
    exact ⟨_, .step hp hne hc⟩

theorem ChainTo.uniq {uf : UF} {v r1 r2 : VariableId} {c1 c2 : List VariableId}
    (h1 : ChainTo uf v r1 c1) (h2 : ChainTo uf v r2 c2) : r1 = r2 ∧ c1 = c2 := by
  induction h1 generalizing c2 with
  | self hv =>
    cases h2 with
    | self _ => exact ⟨rfl, rfl⟩
    | step hp hne hr => exact absurd (hp.symm.trans hv) hne
  | step hp hne hr ih =>
    cases h2 with
    | self hv => exact absurd (hp.symm.trans hv) hne
    | step hp' hne' hr' =>
      rcases ih ((hp'.symm.trans hp) ▸ hr') with ⟨h1, h2⟩
      exact ⟨h1, by rw [h2]⟩

theorem ChainTo.mem_keys {uf : UF} {v r : VariableId} {c : List VariableId}
    (h : ChainTo uf v r c) : ∀ x ∈ c, x ∈ OHM.keys uf := by
  induction h with
  | self hv => intro x hx; cases hx
  | step hp hne hr ih =>
    intro x hx
    rcases List.mem_cons.1 hx with rfl | hx
    · by_contra hk
      have hid : get_parent uf x = x := by rw [get_parent, OHM.getV_eq_none.2 hk]; rfl
      exact hne (hp.symm.trans hid)
    · exact ih x hx

theorem ChainTo.suffix_of_mem {uf : UF} {v r x : VariableId} {c : List VariableId}
    (h : ChainTo uf v r c) (hx : x ∈ c) :
    ∃ c1 c2, c = c1 ++ x :: c2 ∧ ChainTo uf x r (x :: c2) := by
  induction h with
  | self hv => cases hx
  | step hp hne hr ih =>
    rcases List.mem_cons.1 hx with rfl | hx
    · exact ⟨[], _, rfl, .step hp hne hr⟩
    · rcases ih hx with ⟨c1, c2, rfl, hch⟩
      exact ⟨_ :: c1, c2, rfl, hch⟩

theorem ChainTo.nodup {uf : UF} {v r : VariableId} {c : List VariableId}
    (h : ChainTo uf v r c) : c.Nodup := by
  induction h with
  | self hv => exact List.nodup_nil
  | step hp hne hr ih =>
    refine List.nodup_cons.2 ⟨fun hv => ?_, ih⟩
    rcases hr.suffix_of_mem hv with ⟨c1, c2, hc, hch⟩
    cases hch with
    | step hp' hne' htail =>
      rcases hr.uniq ((hp'.symm.trans hp) ▸ htail) with ⟨-, h2⟩
      rw [hc] at h2
      have := congrArg List.length h2
      simp only [List.length_append, List.length_cons] at this
      omega

theorem ChainTo.findD_chain {uf : UF} {v r : VariableId} {c : List VariableId}
    (h : ChainTo uf v r c) : findD (c.length + 1) uf v = some r := by
  induction h with
  | self hv => rw [findD, if_pos hv]
  | step hp hne hr ih =>
    rw [List.length_cons, findD, if_neg (fun hv => hne (hp.symm.trans hv)), hp]
    exact ih

/-- A root is reached within the canonical fuel: chains have no repeated
node and every chain node is a key of the map. -/
theorem rootsTo_findD {uf : UF} {v r : VariableId} (h : RootsTo uf v r) :
    findD (uf.length + 1) uf v = some r := by
  rcases chainTo_of_rootsTo h with ⟨c, hc⟩
  have hlen : c.length ≤ uf.length := by
    have hsub : c ⊆ OHM.keys uf := fun x hx => hc.mem_keys x hx
    have := (hc.nodup.subperm hsub).length_le
    simpa [OHM.keys] using this
  exact findD_mono hc.findD_chain (by omega)

/-- A forest: `find_immut` terminates from every key of the parent map
(and therefore from every variable). Decidable, matching invariant 1. -/
def Forest (uf : UF) : Prop :=
  ∀ v ∈ OHM.keys uf, (findD (uf.length + 1) uf v).isSome

theorem forest_rootsTo_total {uf : UF} (h : Forest uf) (v : VariableId) :
    ∃ r, RootsTo uf v r := by
  by_cases hv : v ∈ OHM.keys uf
  · rcases Option.isSome_iff_exists.1 (h v hv) with ⟨r, hr⟩
    exact ⟨r, findD_rootsTo hr⟩
  · exact ⟨v, rootsTo_self_of_not_mem hv⟩

theorem forest_of_rootsTo {uf : UF} (h : ∀ v ∈ OHM.keys uf, ∃ r, RootsTo uf v r) :
    Forest uf := by
  intro v hv
  rcases h v hv with ⟨r, hr⟩
  rw [rootsTo_findD hr]
  rfl

theorem rootD_eq_of_rootsTo {uf : UF} {v r : VariableId} (h : RootsTo uf v r) :
    rootD uf v = r := by
  rw [rootD, rootsTo_findD h]
  rfl

theorem rootsTo_rootD {uf : UF} (h : Forest uf) (v : VariableId) :
    RootsTo uf v (rootD uf v) := by
  rcases forest_rootsTo_total h v with ⟨r, hr⟩
  rw [rootD_eq_of_rootsTo hr]
  exact hr

theorem rootD_of_not_mem {uf : UF} {v : VariableId} (h : v ∉ OHM.keys uf) :
    rootD uf v = v :=
  rootD_eq_of_rootsTo (rootsTo_self_of_not_mem h)

theorem rootD_idem {uf : UF} (h : Forest uf) (v : VariableId) :
    rootD uf (rootD uf v) = rootD uf v :=
  rootD_eq_of_rootsTo (rootsTo_rootD h v).root_self

theorem rootD_parent_self {uf : UF} (h : Forest uf) (v : VariableId) :
    get_parent uf (rootD uf v) = rootD uf v :=
  (rootsTo_rootD h v).root_parent

/-- Two parent maps with the same pointwise parents have the same chains. -/
theorem rootsTo_congr {uf1 uf2 : UF}
    (h : ∀ x, get_parent uf1 x = get_parent uf2 x) {v r : VariableId}
    (hr : RootsTo uf1 v r) : RootsTo uf2 v r := by
  induction hr with
  | self hv => exact .self ((h _).symm.trans hv)
  | step hp hne hpr ih => exact .step ((h _).symm.trans hp) hne ih

/-- Inserting a missing key as its own parent changes no parent. -/
theorem get_parent_entryOrInsert_self (uf : UF) (k : VariableId) (x : VariableId) :
    get_parent (OHM.entryOrInsert uf k k) x = get_parent uf x := by
  by_cases hx : x = k
  · subst hx
    rw [get_parent, OHM.getV_entryOrInsert_self]
    rcases h : OHM.getV uf x with _ | v
    · rw [get_parent, h]
      rfl
    · rw [get_parent, h]
      rfl
  · rw [get_parent, OHM.getV_entryOrInsert_ne uf k hx, get_parent]

/-- Path compression preserves the chains: rewriting `x`'s parent to `x`'s
own root changes no variable's root. -/
theorem rootsTo_compress {uf : UF} {x r : VariableId} (hx : RootsTo uf x r) (hxr : x ≠ r)
    {v c : VariableId} :
    RootsTo (OHM.insertV uf x r) v c ↔ RootsTo uf v c := by
  have hpar : ∀ y, y ≠ x → get_parent (OHM.insertV uf x r) y = get_parent uf y := by
    intro y hy
    rw [get_parent, OHM.getV_insertV_ne uf r hy, get_parent]
  have hparx : get_parent (OHM.insertV uf x r) x = r := by
    rw [get_parent, OHM.getV_insertV_self]
    rfl
  constructor
  · intro h
    induction h with
    | self hv =>
      rename_i y
      by_cases hyx : y = x
      · subst hyx
        exact absurd (hparx.symm.trans hv).symm hxr
      · exact .self ((hpar y hyx).symm.trans hv)
    | step hp hne hpc ih =>
      rename_i y p c
      by_cases hyx : y = x
      · subst hyx
        have hpr : p = r := (hparx.symm.trans hp).symm
        subst hpr
        rcases hx.root_self.unique ih with rfl
        exact hx
      · exact .step ((hpar y hyx).symm.trans hp) hne ih
  · intro h
    induction h with
    | self hv =>
      rename_i y
      by_cases hyx : y = x
      · subst hyx
        rcases (RootsTo.self hv).unique hx with rfl
        exact absurd rfl hxr
      · exact .self ((hpar y hyx).trans hv)
    | step hp hne hpc ih =>
      rename_i y p c
      by_cases hyx : y = x
      · subst hyx
        rcases (RootsTo.step hp hne hpc).unique hx with rfl
        refine .step hparx (fun h => hxr h.symm) ?_
        exact .self ((hpar c (fun h => hxr h.symm)).trans hx.root_parent)
      · exact .step ((hpar y hyx).trans hp) hne ih

/-- Linking a root `old` under a root `new` merges exactly those two
classes and no others. -/
theorem rootsTo_link {uf : UF} {old new : VariableId} (hne : old ≠ new)
    (hold : get_parent uf old = old) (hnew : get_parent uf new = new)
    {v c : VariableId} :
    RootsTo (OHM.insertV uf old new) v c ↔
      (RootsTo uf v c ∧ c ≠ old) ∨ (RootsTo uf v old ∧ c = new) := by
  have hpar : ∀ y, y ≠ old → get_parent (OHM.insertV uf old new) y = get_parent uf y := by
    intro y hy
    rw [get_parent, OHM.getV_insertV_ne uf new hy, get_parent]
  have hparold : get_parent (OHM.insertV uf old new) old = new := by
    rw [get_parent, OHM.getV_insertV_self]
    rfl
  have aux : ∀ w c0, RootsTo uf w c0 → c0 = old →
      RootsTo (OHM.insertV uf old new) w new := by
    intro w c0 hw
    induction hw with
    | self hv =>
      rintro rfl
      refine .step hparold (fun h => hne h.symm) ?_
      exact .self ((hpar _ (fun h => hne h.symm)).trans hnew)
    | step hp hne' hpc ih =>
      rename_i y p c0'
      intro hc
      by_cases hyo : y = old
      · subst hyo
        exact absurd (hp.symm.trans hold) hne'
      · exact .step ((hpar y hyo).trans hp) hne' (ih hc)
  constructor
  · intro h
    induction h with
    | self hv =>
      rename_i y
      by_cases hyo : y = old
      · subst hyo
        exact absurd (hparold.symm.trans hv).symm hne
      · exact .inl ⟨.self ((hpar y hyo).symm.trans hv), hyo⟩
    | step hp hne' hpc ih =>
      rename_i y p c
      by_cases hyo : y = old
      · subst hyo
        have hpn : p = new := (hparold.symm.trans hp).symm
        subst hpn
        rcases ih with ⟨hc, hco⟩ | ⟨hc, rfl⟩
        · rcases (RootsTo.self hnew).unique hc with rfl
          exact .inr ⟨.self hold, rfl⟩
        · rcases (RootsTo.self hnew).unique hc with rfl
          exact absurd rfl hne
      · rcases ih with ⟨hc, hco⟩ | ⟨hc, rfl⟩
        · exact .inl ⟨.step ((hpar y hyo).symm.trans hp) hne' hc, hco⟩
        · exact .inr ⟨.step ((hpar y hyo).symm.trans hp) hne' hc, rfl⟩
  · rintro (⟨h, hco⟩ | ⟨h, rfl⟩)
    · induction h with
      | self hv =>
        rename_i y
        exact .self ((hpar y hco).trans hv)
      | step hp hne' hpc ih =>
        rename_i y p c
        by_cases hyo : y = old
        · subst hyo
          have : RootsTo uf y c := .step hp hne' hpc
          rcases (RootsTo.self hold).unique this with rfl
          exact absurd rfl hco
        · exact .step ((hpar y hyo).trans hp) hne' (ih hco)
    · exact aux v old h rfl

theorem get_parent_ne_mem {uf : UF} {v : VariableId} (h : get_parent uf v ≠ v) :
    OHM.getV uf v = some (get_parent uf v) := by
  rcases hg : OHM.getV uf v with _ | w
  · rw [get_parent, hg] at h
    exact absurd rfl h
  · rw [get_parent, hg]
    rfl

theorem findA_eq_findD {f : Nat} {uf : UF} {v : VariableId} :
    (findA f uf v).map Prod.snd = findD f uf v := by
  induction f generalizing v with
  | zero => rfl
  | succ f ih =>
    rw [findA, findD]
    by_cases hp : get_parent uf v = v
    · rw [if_pos hp, if_pos hp]
      rfl
    · rw [if_neg hp, if_neg hp, ← ih]
      rcases findA f uf (get_parent uf v) with _ | p <;> rfl

theorem findA_sound {f : Nat} {uf : UF} {v : VariableId} {uf' : UF} {r : VariableId}
    (h : findA f uf v = some (uf', r)) :
    RootsTo uf v r ∧ (∀ x c, RootsTo uf' x c ↔ RootsTo uf x c) ∧
      (∀ x, x ∈ OHM.keys uf' ↔ x ∈ OHM.keys uf) ∧ uf'.length = uf.length ∧
      (OHM.NodupKeys uf → OHM.NodupKeys uf') := by
  induction f generalizing v uf' r with
  | zero => cases h
  | succ f ih =>
    rw [findA] at h
    by_cases hp : get_parent uf v = v
    · rw [if_pos hp] at h
      cases h
      exact ⟨.self hp, fun _ _ => Iff.rfl, fun _ => Iff.rfl, rfl, id⟩
    · rw [if_neg hp] at h
      rcases hrec : findA f uf (get_parent uf v) with _ | q
      · rw [hrec] at h
        cases h
      · rw [hrec] at h
        cases h
        rcases ih hrec with ⟨hroot, hequiv, hkeys, hlen, hnd⟩
        have hvr : RootsTo uf v q.2 := .step rfl hp hroot
        have hvne : v ≠ q.2 := by
          intro hv
          subst hv
          exact hp hvr.root_parent
        have hv1 : RootsTo q.1 v q.2 := (hequiv v q.2).2 hvr
        have hcomp := fun x c => rootsTo_compress hv1 hvne (v := x) (c := c)
        have hvmem : v ∈ OHM.keys uf := OHM.mem_keys_of_getV (get_parent_ne_mem hp)
        have hvmem1 : v ∈ OHM.keys q.1 := (hkeys v).2 hvmem
        refine ⟨hvr, fun x c => (hcomp x c).trans (hequiv x c), fun x => ?_, ?_, fun hn => ?_⟩
        · rw [OHM.keys_insertV]
          constructor
          · rintro (rfl | hx)
            · exact hvmem
            · exact (hkeys x).1 hx
          · intro hx
            exact .inr ((hkeys x).2 hx)
        · rw [OHM.length_insertV_mem _ _ _ hvmem1, hlen]
        · exact OHM.nodupKeys_insertV _ _ _ (hnd hn)

theorem findA_isSome {f : Nat} {uf : UF} {v : VariableId} :
    (findA f uf v).isSome = (findD f uf v).isSome := by
  rw [← findA_eq_findD]
  rcases findA f uf v with _ | q <;> rfl

/-- The specification of the state-level `find` on a forest. -/
theorem find_spec {s : EqualityState} (hf : Forest s.union_find) (v : VariableId) :
    ∃ s', s.find v = some (s', rootD s.union_find v) ∧
      s'.class_info = s.class_info ∧
      (∀ x c, RootsTo s'.union_find x c ↔ RootsTo s.union_find x c) ∧
      (∀ x, x ∈ OHM.keys s'.union_find ↔ x ∈ OHM.keys s.union_find) ∧
      s'.union_find.length = s.union_find.length ∧
      (OHM.NodupKeys s.union_find → OHM.NodupKeys s'.union_find) ∧
      Forest s'.union_find ∧ (∀ x, rootD s'.union_find x = rootD s.union_find x) := by
  have hd : findD (s.union_find.length + 1) s.union_find v = some (rootD s.union_find v) :=
    rootsTo_findD (rootsTo_rootD hf v)
  have hsome : (findA (s.union_find.length + 1) s.union_find v).isSome := by
    rw [findA_isSome, hd]
    rfl
  rcases Option.isSome_iff_exists.1 hsome with ⟨⟨uf', r⟩, ha⟩
  have hr : r = rootD s.union_find v := by
    have := @findA_eq_findD (s.union_find.length + 1) s.union_find v
    rw [ha, hd] at this
    simpa using this
  subst hr
  rcases findA_sound ha with ⟨hroot, hequiv, hkeys, hlen, hnd⟩
  have hroots : ∀ x, rootD uf' x = rootD s.union_find x := fun x =>
    rootD_eq_of_rootsTo ((hequiv x _).2 (rootsTo_rootD hf x))
  refine ⟨{ s with union_find := uf' }, ?_, rfl, hequiv, hkeys, hlen, hnd, ?_, hroots⟩
  · rw [find, ha]
    rfl
  · exact forest_of_rootsTo fun x hx =>
      ⟨rootD s.union_find x, (hequiv x _).2 (rootsTo_rootD hf x)⟩

theorem find_isSome_of_forest {s : EqualityState} (hf : Forest s.union_find)
    (v : VariableId) : (s.find v).isSome := by
  rcases find_spec hf v with ⟨s', hfind, -⟩
  rw [hfind]
  rfl

end EqualityState

instance (uf : EqualityState.UF) : Decidable (EqualityState.Forest uf) := by
  unfold EqualityState.Forest
  infer_instance

/-- C9: on every state whose parent map encodes a forest, the mutating
`find` returns the same representative as the non-mutating `find_immut`,
and the path compression it performs leaves the partition unchanged:
afterwards `find_immut` is unchanged at every variable. -/
theorem C9_find_refines_find_immut (s : EqualityState) (v : VariableId)
    (hf : EqualityState.Forest s.union_find) :
    ∃ s' r, s.find v = some (s', r) ∧ s.find_immut v = some r ∧
      ∀ u, s'.find_immut u = s.find_immut u := by
  rcases EqualityState.find_spec hf v with
    ⟨s', hfind, hci, hequiv, hkeys, hlen, hnd, hf', hroots⟩
  refine ⟨s', _, hfind,
    EqualityState.rootsTo_findD (EqualityState.rootsTo_rootD hf v), fun u => ?_⟩
  have h1 : s'.find_immut u = some (EqualityState.rootD s'.union_find u) :=
    EqualityState.rootsTo_findD (EqualityState.rootsTo_rootD hf' u)
  have h2 : s.find_immut u = some (EqualityState.rootD s.union_find u) :=
    EqualityState.rootsTo_findD (EqualityState.rootsTo_rootD hf u)
  rw [h1, h2, hroots u]

/-- Witness for C9 at a concrete two-link chain. -/
theorem C9_find_refines_find_immut_witness :
    EqualityState.Forest ([(1, 0), (2, 1)] : EqualityState.UF) ∧
      ∃ s' r, (⟨[(1, 0), (2, 1)], []⟩ : EqualityState).find 2 = some (s', r) ∧
        (⟨[(1, 0), (2, 1)], []⟩ : EqualityState).find_immut 2 = some r ∧
        ∀ u, s'.find_immut u = (⟨[(1, 0), (2, 1)], []⟩ : EqualityState).find_immut u :=
  ⟨by decide, C9_find_refines_find_immut ⟨[(1, 0), (2, 1)], []⟩ 2 (by decide)⟩

namespace EqualityState

/-- Equality of representatives: the partition a state encodes. -/
def EqvIn (s : EqualityState) (u v : VariableId) : Prop :=
  rootD s.union_find u = rootD s.union_find v

/-- Every parent-map value is a key: roots reached through the map are
stored (maintained by `union`, which inserts the new root as its own
parent before linking). -/
def ValuesKeys (uf : UF) : Prop := ∀ e ∈ uf, e.2 ∈ OHM.keys uf

/-- The structural well-formedness of a state's maps: the parent map is a
forest whose values are keys, and neither map repeats a key. -/
def BaseWF (s : EqualityState) : Prop :=
  Forest s.union_find ∧ OHM.NodupKeys s.union_find ∧ OHM.NodupKeys s.class_info ∧
    ValuesKeys s.union_find

theorem BaseWF.forest {s : EqualityState} (h : BaseWF s) : Forest s.union_find := h.1

theorem BaseWF.nodup_uf {s : EqualityState} (h : BaseWF s) : OHM.NodupKeys s.union_find :=
  h.2.1

theorem BaseWF.nodup_ci {s : EqualityState} (h : BaseWF s) : OHM.NodupKeys s.class_info :=
  h.2.2.1

theorem BaseWF.values_keys {s : EqualityState} (h : BaseWF s) : ValuesKeys s.union_find :=
  h.2.2.2

theorem RootsTo.root_mem_values {uf : UF} {v r : VariableId} (h : RootsTo uf v r) :
    r = v ∨ r ∈ uf.map Prod.snd := by
  induction h with
  | self hv => exact .inl rfl
  | step hp hne hr ih =>
    rename_i y p c
    rcases ih with rfl | hm
    · right
      have hso : OHM.getV uf y = some c := by
        rcases hg : OHM.getV uf y with _ | w
        · rw [get_parent, hg] at hp
          exact absurd hp.symm hne
        · rw [get_parent, hg, Option.getD_some] at hp
          rw [hp]
      exact List.mem_map_of_mem Prod.snd (OHM.getV_mem hso)
    · exact .inr hm

theorem rootsTo_root_mem_keys {uf : UF} (hvk : ValuesKeys uf) {v r : VariableId}
    (h : RootsTo uf v r) : r = v ∨ r ∈ OHM.keys uf := by
  rcases h.root_mem_values with rfl | hm
  · exact .inl rfl
  · right
    rcases List.mem_map.1 hm with ⟨e, he, rfl⟩
    exact hvk e he

theorem values_insertV_subset {m : UF} {k v y : VariableId}
    (h : y ∈ (OHM.insertV m k v).map Prod.snd) : y = v ∨ y ∈ m.map Prod.snd := by
  induction m with
  | nil =>
    rw [OHM.insertV_nil] at h
    simp at h
    exact .inl h
  | cons e rest ih =>
    rw [OHM.insertV_cons] at h
    by_cases he : e.1 = k
    · rw [if_pos he, List.map_cons, List.mem_cons] at h
      rcases h with h | h
      · exact .inl h
      · right
        rw [List.map_cons, List.mem_cons]
        exact .inr h
    · rw [if_neg he, List.map_cons, List.mem_cons] at h
      rcases h with h | h
      · right
        rw [List.map_cons, List.mem_cons]
        exact .inl h
      · rcases ih h with h | h
        · exact .inl h
        · right
          rw [List.map_cons, List.mem_cons]
          exact .inr h

theorem values_entryOrInsert_subset {m : UF} {k d y : VariableId}
    (h : y ∈ (OHM.entryOrInsert m k d).map Prod.snd) : y = d ∨ y ∈ m.map Prod.snd := by
  rw [OHM.entryOrInsert] at h
  rcases hg : OHM.getV m k with _ | v
  · rw [hg, List.map_append, List.mem_append] at h
    rcases h with h | h
    · exact .inr h
    · left
      simpa using h
  · rw [hg] at h
    exact .inr h

/-- The specification of the linking step of `union` on the parent map:
`insertV (entryOrInsert uf new new) old new` for two distinct roots. -/
theorem link_uf_spec {uf : UF} (hf : Forest uf) (hnd : OHM.NodupKeys uf)
    (hvk : ValuesKeys uf) {old new : VariableId}
    (hold : get_parent uf old = old) (hnew : get_parent uf new = new) (hne : old ≠ new) :
    Forest (OHM.insertV (OHM.entryOrInsert uf new new) old new) ∧
      OHM.NodupKeys (OHM.insertV (OHM.entryOrInsert uf new new) old new) ∧
      ValuesKeys (OHM.insertV (OHM.entryOrInsert uf new new) old new) ∧
      (∀ v, rootD (OHM.insertV (OHM.entryOrInsert uf new new) old new) v =
        if rootD uf v = old then new else rootD uf v) ∧
      (∀ x, x ∈ OHM.keys (OHM.insertV (OHM.entryOrInsert uf new new) old new) ↔
        x = old ∨ x = new ∨ x ∈ OHM.keys uf) ∧
      (∀ y, y ∈ (OHM.insertV (OHM.entryOrInsert uf new new) old new).map Prod.snd →
        y = new ∨ y ∈ uf.map Prod.snd) := by
  set uf0 := OHM.entryOrInsert uf new new with huf0
  have hcongr : ∀ x, get_parent uf0 x = get_parent uf x :=
    get_parent_entryOrInsert_self uf new
  have hold0 : get_parent uf0 old = old := (hcongr old).trans hold
  have hnew0 : get_parent uf0 new = new := (hcongr new).trans hnew
  have hlink := fun v c =>
    @rootsTo_link uf0 old new hne hold0 hnew0 v c
  have hto0 : ∀ {v c}, RootsTo uf v c → RootsTo uf0 v c :=
    fun h => rootsTo_congr (fun x => (hcongr x).symm) h
  have hof0 : ∀ {v c}, RootsTo uf0 v c → RootsTo uf v c :=
    fun h => rootsTo_congr hcongr h
  have hroots : ∀ v, rootD (OHM.insertV uf0 old new) v =
      if rootD uf v = old then new else rootD uf v := by
    intro v
    by_cases hv : rootD uf v = old
    · rw [if_pos hv]
      exact rootD_eq_of_rootsTo ((hlink v new).2 (.inr ⟨hto0 (hv ▸ rootsTo_rootD hf v), rfl⟩))
    · rw [if_neg hv]
      exact rootD_eq_of_rootsTo ((hlink v _).2 (.inl ⟨hto0 (rootsTo_rootD hf v), hv⟩))
  have hforest : Forest (OHM.insertV uf0 old new) := by
    refine forest_of_rootsTo fun v hv => ?_
    by_cases h : rootD uf v = old
    · exact ⟨new, (hlink v new).2 (.inr ⟨hto0 (h ▸ rootsTo_rootD hf v), rfl⟩)⟩
    · exact ⟨rootD uf v, (hlink v _).2 (.inl ⟨hto0 (rootsTo_rootD hf v), h⟩)⟩
  have hkeys : ∀ x, x ∈ OHM.keys (OHM.insertV uf0 old new) ↔
      x = old ∨ x = new ∨ x ∈ OHM.keys uf := by
    intro x
    rw [OHM.keys_insertV, OHM.keys_entryOrInsert]
  refine ⟨hforest, ?_, ?_, hroots, hkeys, ?_⟩
  · exact OHM.nodupKeys_insertV _ _ _ (OHM.nodupKeys_entryOrInsert uf new new hnd)
  · intro e he
    have hv : e.2 = new ∨ e.2 ∈ uf.map Prod.snd := by
      rcases values_insertV_subset (List.mem_map_of_mem Prod.snd he) with h | h
      · exact .inl h
      · exact values_entryOrInsert_subset h
    rcases hv with h | h
    · rw [h, hkeys]
      exact .inr (.inl rfl)
    · rcases List.mem_map.1 h with ⟨w, hw, hwe⟩
      rw [hkeys]
      exact .inr (.inr (hwe ▸ hvk w hw))
  · intro y hy
    rcases values_insertV_subset hy with h | h
    · exact .inl h
    · exact values_entryOrInsert_subset h

theorem mem_mentioned {s : EqualityState} {x : VariableId} :
    x ∈ mentionedVars s ↔
      x ∈ OHM.keys s.union_find ∨ x ∈ s.union_find.map Prod.snd ∨
        x ∈ OHM.keys s.class_info ∨
        ∃ ci, ci ∈ s.class_info.map Prod.snd ∧ x ∈ ci.referenced_vars := by
  rw [mentionedVars, List.mem_append, List.mem_append, List.mem_append, List.mem_flatMap,
    OHM.keys, OHM.keys]
  tauto

theorem uf_keys_mentioned {s : EqualityState} {x : VariableId}
    (h : x ∈ OHM.keys s.union_find) : x ∈ mentionedVars s := mem_mentioned.2 (.inl h)

theorem uf_values_mentioned {s : EqualityState} {x : VariableId}
    (h : x ∈ s.union_find.map Prod.snd) : x ∈ mentionedVars s :=
  mem_mentioned.2 (.inr (.inl h))

theorem ci_keys_mentioned {s : EqualityState} {x : VariableId}
    (h : x ∈ OHM.keys s.class_info) : x ∈ mentionedVars s :=
  mem_mentioned.2 (.inr (.inr (.inl h)))

theorem ci_refs_mentioned {s : EqualityState} {x : VariableId} {ci : ClassInfo}
    (hm : ci ∈ s.class_info.map Prod.snd) (h : x ∈ ci.referenced_vars) :
    x ∈ mentionedVars s := mem_mentioned.2 (.inr (.inr (.inr ⟨ci, hm, h⟩)))

theorem getV_ci_refs_mentioned {s : EqualityState} {k x : VariableId} {ci : ClassInfo}
    (hg : OHM.getV s.class_info k = some ci) (h : x ∈ ci.referenced_vars) :
    x ∈ mentionedVars s :=
  ci_refs_mentioned (List.mem_map_of_mem Prod.snd (OHM.getV_mem hg)) h

theorem swapRemove_entry_subset {κ β : Type} [DecidableEq κ] {m : List (κ × β)} {k : κ}
    {e : κ × β} (h : e ∈ (OHM.swapRemove m k).2) : e ∈ m :=
  List.mem_of_mem_eraseP ((OHM.swapRemove_perm m k).mem_iff.1 h)

theorem rootD_mentioned_or_self {s : EqualityState} (v : VariableId) :
    rootD s.union_find v ∈ mentionedVars s ∨ rootD s.union_find v = v := by
  rcases hr : findD (s.union_find.length + 1) s.union_find v with _ | r
  · right
    rw [rootD, hr]
    rfl
  · have := (findD_rootsTo hr).root_mem_values
    rw [rootD, hr]
    rcases this with h | h
    · exact .inr h
    · exact .inl (uf_values_mentioned h)

/-- What one `union` call guarantees (used as the inductive hypothesis for
the recursive unions `ClassInfo::merge` performs). -/
def UnionConcl (s : EqualityState) (a b : VariableId) (s' : EqualityState)
    (r : VariableId) : Prop :=
  BaseWF s' ∧ (∀ u v, EqvIn s u v → EqvIn s' u v) ∧ EqvIn s' a b ∧
    r = rootD s'.union_find a ∧
    (∀ x, x ∈ mentionedVars s' → x ∈ mentionedVars s ∨ x = a ∨ x = b) ∧
    ((∀ v, rootD s.union_find v ≤ v) → ∀ v, rootD s'.union_find v ≤ v)

theorem mem_insertV {κ β : Type} [DecidableEq κ] {m : List (κ × β)} {k : κ} {v : β}
    {e : κ × β} (h : e ∈ OHM.insertV m k v) : e = (k, v) ∨ e ∈ m := by
  induction m with
  | nil =>
    rw [OHM.insertV_nil] at h
    simp at h
    exact .inl h
  | cons a rest ih =>
    rw [OHM.insertV_cons] at h
    by_cases ha : a.1 = k
    · rw [if_pos ha] at h
      rcases List.mem_cons.1 h with he | h
      · exact .inl he
      · exact .inr (List.mem_cons_of_mem a h)
    · rw [if_neg ha] at h
      rcases List.mem_cons.1 h with he | h
      · right
        rw [he]
        exact List.mem_cons_self a rest
      · rcases ih h with h | h
        · exact .inl h
        · exact .inr (List.mem_cons_of_mem a h)

theorem findA_values {f : Nat} {uf : UF} {v : VariableId} {uf' : UF} {r : VariableId}
    (h : findA f uf v = some (uf', r)) :
    ∀ y ∈ uf'.map Prod.snd, y = r ∨ y ∈ uf.map Prod.snd := by
  induction f generalizing v uf' r with
  | zero => cases h
  | succ f ih =>
    rw [findA] at h
    by_cases hp : get_parent uf v = v
    · rw [if_pos hp] at h
      cases h
      intro y hy
      exact .inr hy
    · rw [if_neg hp] at h
      rcases hrec : findA f uf (get_parent uf v) with _ | q
      · rw [hrec] at h
        cases h
      · rw [hrec] at h
        cases h
        intro y hy
        rcases values_insertV_subset hy with rfl | hy
        · exact .inl rfl
        · exact ih hrec y hy

theorem findA_valuesKeys {f : Nat} {uf : UF} {v : VariableId} {uf' : UF} {r : VariableId}
    (h : findA f uf v = some (uf', r)) (hvk : ValuesKeys uf) : ValuesKeys uf' := by
  induction f generalizing v uf' r with
  | zero => cases h
  | succ f ih =>
    rw [findA] at h
    by_cases hp : get_parent uf v = v
    · rw [if_pos hp] at h
      cases h
      exact hvk
    · rw [if_neg hp] at h
      rcases hrec : findA f uf (get_parent uf v) with _ | ⟨uf1, r1⟩
      · rw [hrec] at h
        cases h
      · rw [hrec] at h
        cases h
        rcases findA_sound hrec with ⟨hroot, hequiv, hkeys, hlen, hnd⟩
        have hvk1 : ValuesKeys uf1 := ih hrec
        have hvmem : v ∈ OHM.keys uf := OHM.mem_keys_of_getV (get_parent_ne_mem hp)
        have hrk : r ∈ OHM.keys uf := by
          have hvq : RootsTo uf v r := .step rfl hp hroot
          rcases rootsTo_root_mem_keys hvk hvq with he | hk
          · rw [he]
            exact hvmem
          · exact hk
        intro e he
        rcases mem_insertV he with he | he
        · rw [OHM.keys_insertV]
          rw [he]
          exact .inr ((hkeys _).2 hrk)
        · rw [OHM.keys_insertV]
          exact .inr (hvk1 e he)

/-- Everything the state-level `find` guarantees, given the equation. -/
theorem find_eq_spec {s s' : EqualityState} {v r : VariableId}
    (hwf : BaseWF s) (h : s.find v = some (s', r)) :
    BaseWF s' ∧ r = rootD s.union_find v ∧ s'.class_info = s.class_info ∧
      (∀ x, rootD s'.union_find x = rootD s.union_find x) ∧
      (∀ x, x ∈ OHM.keys s'.union_find ↔ x ∈ OHM.keys s.union_find) ∧
      (∀ x, x ∈ mentionedVars s' → x ∈ mentionedVars s ∨ x = v) := by
  rcases hA : findA (s.union_find.length + 1) s.union_find v with _ | q
  · rw [find, hA] at h
    cases h
  · rw [find, hA] at h
    cases h
    rcases findA_sound hA with ⟨hroot, hequiv, hkeys, hlen, hnd⟩
    have hr : q.2 = rootD s.union_find v := (rootD_eq_of_rootsTo hroot).symm
    have hroots : ∀ x, rootD q.1 x = rootD s.union_find x := fun x =>
      rootD_eq_of_rootsTo ((hequiv x _).2 (rootsTo_rootD hwf.forest x))
    have hforest : Forest q.1 := forest_of_rootsTo fun x hx =>
      ⟨rootD s.union_find x, (hequiv x _).2 (rootsTo_rootD hwf.forest x)⟩
    refine ⟨⟨hforest, hnd hwf.nodup_uf, hwf.nodup_ci, findA_valuesKeys hA hwf.values_keys⟩,
      hr, rfl, hroots, hkeys, ?_⟩
    intro x hx
    rcases mem_mentioned.1 hx with hk | hval | hck | ⟨ci, hci, hcr⟩
    · exact .inl (uf_keys_mentioned ((hkeys x).1 hk))
    · rcases findA_values hA x hval with rfl | hv
      · rw [hr]
        rcases rootD_mentioned_or_self (s := s) v with hm | he
        · exact .inl hm
        · exact .inr he
      · exact .inl (uf_values_mentioned hv)
    · exact .inl (ci_keys_mentioned hck)
    · exact .inl (ci_refs_mentioned hci hcr)

/-- The inductive hypothesis shape for `union` at a given fuel. -/
def RecHyp (fuel : Nat) : Prop :=
  ∀ s a b s' r, union fuel s a b = some (s', r) → BaseWF s → UnionConcl s a b s' r

theorem mergeField_spec {fuel : Nat} (hrec : RecHyp fuel) {s : EqualityState}
    {nv ov : Option VariableId} {s' : EqualityState} {o : Option VariableId}
    (h : mergeField (union fuel) s nv ov = some (s', o)) (hwf : BaseWF s) :
    BaseWF s' ∧ (∀ u v, EqvIn s u v → EqvIn s' u v) ∧
      (∀ x, x ∈ mentionedVars s' → x ∈ mentionedVars s ∨ nv = some x ∨ ov = some x) ∧
      (∀ x, o = some x → x ∈ mentionedVars s' ∨ nv = some x ∨ ov = some x) ∧
      ((∀ v, rootD s.union_find v ≤ v) → ∀ v, rootD s'.union_find v ≤ v) := by
  rcases nv with _ | nval
  · have h2 : (some (s, ((none : Option VariableId)).or ov) :
        Option (EqualityState × Option VariableId)) = some (s', o) := h
    cases h2
    refine ⟨hwf, fun _ _ h => h, fun x hx => .inl hx, fun x hx => ?_, fun h _ => h _⟩
    rcases ov with _ | oval
    · cases hx
    · exact .inr (.inr hx)
  · rcases ov with _ | oval
    · have h2 : (some (s, (some nval).or none) :
          Option (EqualityState × Option VariableId)) = some (s', o) := h
      cases h2
      exact ⟨hwf, fun _ _ h => h, fun x hx => .inl hx,
        fun x hx => .inr (.inl hx), fun h _ => h _⟩
    · have h2 : (if nval ≠ oval then
          (union fuel s nval oval).map (fun p => (p.1, some p.2))
        else some (s, some nval)) = some (s', o) := h
      by_cases hne : nval ≠ oval
      · rw [if_pos hne] at h2
        rcases hu : union fuel s nval oval with _ | ⟨s2, r2⟩
        · rw [hu] at h2
          cases h2
        · rw [hu] at h2
          cases h2
          rcases hrec s nval oval s2 r2 hu hwf with ⟨hwf2, hmono, heqv, hr, hment, hmin⟩
          refine ⟨hwf2, hmono, ?_, ?_, hmin⟩
          · intro x hx
            rcases hment x hx with hm | rfl | rfl
            · exact .inl hm
            · exact .inr (.inl rfl)
            · exact .inr (.inr rfl)
          · intro x hx
            cases hx
            rw [hr]
            rcases rootD_mentioned_or_self (s := s2) nval with hm | he
            · exact .inl hm
            · rw [he]
              exact .inr (.inl rfl)
      · rw [if_neg hne] at h2
        cases h2
        exact ⟨hwf, fun _ _ h => h, fun x hx => .inl hx,
          fun x hx => .inr (.inl hx), fun h _ => h _⟩

theorem mem_referenced_vars {ci : ClassInfo} {x : VariableId} :
    x ∈ ci.referenced_vars ↔ ci.boxed_class = some x ∨ ci.original_class = some x ∨
      ci.snapshot_class = some x ∨ ci.unboxed_class = some x := by
  simp [ClassInfo.referenced_vars]
  tauto

theorem mergeInfos_spec {fuel : Nat} (hrec : RecHyp fuel) {s : EqualityState}
    {ni oi : ClassInfo} {s' : EqualityState} {mg : ClassInfo}
    (h : mergeInfos (union fuel) s ni oi = some (s', mg)) (hwf : BaseWF s) :
    BaseWF s' ∧ (∀ u v, EqvIn s u v → EqvIn s' u v) ∧
      (∀ x, x ∈ mentionedVars s' →
        x ∈ mentionedVars s ∨ x ∈ ni.referenced_vars ∨ x ∈ oi.referenced_vars) ∧
      (∀ x, x ∈ mg.referenced_vars →
        x ∈ mentionedVars s ∨ x ∈ ni.referenced_vars ∨ x ∈ oi.referenced_vars) ∧
      ((∀ v, rootD s.union_find v ≤ v) → ∀ v, rootD s'.union_find v ≤ v) := by
  rw [mergeInfos] at h
  rcases h1 : mergeField (union fuel) s ni.boxed_class oi.boxed_class with _ | ⟨s4, bx⟩
  · rw [h1] at h
    cases h
  simp only [h1] at h
  rcases h2 : mergeField (union fuel) s4 ni.unboxed_class oi.unboxed_class with _ | ⟨s5, ub⟩
  · rw [h2] at h
    cases h
  simp only [h2] at h
  rcases h3 : mergeField (union fuel) s5 ni.snapshot_class oi.snapshot_class with _ | ⟨s6, sn⟩
  · rw [h3] at h
    cases h
  simp only [h3] at h
  rcases h4 : mergeField (union fuel) s6 ni.original_class oi.original_class with _ | ⟨s7, og⟩
  · rw [h4] at h
    cases h
  simp only [h4, Option.some.injEq, Prod.mk.injEq] at h
  obtain ⟨rfl, rfl⟩ := h
  rcases mergeField_spec hrec h1 hwf with ⟨hwf4, hm4, hc4, ho4, hmin4⟩
  rcases mergeField_spec hrec h2 hwf4 with ⟨hwf5, hm5, hc5, ho5, hmin5⟩
  rcases mergeField_spec hrec h3 hwf5 with ⟨hwf6, hm6, hc6, ho6, hmin6⟩
  rcases mergeField_spec hrec h4 hwf6 with ⟨hwf7, hm7, hc7, ho7, hmin7⟩
  have refs : ∀ x, ni.boxed_class = some x ∨ oi.boxed_class = some x ∨
      ni.unboxed_class = some x ∨ oi.unboxed_class = some x ∨
      ni.snapshot_class = some x ∨ oi.snapshot_class = some x ∨
      ni.original_class = some x ∨ oi.original_class = some x →
      x ∈ ni.referenced_vars ∨ x ∈ oi.referenced_vars := by
    intro x hx
    rcases hx with hx | hx | hx | hx | hx | hx | hx | hx
    · exact .inl (mem_referenced_vars.2 (.inl hx))
    · exact .inr (mem_referenced_vars.2 (.inl hx))
    · exact .inl (mem_referenced_vars.2 (.inr (.inr (.inr hx))))
    · exact .inr (mem_referenced_vars.2 (.inr (.inr (.inr hx))))
    · exact .inl (mem_referenced_vars.2 (.inr (.inr (.inl hx))))
    · exact .inr (mem_referenced_vars.2 (.inr (.inr (.inl hx))))
    · exact .inl (mem_referenced_vars.2 (.inr (.inl hx)))
    · exact .inr (mem_referenced_vars.2 (.inr (.inl hx)))
  have close7 : ∀ x, x ∈ mentionedVars s7 →
      x ∈ mentionedVars s ∨ x ∈ ni.referenced_vars ∨ x ∈ oi.referenced_vars := by
    intro x hx
    rcases hc7 x hx with hx | hx | hx
    · rcases hc6 x hx with hx | hx | hx
      · rcases hc5 x hx with hx | hx | hx
        · rcases hc4 x hx with hx | hx | hx
          · exact .inl hx
          · exact .inr (refs x (.inl hx))
          · exact .inr (refs x (.inr (.inl hx)))
        · exact .inr (refs x (.inr (.inr (.inl hx))))
        · exact .inr (refs x (.inr (.inr (.inr (.inl hx)))))
      · exact .inr (refs x (.inr (.inr (.inr (.inr (.inl hx))))))
      · exact .inr (refs x (.inr (.inr (.inr (.inr (.inr (.inl hx)))))))
    · exact .inr (refs x (.inr (.inr (.inr (.inr (.inr (.inr (.inl hx))))))))
    · exact .inr (refs x (.inr (.inr (.inr (.inr (.inr (.inr (.inr hx))))))))
  have close6 : ∀ x, x ∈ mentionedVars s6 →
      x ∈ mentionedVars s ∨ x ∈ ni.referenced_vars ∨ x ∈ oi.referenced_vars := by
    intro x hx
    rcases hc6 x hx with hx | hx | hx
    · rcases hc5 x hx with hx | hx | hx
      · rcases hc4 x hx with hx | hx | hx
        · exact .inl hx
        · exact .inr (refs x (.inl hx))
        · exact .inr (refs x (.inr (.inl hx)))
      · exact .inr (refs x (.inr (.inr (.inl hx))))
      · exact .inr (refs x (.inr (.inr (.inr (.inl hx)))))
    · exact .inr (refs x (.inr (.inr (.inr (.inr (.inl hx))))))
    · exact .inr (refs x (.inr (.inr (.inr (.inr (.inr (.inl hx)))))))
  have close5 : ∀ x, x ∈ mentionedVars s5 →
      x ∈ mentionedVars s ∨ x ∈ ni.referenced_vars ∨ x ∈ oi.referenced_vars := by
    intro x hx
    rcases hc5 x hx with hx | hx | hx
    · rcases hc4 x hx with hx | hx | hx
      · exact .inl hx
      · exact .inr (refs x (.inl hx))
      · exact .inr (refs x (.inr (.inl hx)))
    · exact .inr (refs x (.inr (.inr (.inl hx))))
    · exact .inr (refs x (.inr (.inr (.inr (.inl hx)))))
  have close4 : ∀ x, x ∈ mentionedVars s4 →
      x ∈ mentionedVars s ∨ x ∈ ni.referenced_vars ∨ x ∈ oi.referenced_vars := by
    intro x hx
    rcases hc4 x hx with hx | hx | hx
    · exact .inl hx
    · exact .inr (refs x (.inl hx))
    · exact .inr (refs x (.inr (.inl hx)))
  refine ⟨hwf7, fun u v huv => hm7 u v (hm6 u v (hm5 u v (hm4 u v huv))), close7, ?_,
    fun hm => hmin7 (hmin6 (hmin5 (hmin4 hm)))⟩
  intro x hx
  rcases mem_referenced_vars.1 hx with hx | hx | hx | hx
  · rcases ho4 x hx with hx' | hx' | hx'
    · exact close4 x hx'
    · exact .inr (refs x (.inl hx'))
    · exact .inr (refs x (.inr (.inl hx')))
  · rcases ho7 x hx with hx' | hx' | hx'
    · exact close7 x hx'
    · exact .inr (refs x (.inr (.inr (.inr (.inr (.inr (.inr (.inl hx'))))))))
    · exact .inr (refs x (.inr (.inr (.inr (.inr (.inr (.inr (.inr hx'))))))))
  · rcases ho6 x hx with hx' | hx' | hx'
    · exact close6 x hx'
    · exact .inr (refs x (.inr (.inr (.inr (.inr (.inl hx'))))))
    · exact .inr (refs x (.inr (.inr (.inr (.inr (.inr (.inl hx')))))))
  · rcases ho5 x hx with hx' | hx' | hx'
    · exact close5 x hx'
    · exact .inr (refs x (.inr (.inr (.inl hx'))))
    · exact .inr (refs x (.inr (.inr (.inr (.inl hx')))))

theorem keys_subset_of_entries {κ β : Type} [DecidableEq κ] {m m' : List (κ × β)}
    (h : ∀ e ∈ m', e ∈ m) {x : κ} (hx : x ∈ OHM.keys m') : x ∈ OHM.keys m := by
  rcases List.mem_map.1 hx with ⟨e, he, rfl⟩
  exact List.mem_map_of_mem Prod.fst (h e he)

theorem values_subset_of_entries {κ β : Type} [DecidableEq κ] {m m' : List (κ × β)}
    (h : ∀ e ∈ m', e ∈ m) {x : β} (hx : x ∈ m'.map Prod.snd) : x ∈ m.map Prod.snd := by
  rcases List.mem_map.1 hx with ⟨e, he, rfl⟩
  exact List.mem_map_of_mem Prod.snd (h e he)

theorem empty_classInfo_refs : ({} : ClassInfo).referenced_vars = [] := rfl


/-- Unfolding equation for `unionLinkGo` with the lets expanded. -/
theorem unionLinkGo_eq
    (rec : EqualityState → VariableId → VariableId → Option (EqualityState × VariableId))
    (s : EqualityState) (nw od : VariableId) :
    unionLinkGo rec s nw od =
      (match mergeInfos rec
          ⟨OHM.insertV (OHM.entryOrInsert s.union_find nw nw) od nw,
            (OHM.swapRemove (OHM.swapRemove s.class_info od).2 nw).2⟩
          ((OHM.swapRemove (OHM.swapRemove s.class_info od).2 nw).1.getD {})
          ((OHM.swapRemove s.class_info od).1.getD {}) with
        | none => none
        | some (s7, merged) =>
          if merged.is_empty then s7.find nw
          else
            match s7.find nw with
            | none => none
            | some (s8, final_root) =>
              (EqualityState.mk s8.union_find
                (OHM.insertV s8.class_info final_root merged)).find nw) := rfl

/-- The link-and-merge path satisfies the union contract when entered with
two distinct roots, the lower one chosen as the new root. -/
theorem unionLinkGo_spec {fuel : Nat} (hrec : RecHyp fuel) {s : EqualityState}
    {nw od : VariableId} {s' : EqualityState} {r : VariableId}
    (h : unionLinkGo (union fuel) s nw od = some (s', r)) (hwf : BaseWF s)
    (hnr : get_parent s.union_find nw = nw) (hor : get_parent s.union_find od = od)
    (hlt : nw < od) : UnionConcl s nw od s' r := by
  have hne : od ≠ nw := (Nat.ne_of_lt hlt).symm
  have hne' : nw ≠ od := Nat.ne_of_lt hlt
  rw [unionLinkGo_eq] at h
  obtain ⟨hf1, hnd1, hvk1, hroots1, hkeys1, hvals1⟩ :=
    link_uf_spec hwf.forest hwf.nodup_uf hwf.values_keys hor hnr hne
  set uf1 := OHM.insertV (OHM.entryOrInsert s.union_find nw nw) od nw with huf1
  set po2 := (OHM.swapRemove s.class_info od).2 with hpo2
  set ci3 := (OHM.swapRemove po2 nw).2 with hci3
  set ni := (OHM.swapRemove po2 nw).1.getD {} with hni
  set oi := (OHM.swapRemove s.class_info od).1.getD {} with hoi
  have hsub3 : ∀ e ∈ ci3, e ∈ s.class_info := by
    intro e he
    rw [hci3] at he
    have h1 := swapRemove_entry_subset he
    rw [hpo2] at h1
    exact swapRemove_entry_subset h1
  have hnd3 : OHM.NodupKeys ci3 := by
    rw [hci3]
    refine OHM.nodupKeys_swapRemove _ _ ?_
    rw [hpo2]
    exact OHM.nodupKeys_swapRemove _ _ hwf.nodup_ci
  have hwf3 : BaseWF ⟨uf1, ci3⟩ := ⟨hf1, hnd1, hnd3, hvk1⟩
  have hni_refs : ∀ x, x ∈ ni.referenced_vars → x ∈ mentionedVars s := by
    intro x hx
    rcases hg : (OHM.swapRemove po2 nw).1 with _ | ci
    · rw [hni, hg] at hx
      simp [Option.getD, ClassInfo.referenced_vars] at hx
    · have hgv : OHM.getV po2 nw = some ci := (OHM.swapRemove_fst po2 nw).symm.trans hg
      have hmem : (nw, ci) ∈ po2 := OHM.getV_mem hgv
      rw [hpo2] at hmem
      have hmem' : (nw, ci) ∈ s.class_info := swapRemove_entry_subset hmem
      rw [hni, hg] at hx
      exact ci_refs_mentioned (List.mem_map_of_mem Prod.snd hmem') hx
  have hoi_refs : ∀ x, x ∈ oi.referenced_vars → x ∈ mentionedVars s := by
    intro x hx
    rcases hg : (OHM.swapRemove s.class_info od).1 with _ | ci
    · rw [hoi, hg] at hx
      simp [Option.getD, ClassInfo.referenced_vars] at hx
    · have hgv : OHM.getV s.class_info od = some ci :=
        (OHM.swapRemove_fst s.class_info od).symm.trans hg
      rw [hoi, hg] at hx
      exact getV_ci_refs_mentioned hgv hx
  have hclose3 : ∀ x, x ∈ mentionedVars (⟨uf1, ci3⟩ : EqualityState) →
      x ∈ mentionedVars s ∨ x = nw ∨ x = od := by
    intro x hx
    rcases mem_mentioned.1 hx with hk | hv | hck | ⟨ci, hci, hcr⟩
    · rcases (hkeys1 x).1 hk with rfl | rfl | hk'
      · exact .inr (.inr rfl)
      · exact .inr (.inl rfl)
      · exact .inl (uf_keys_mentioned hk')
    · rcases hvals1 x hv with rfl | hv'
      · exact .inr (.inl rfl)
      · exact .inl (uf_values_mentioned hv')
    · exact .inl (ci_keys_mentioned (keys_subset_of_entries hsub3 hck))
    · exact .inl (ci_refs_mentioned (values_subset_of_entries hsub3 hci) hcr)
  have hrn : rootD s.union_find nw = nw := rootD_eq_of_rootsTo (.self hnr)
  have hro : rootD s.union_find od = od := rootD_eq_of_rootsTo (.self hor)
  have emono3 : ∀ u v, EqvIn s u v → EqvIn (⟨uf1, ci3⟩ : EqualityState) u v := by
    intro u v huv
    show rootD uf1 u = rootD uf1 v
    rw [hroots1, hroots1, huv]
  have heqv3 : EqvIn (⟨uf1, ci3⟩ : EqualityState) nw od := by
    show rootD uf1 nw = rootD uf1 od
    rw [hroots1, hroots1, hrn, hro, if_pos rfl, if_neg hne']
  have hmin3 : (∀ v, rootD s.union_find v ≤ v) →
      ∀ v, rootD uf1 v ≤ v := by
    intro hm v
    rw [hroots1]
    by_cases hv : rootD s.union_find v = od
    · rw [if_pos hv]
      exact Nat.le_of_lt (Nat.lt_of_lt_of_le hlt (hv ▸ hm v))
    · rw [if_neg hv]
      exact hm v
  rcases hMI : mergeInfos (union fuel) (⟨uf1, ci3⟩ : EqualityState) ni oi with _ | ⟨s7, merged⟩
  · rw [hMI] at h
    cases h
  simp only [hMI] at h
  obtain ⟨hwf7, hm7, hc7, hmg7, hmin7⟩ := mergeInfos_spec hrec hMI hwf3
  have close7 : ∀ x, x ∈ mentionedVars s7 → x ∈ mentionedVars s ∨ x = nw ∨ x = od := by
    intro x hx
    rcases hc7 x hx with hx | hx | hx
    · exact hclose3 x hx
    · exact .inl (hni_refs x hx)
    · exact .inl (hoi_refs x hx)
  have closeMg : ∀ x, x ∈ merged.referenced_vars →
      x ∈ mentionedVars s ∨ x = nw ∨ x = od := by
    intro x hx
    rcases hmg7 x hx with hx | hx | hx
    · exact hclose3 x hx
    · exact .inl (hni_refs x hx)
    · exact .inl (hoi_refs x hx)
  have emono7 : ∀ u v, EqvIn s u v → EqvIn s7 u v := fun u v huv =>
    hm7 u v (emono3 u v huv)
  have heqv7 : EqvIn s7 nw od := hm7 nw od heqv3
  have hmin37 : (∀ v, rootD s.union_find v ≤ v) →
      ∀ v, rootD s7.union_find v ≤ v := fun hm => hmin7 (hmin3 hm)
  by_cases hemp : merged.is_empty = true
  · rw [if_pos hemp] at h
    obtain ⟨hwfS, hrS, hciS, hrootsS, hkeysS, hmentS⟩ := find_eq_spec hwf7 h
    refine ⟨hwfS, ?_, ?_, ?_, ?_, ?_⟩
    · intro u v huv
      show rootD s'.union_find u = rootD s'.union_find v
      rw [hrootsS, hrootsS]
      exact emono7 u v huv
    · show rootD s'.union_find nw = rootD s'.union_find od
      rw [hrootsS, hrootsS]
      exact heqv7
    · rw [hrootsS]
      exact hrS
    · intro x hx
      rcases hmentS x hx with hx | rfl
      · exact close7 x hx
      · exact .inr (.inl rfl)
    · intro hm v
      rw [hrootsS]
      exact hmin37 hm v
  · rw [if_neg hemp] at h
    rcases hF8 : s7.find nw with _ | ⟨s8, fr⟩
    · rw [hF8] at h
      cases h
    simp only [hF8] at h
    obtain ⟨hwf8, hr8, hci8, hroots8, hkeys8, hment8⟩ := find_eq_spec hwf7 hF8
    have close8 : ∀ x, x ∈ mentionedVars s8 →
        x ∈ mentionedVars s ∨ x = nw ∨ x = od := by
      intro x hx
      rcases hment8 x hx with hx | rfl
      · exact close7 x hx
      · exact .inr (.inl rfl)
    have hfr : fr ∈ mentionedVars s7 ∨ fr = nw := by
      rw [hr8]
      exact rootD_mentioned_or_self nw
    have hwf9 : BaseWF ⟨s8.union_find, OHM.insertV s8.class_info fr merged⟩ :=
      ⟨hwf8.forest, hwf8.nodup_uf, OHM.nodupKeys_insertV _ _ _ hwf8.nodup_ci,
        hwf8.values_keys⟩
    have close9 : ∀ x,
        x ∈ mentionedVars (⟨s8.union_find, OHM.insertV s8.class_info fr merged⟩ :
          EqualityState) →
        x ∈ mentionedVars s ∨ x = nw ∨ x = od := by
      intro x hx
      rcases mem_mentioned.1 hx with hk | hv | hck | ⟨ci, hci, hcr⟩
      · exact close8 x (uf_keys_mentioned hk)
      · exact close8 x (uf_values_mentioned hv)
      · rcases (OHM.keys_insertV s8.class_info fr merged).1 hck with rfl | hck'
        · rcases hfr with hm | rfl
          · exact close7 x hm
          · exact .inr (.inl rfl)
        · exact close8 x (ci_keys_mentioned hck')
      · rcases List.mem_map.1 hci with ⟨e, he, hesnd⟩
        rcases mem_insertV he with rfl | he'
        · rw [← hesnd] at hcr
          exact closeMg x hcr
        · rw [← hesnd] at hcr
          exact close8 x (ci_refs_mentioned (List.mem_map_of_mem Prod.snd he') hcr)
    obtain ⟨hwfS, hrS, hciS, hrootsS, hkeysS, hmentS⟩ := find_eq_spec hwf9 h
    refine ⟨hwfS, ?_, ?_, ?_, ?_, ?_⟩
    · intro u v huv
      show rootD s'.union_find u = rootD s'.union_find v
      rw [hrootsS, hrootsS]
      show rootD s8.union_find u = rootD s8.union_find v
      rw [hroots8, hroots8]
      exact emono7 u v huv
    · show rootD s'.union_find nw = rootD s'.union_find od
      rw [hrootsS, hrootsS]
      show rootD s8.union_find nw = rootD s8.union_find od
      rw [hroots8, hroots8]
      exact heqv7
    · rw [hrootsS]
      exact hrS
    · intro x hx
      rcases hmentS x hx with hx | rfl
      · exact close9 x hx
      · exact .inr (.inl rfl)
    · intro hm v
      rw [hrootsS]
      show rootD s8.union_find v ≤ v
      rw [hroots8]
      exact hmin37 hm v

/-- `unionLink` (the lower-root selection wrapper) satisfies the union
contract for two distinct roots. -/
theorem unionLink_spec {fuel : Nat} (hrec : RecHyp fuel) {s : EqualityState}
    {ra rb : VariableId} {s' : EqualityState} {r : VariableId}
    (h : unionLink (union fuel) s ra rb = some (s', r)) (hwf : BaseWF s)
    (hra : get_parent s.union_find ra = ra) (hrb : get_parent s.union_find rb = rb)
    (hne : ra ≠ rb) : UnionConcl s ra rb s' r := by
  rw [unionLink] at h
  by_cases hlt : ra < rb
  · rw [if_pos hlt] at h
    exact unionLinkGo_spec hrec h hwf hra hrb hlt
  · rw [if_neg hlt] at h
    have hlt' : rb < ra :=
      Nat.lt_of_le_of_ne (Nat.le_of_not_lt hlt) (fun e => hne e.symm)
    obtain ⟨hwf', hmono, heqv, hr, hment, hmin⟩ :=
      unionLinkGo_spec hrec h hwf hrb hra hlt'
    have heqv' : rootD s'.union_find rb = rootD s'.union_find ra := heqv
    refine ⟨hwf', hmono, heqv'.symm, ?_, ?_, hmin⟩
    · rw [hr]
      exact heqv'
    · intro x hx
      rcases hment x hx with hx | rfl | rfl
      · exact .inl hx
      · exact .inr (.inr rfl)
      · exact .inr (.inl rfl)

/-- Every `union` call that returns satisfies the union contract: the
result is well-formed, refines the input partition, equates the two
arguments, returns the representative of the first, mentions no variables
beyond the input's and the two arguments, and preserves the minimal-
representative property. -/
theorem union_spec : ∀ fuel, RecHyp fuel := by
  intro fuel
  induction fuel with
  | zero =>
    intro s a b s' r h hwf
    cases h
  | succ n ih =>
    intro s a b s' r h hwf
    have h' : unionBody (union n) s a b = some (s', r) := h
    rw [unionBody] at h'
    rcases hfa : s.find a with _ | ⟨s1, ra⟩
    · rw [hfa] at h'
      cases h'
    simp only [hfa] at h'
    obtain ⟨hwf1, hra, hci1, hroots1, hkeys1, hment1⟩ := find_eq_spec hwf hfa
    rcases hfb : s1.find b with _ | ⟨s2, rb⟩
    · rw [hfb] at h'
      cases h'
    simp only [hfb] at h'
    obtain ⟨hwf2, hrb, hci2, hroots2, hkeys2, hment2⟩ := find_eq_spec hwf1 hfb
    have hroots20 : ∀ x, rootD s2.union_find x = rootD s.union_find x := fun x =>
      (hroots2 x).trans (hroots1 x)
    have hment20 : ∀ x, x ∈ mentionedVars s2 →
        x ∈ mentionedVars s ∨ x = a ∨ x = b := by
      intro x hx
      rcases hment2 x hx with hx | rfl
      · rcases hment1 x hx with hx | rfl
        · exact .inl hx
        · exact .inr (.inl rfl)
      · exact .inr (.inr rfl)
    by_cases heq : ra = rb
    · rw [if_pos heq] at h'
      cases h'
      refine ⟨hwf2, ?_, ?_, ?_, hment20, ?_⟩
      · intro u v huv
        show rootD s'.union_find u = rootD s'.union_find v
        rw [hroots20, hroots20]
        exact huv
      · show rootD s'.union_find a = rootD s'.union_find b
        rw [hroots20, hroots20, ← hra, heq, hrb]
        exact hroots1 b
      · rw [hroots20]
        exact hra
      · intro hm v
        rw [hroots20]
        exact hm v
    · rw [if_neg heq] at h'
      have hroot2ra : rootD s2.union_find ra = ra := by
        rw [hroots20, hra]
        exact rootD_idem hwf.forest a
      have hroot2rb : rootD s2.union_find rb = rb := by
        rw [hroots2, hrb]
        exact rootD_idem hwf1.forest b
      have hpra : get_parent s2.union_find ra = ra := by
        rw [← hroot2ra]
        exact rootD_parent_self hwf2.forest ra
      have hprb : get_parent s2.union_find rb = rb := by
        rw [← hroot2rb]
        exact rootD_parent_self hwf2.forest rb
      obtain ⟨hwfL, hmonoL, heqvL, hrL, hmentL, hminL⟩ :=
        unionLink_spec ih h' hwf2 hpra hprb heq
      have h2a : rootD s2.union_find a = ra := by
        rw [hroots20, ← hra]
      have h2b : rootD s2.union_find b = rb := by
        rw [hroots2, ← hrb]
      have hEa : rootD s'.union_find a = rootD s'.union_find ra :=
        hmonoL a ra (by
          show rootD s2.union_find a = rootD s2.union_find ra
          rw [h2a, hroot2ra])
      have hEb : rootD s'.union_find b = rootD s'.union_find rb :=
        hmonoL b rb (by
          show rootD s2.union_find b = rootD s2.union_find rb
          rw [h2b, hroot2rb])
      have heqvL' : rootD s'.union_find ra = rootD s'.union_find rb := heqvL
      refine ⟨hwfL, ?_, ?_, ?_, ?_, ?_⟩
      · intro u v huv
        refine hmonoL u v ?_
        show rootD s2.union_find u = rootD s2.union_find v
        rw [hroots20, hroots20]
        exact huv
      · show rootD s'.union_find a = rootD s'.union_find b
        rw [hEa, hEb, heqvL']
      · rw [hrL, ← hEa]
      · intro x hx
        rcases hmentL x hx with hx | rfl | rfl
        · exact hment20 x hx
        · rcases rootD_mentioned_or_self (s := s) a with hm | he
          · exact .inl (hra ▸ hm)
          · exact .inr (.inl (hra.trans he))
        · rcases rootD_mentioned_or_self (s := s1) b with hm | he
          · rcases hment1 _ (hrb ▸ hm) with hm' | he'
            · exact .inl hm'
            · exact .inr (.inl he')
          · exact .inr (.inr (hrb.trans he))
      · intro hm v
        exact hminL (fun w => by
          rw [hroots20]
          exact hm w) v

/-- The union contract, packaged for direct use at any fuel. -/
theorem union_concl {fuel : Nat} {s : EqualityState} {a b : VariableId}
    {s' : EqualityState} {r : VariableId} (h : union fuel s a b = some (s', r))
    (hwf : BaseWF s) : UnionConcl s a b s' r :=
  union_spec fuel s a b s' r h hwf

instance (m : List (VariableId × VariableId)) : Decidable (OHM.NodupKeys m) :=
  inferInstanceAs (Decidable (OHM.keys m).Nodup)

instance (m : List (VariableId × ClassInfo)) : Decidable (OHM.NodupKeys m) :=
  inferInstanceAs (Decidable (OHM.keys m).Nodup)

instance (uf : UF) : Decidable (ValuesKeys uf) :=
  inferInstanceAs (Decidable (∀ e ∈ uf, e.2 ∈ OHM.keys uf))

instance (s : EqualityState) : Decidable (BaseWF s) :=
  inferInstanceAs (Decidable (Forest s.union_find ∧ OHM.NodupKeys s.union_find ∧
    OHM.NodupKeys s.class_info ∧ ValuesKeys s.union_find))

instance (s : EqualityState) (u v : VariableId) : Decidable (EqvIn s u v) :=
  inferInstanceAs (Decidable (rootD s.union_find u = rootD s.union_find v))

/-- A concrete analysis-shaped state: `Box(0) = 1`, `Box(1) = 2` and
`snapshot(2) = 5` recorded in `class_info` exactly as the successive
`set_relationship` calls leave them (checked by evaluation). -/
def stateBoxChain : EqualityState :=
  ⟨[], [(0, ⟨some 1, none, none, none⟩), (1, ⟨some 2, some 0, none, none⟩),
    (2, ⟨none, some 1, some 5, none⟩), (5, ⟨none, none, none, some 2⟩)]⟩

/-- C10 counterexample: before `union(0, 1)` the state `stateBoxChain` has
`get_related(2, snapshot) = Some 5`, but afterwards `get_related(2,
snapshot) = None` — the `class_info` re-insertion at the final root drops
the snapshot relation instead of returning the post-union representative
of 5's class, falsifying the claim's second conjunct at this input. -/
theorem C10_get_related_dropped_by_union :
    (get_related stateBoxChain 2 RelField.snapF).map Prod.snd = some (some 5) ∧
      ((union 10 stateBoxChain 0 1).bind
        (fun p => (get_related p.1 2 RelField.snapF).map Prod.snd)) = some none := by
  decide

/-- C10 (amended): `union` is monotone on the equality partition — on a
well-formed state, any two variables with equal representatives before
`union(a, b)` still have equal representatives afterwards.  (The second
part of the original claim, preservation of `get_related` results, is
false: see the counterexample.) -/
theorem C10_union_eqv_monotone {fuel : Nat} {s : EqualityState} {a b : VariableId}
    {s' : EqualityState} {r : VariableId} (h : union fuel s a b = some (s', r))
    (hwf : BaseWF s) {u v : VariableId} (huv : EqvIn s u v) : EqvIn s' u v :=
  (union_concl h hwf).2.1 u v huv

/-- C10 witness: the amended theorem applied at a concrete input. -/
theorem C10_union_eqv_monotone_witness :
    EqvIn (⟨[(1, 0), (0, 0), (2, 0)], []⟩ : EqualityState) 1 0 :=
  @C10_union_eqv_monotone 5 ⟨[(1, 0), (0, 0)], []⟩ 2 0
    ⟨[(1, 0), (0, 0), (2, 0)], []⟩ 0 (by decide) (by decide) 1 0 (by decide)

/-- `scanSideEffect` finds the first side-effect at or after the start
index: the result bounds, the hit, and the miss of everything before it. -/
theorem scanSideEffect_spec {sf : List Nat} :
    ∀ (l : List Statement) (k i : Nat), scanSideEffect sf l k = some i →
      k ≤ i ∧ i - k < l.length ∧
        has_side_effects sf (l.getD (i - k) (.callS none)) = true ∧
        ∀ j, k ≤ j → j < i → has_side_effects sf (l.getD (j - k) (.callS none)) = false := by
  intro l
  induction l with
  | nil =>
    intro k i h
    cases h
  | cons st rest ih =>
    intro k i h
    rw [scanSideEffect] at h
    by_cases hse : has_side_effects sf st = true
    · rw [if_pos hse] at h
      cases h
      refine ⟨Nat.le_refl k, by simp, ?_, ?_⟩
      · rw [Nat.sub_self]
        exact hse
      · intro j h1 h2
        exact absurd (Nat.lt_of_le_of_lt h1 h2) (Nat.lt_irrefl k)
    · rw [if_neg hse] at h
      obtain ⟨hk, hlt, hhit, hmiss⟩ := ih (k + 1) i h
      have hk' : k ≤ i := Nat.le_of_succ_le hk
      refine ⟨hk', ?_, ?_, ?_⟩
      · have : i - k = (i - (k + 1)) + 1 := by omega
        rw [this, List.length_cons]
        omega
      · have : i - k = (i - (k + 1)) + 1 := by omega
        rw [this]
        exact hhit
      · intro j h1 h2
        by_cases hjk : j = k
        · rw [hjk, Nat.sub_self]
          simpa using hse
        · have h1' : k + 1 ≤ j := by omega
          have : j - k = (j - (k + 1)) + 1 := by omega
          rw [this]
          exact hmiss j h1' h2

/-- C5 counterexample: a block with two side-effect calls (callee 7 in the
side-effect set) ending in a zero-arm match, exit state unreachable. The
source's `transfer_block` records the side-effect fix at statement index 0
— the side-effect FARTHEST from the block's end — and no fix at index 1,
falsifying the claim's reverse walk, which would anchor the fix at index 1,
the side-effect closest to the end. -/
theorem C5_transfer_block_forward_counterexample :
    UnsafePanicContext.transfer_block [7] 0
        ⟨[.callS (some 7), .callS (some 7)], .matchEnd ⟨[], 5, 9, []⟩⟩
        (.unreachableR 5)
      = ([((0, 2), 5), ((0, 0), 5)], .reachable) ∧
    ∀ f ∈ (UnsafePanicContext.transfer_block [7] 0
        ⟨[.callS (some 7), .callS (some 7)], .matchEnd ⟨[], 5, 9, []⟩⟩
        (.unreachableR 5)).1, f.1.2 ≠ 1 := by
  decide

/-- C5 (amended): for a block whose exit state is `Unreachable(loc)` and
which contains a side-effect statement, `transfer_block` first records the
match-end fix when the block ends in a match, then walks the statements in
FORWARD order and records `((block_id, i), loc)` at the first side-effect
statement (every earlier statement is side-effect-free), switching the
state to `Reachable`. -/
theorem C5_transfer_block_first_side_effect {sf : List Nat} {b : Nat} {blk : BlockM}
    {loc : Nat} {i : Nat} (hscan : scanSideEffect sf blk.statements 0 = some i) :
    UnsafePanicContext.transfer_block sf b blk (.unreachableR loc)
      = ((match blk.endB with
          | .matchEnd mi => [((b, blk.statements.length), mi.location)]
          | _ => []) ++ [((b, i), loc)], .reachable) ∧
      i < blk.statements.length ∧
      has_side_effects sf (blk.statements.getD i (.callS none)) = true ∧
      ∀ j, j < i → has_side_effects sf (blk.statements.getD j (.callS none)) = false := by
  obtain ⟨-, hlt, hhit, hmiss⟩ := scanSideEffect_spec blk.statements 0 i hscan
  rw [Nat.sub_zero] at hlt hhit
  refine ⟨?_, hlt, hhit, ?_⟩
  · rw [UnsafePanicContext.transfer_block]
    rcases he : blk.endB with target | mi | _ | _ | _ <;>
      simp only [hscan]
  · intro j hj
    have := hmiss j (Nat.zero_le j) hj
    rwa [Nat.sub_zero] at this

/-- C5 witness: the amended theorem applied at a concrete block with side
effects at indices 1 and 2 — the fix lands at index 1. -/
theorem C5_transfer_block_first_side_effect_witness :
    UnsafePanicContext.transfer_block [7] 3
        ⟨[.constS, .callS (some 7), .callS (some 7)], .ret⟩ (.unreachableR 4)
      = ((match (BlockEndM.ret : BlockEndM) with
          | .matchEnd mi => [((3, 3), mi.location)]
          | _ => []) ++ [((3, 1), 4)], .reachable) ∧
      1 < ([Statement.constS, .callS (some 7), .callS (some 7)] : List Statement).length ∧
      has_side_effects [7]
        (([Statement.constS, .callS (some 7), .callS (some 7)] : List Statement).getD 1
          (.callS none)) = true ∧
      ∀ j, j < 1 → has_side_effects [7]
        (([Statement.constS, .callS (some 7), .callS (some 7)] : List Statement).getD j
          (.callS none)) = false :=
  C5_transfer_block_first_side_effect (by decide)

/-- C1: on a single-block function whose block holds one side-effect call
(callee 7 in the side-effect set) and ends in a zero-arm match, the pass
records fixes at statement indices 1 (match end) and 0 (the side-effect
statement itself), and applying them leaves the block with NO statements:
the side-effect call is deleted, where the claim requires the trap at
index 1 with the call preserved. -/
theorem C1_side_effect_call_deleted :
    (backRun [7] ⟨[⟨[.callS (some 7)], .matchEnd ⟨[], 5, 9, []⟩⟩]⟩).fixes
        = [((0, 1), 5), ((0, 0), 5)] ∧
      early_unsafe_panic true [7] 9 ⟨[⟨[.callS (some 7)], .matchEnd ⟨[], 5, 9, []⟩⟩]⟩
        = ⟨[⟨[], .matchEnd ⟨[], 5, 9, []⟩⟩]⟩ := by
  decide

/-- Branch A of the claim's merge example: class `{1, 2, 4}` (representative
1) with `Box(1) = 6`, exactly as `union(1,2); union(1,4);
set_box_relationship(1,6)` leaves it (checked by evaluation). -/
def branchA : EqualityState :=
  ⟨[(1, 1), (2, 1), (4, 1)],
    [(1, ⟨some 6, none, none, none⟩), (6, ⟨none, some 1, none, none⟩)]⟩

/-- Branch B of the claim's merge example: class `{3, 2, 4}` (representative
2) with `Box(3) = 6`, exactly as `union(3,2); union(3,4);
set_box_relationship(3,6)` leaves it (checked by evaluation). -/
def branchB : EqualityState :=
  ⟨[(2, 2), (3, 2), (4, 2)],
    [(2, ⟨some 6, none, none, none⟩), (6, ⟨none, some 2, none, none⟩)]⟩

/-- A well-formed state (empty parent map, no duplicate keys) whose only
`class_info` entry records `boxed = 3` at the singleton class 1, with no
symmetric `unboxed` back-pointer at 3: class 1 appears in no parent link
and is referenced by no entry. -/
def oneSidedBox : EqualityState := ⟨[], [(1, ⟨some 3, none, none, none⟩)]⟩

/-- C3 counterexample, two parts. (i) Merging the claim's two branches does
NOT leave `v4` alone in its class — `v4` and `v2` lie in the same class in
both branches, so the merged state keeps them together (`find` agrees on 4
and 2, which are distinct variables). (ii) The general biconditional
"`boxed(u) = v` holds in `merge(A, B)` iff it holds in both inputs" is
false in the inputs-to-merge direction: in the well-formed state
`oneSidedBox` the relation `boxed(1) = 3` holds (`get_related(1, boxed) =
Some 3`), hence it holds in both inputs of `merge(oneSidedBox,
oneSidedBox)`, yet the merged state is empty and the relation is gone
(`get_related(1, boxed) = None`): class 1 occurs in no parent map and is
referenced by no class_info entry, so it is absent from
`merge_referenced_vars`, gets no group and no intersection-index entry,
and `merge_class_relationships` never installs its relation. -/
theorem C3_merge_not_iff :
    (EqualityAnalysis.merge 10 branchA branchB
        = some ⟨[(2, 2), (4, 2)],
            [(2, ⟨some 6, none, none, none⟩), (6, ⟨none, some 2, none, none⟩)]⟩ ∧
      EqvIn ⟨[(2, 2), (4, 2)],
          [(2, ⟨some 6, none, none, none⟩), (6, ⟨none, some 2, none, none⟩)]⟩ 4 2 ∧
      (4 : VariableId) ≠ 2) ∧
      (BaseWF oneSidedBox ∧
        (get_related oneSidedBox 1 RelField.boxedF).map Prod.snd = some (some 3) ∧
        EqualityAnalysis.merge 20 oneSidedBox oneSidedBox = some ⟨[], []⟩ ∧
        (EqualityAnalysis.merge 20 oneSidedBox oneSidedBox).bind
          (fun m => (get_related m 1 RelField.boxedF).map Prod.snd) = some none) := by
  decide

/-- C3 (amended): in the claim's example the merged state has `{2, 4}` as a
class with representative 2 (`v4` is not alone: both branches keep `v2` and
`v4` together), and the agreed box relation survives the merge through the
intersection index: `get_related(4, boxed) = Some 6` and
`get_related(2, boxed) = Some 6` in the merged state. -/
theorem C3_merge_box_preserved :
    (EqualityAnalysis.merge 10 branchA branchB).bind
        (fun m => (get_related m 4 RelField.boxedF).map Prod.snd) = some (some 6) ∧
      (EqualityAnalysis.merge 10 branchA branchB).bind
        (fun m => (get_related m 2 RelField.boxedF).map Prod.snd) = some (some 6) ∧
      (EqualityAnalysis.merge 10 branchA branchB).map
        (fun m => rootD m.union_find 4) = some 2 := by
  decide

/-- The state after `transfer_stmt` of `IntoBox(5 → 6)` on the empty state
(checked by evaluation). -/
def boxOnlyState : EqualityState :=
  ⟨[], [(5, ⟨some 6, none, none, none⟩), (6, ⟨none, some 5, none, none⟩)]⟩

/-- The state after the goto-remapping union `union(2, 6)` on
`boxOnlyState` (checked by evaluation). -/
def staleBoxState : EqualityState :=
  ⟨[(2, 2), (6, 2)],
    [(5, ⟨some 6, none, none, none⟩), (2, ⟨none, some 5, none, none⟩)]⟩

/-- C4 counterexample: an analysis-producible state (IntoBox transfer, then
a goto-edge union with a fresh destination) in which the representative 5
stores `boxed = 6`, but the stored target 6 is NOT a representative
(`find_immut(6) = 2 ≠ 6`) and `class_info[6].unboxed` is not `5` — the
symmetric entry lives at 2, the new representative of 6's class. This
falsifies the claim's invariant for produced states. -/
theorem C4_stale_boxed_target :
    Produced staleBoxState ∧
      (get_class_info staleBoxState 5).boxed_class = some 6 ∧
      get_parent staleBoxState.union_find 5 = 5 ∧
      find_immut staleBoxState 6 = some 2 ∧ (2 : VariableId) ≠ 6 ∧
      (get_class_info staleBoxState 6).unboxed_class = none := by
  refine ⟨?_, by decide, by decide, by decide, by decide, by decide⟩
  have h1 : Produced boxOnlyState :=
    @Produced.stmt {} boxOnlyState 10 (.intoBoxS 5 6) Produced.empty
      ⟨(by decide : (6 : VariableId) ∉ mentionedVars {}), by decide⟩ (by decide)
  exact @Produced.edgeUnion boxOnlyState staleBoxState 10 2 6 2 h1
    (by decide : (2 : VariableId) ∉ mentionedVars boxOnlyState) (by decide) (by decide)

theorem RelField.get_set_self (f : RelField) (v : Option VariableId) (ci : ClassInfo) :
    f.get (f.set v ci) = v := by
  cases f <;> rfl

theorem RelField.get_set_ne {f g : RelField} (h : g ≠ f) (v : Option VariableId)
    (ci : ClassInfo) : g.get (f.set v ci) = g.get ci := by
  cases f <;> cases g <;> first | rfl | exact absurd rfl h

/-- `get_related` only runs `find`s: well-formedness, the class-info map
and the partition are preserved. -/
theorem get_related_state_spec {s : EqualityState} {v : VariableId} {f : RelField}
    {s1 : EqualityState} {o : Option VariableId}
    (h : get_related s v f = some (s1, o)) (hwf : BaseWF s) :
    BaseWF s1 ∧ s1.class_info = s.class_info ∧
      (∀ x, rootD s1.union_find x = rootD s.union_find x) := by
  rw [get_related] at h
  rcases h1 : s.find v with _ | ⟨sa, rep⟩
  · rw [h1] at h
    cases h
  simp only [h1] at h
  obtain ⟨hwfa, -, hcia, hrootsa, -, -⟩ := find_eq_spec hwf h1
  rcases hg : f.get (sa.get_class_info rep) with _ | related
  · simp only [hg] at h
    cases h
    exact ⟨hwfa, hcia, hrootsa⟩
  · simp only [hg] at h
    rcases h2 : sa.find related with _ | ⟨sb, rr⟩
    · rw [h2] at h
      cases h
    simp only [h2] at h
    cases h
    obtain ⟨hwfb, -, hcib, hrootsb, -, -⟩ := find_eq_spec hwfa h2
    exact ⟨hwfb, hcib.trans hcia, fun x => (hrootsb x).trans (hrootsa x)⟩

/-- C4 (amended): `set_relationship(a, b, f_ab, f_ba)` records the relation
symmetrically at the two CURRENT representatives: in the resulting state,
field `f_ba` of `b`'s representative points to `a`'s representative and
field `f_ab` of `a`'s representative points to `b`'s representative.  (The
original claim's global invariant — stored targets stay representatives
forever — is false: a later union can make them stale, see the
counterexample.) -/
theorem C4_set_relationship_symmetric {fuel : Nat} {s : EqualityState}
    {a b : VariableId} {fa fb : RelField} {s' : EqualityState}
    (h : set_relationship fuel s a b fa fb = some s') (hwf : BaseWF s)
    (hne : fa ≠ fb) :
    RelField.get fb (get_class_info s' (rootD s'.union_find b))
        = some (rootD s'.union_find a) ∧
      RelField.get fa (get_class_info s' (rootD s'.union_find a))
        = some (rootD s'.union_find b) := by
  rw [set_relationship] at h
  rcases g1 : get_related s a fa with _ | ⟨s1, ex_a⟩
  · rw [g1] at h
    cases h
  simp only [g1] at h
  obtain ⟨hwf1, -, -⟩ := get_related_state_spec g1 hwf
  have hstep1 : ∃ s2, (match ex_a with
      | some existing => (union fuel s1 b existing).map Prod.fst
      | none => some s1) = some s2 ∧ BaseWF s2 := by
    rcases ex_a with _ | existing
    · exact ⟨s1, rfl, hwf1⟩
    · rcases hu : union fuel s1 b existing with _ | ⟨s2, r2⟩
      · simp only [] at h
        rw [hu] at h
        cases h
      · refine ⟨s2, ?_, (union_concl hu hwf1).1⟩
        show Option.map Prod.fst (union fuel s1 b existing) = some s2
        rw [hu]
        rfl
  obtain ⟨s2, hs2, hwf2⟩ := hstep1
  simp only [hs2] at h
  rcases g2 : get_related s2 b fb with _ | ⟨s3, ex_b⟩
  · rw [g2] at h
    cases h
  simp only [g2] at h
  obtain ⟨hwf3, -, -⟩ := get_related_state_spec g2 hwf2
  have hstep2 : ∃ s4, (match ex_b with
      | some existing => (union fuel s3 a existing).map Prod.fst
      | none => some s3) = some s4 ∧ BaseWF s4 := by
    rcases ex_b with _ | existing
    · exact ⟨s3, rfl, hwf3⟩
    · rcases hu : union fuel s3 a existing with _ | ⟨s4, r4⟩
      · simp only [] at h
        rw [hu] at h
        cases h
      · refine ⟨s4, ?_, (union_concl hu hwf3).1⟩
        show Option.map Prod.fst (union fuel s3 a existing) = some s4
        rw [hu]
        rfl
  obtain ⟨s4, hs4, hwf4⟩ := hstep2
  simp only [hs4] at h
  rcases f5 : s4.find a with _ | ⟨s5, rep_a⟩
  · rw [f5] at h
    cases h
  simp only [f5] at h
  obtain ⟨hwf5, hrepa, -, hroots5, -, -⟩ := find_eq_spec hwf4 f5
  rcases f6 : s5.find b with _ | ⟨s6, rep_b⟩
  · rw [f6] at h
    cases h
  simp only [f6] at h
  obtain ⟨hwf6, hrepb, -, hroots6, -, -⟩ := find_eq_spec hwf5 f6
  cases h
  have hA : rootD s6.union_find a = rep_a := by
    rw [hroots6, hroots5, ← hrepa]
  have hB : rootD s6.union_find b = rep_b := by
    rw [hroots6, ← hrepb]
  constructor
  · show RelField.get fb (get_class_info
      ⟨s6.union_find, OHM.updateEntry
        (OHM.updateEntry s6.class_info rep_a {} (RelField.set fa (some rep_b)))
        rep_b {} (RelField.set fb (some rep_a))⟩ (rootD s6.union_find b))
      = some (rootD s6.union_find a)
    rw [hA, hB, get_class_info]
    show RelField.get fb ((OHM.getV (OHM.updateEntry
        (OHM.updateEntry s6.class_info rep_a {} (RelField.set fa (some rep_b)))
        rep_b {} (RelField.set fb (some rep_a))) rep_b).getD {}) = some rep_a
    rw [OHM.getV_updateEntry_self]
    show RelField.get fb (RelField.set fb (some rep_a) _) = some rep_a
    rw [RelField.get_set_self]
  · show RelField.get fa (get_class_info
      ⟨s6.union_find, OHM.updateEntry
        (OHM.updateEntry s6.class_info rep_a {} (RelField.set fa (some rep_b)))
        rep_b {} (RelField.set fb (some rep_a))⟩ (rootD s6.union_find a))
      = some (rootD s6.union_find b)
    rw [hA, hB, get_class_info]
    by_cases hab : rep_a = rep_b
    · subst hab
      show RelField.get fa ((OHM.getV (OHM.updateEntry
          (OHM.updateEntry s6.class_info rep_a {} (RelField.set fa (some rep_a)))
          rep_a {} (RelField.set fb (some rep_a))) rep_a).getD {}) = some rep_a
      rw [OHM.getV_updateEntry_self]
      show RelField.get fa (RelField.set fb (some rep_a)
          ((OHM.getV (OHM.updateEntry s6.class_info rep_a {}
            (RelField.set fa (some rep_a))) rep_a).getD {})) = some rep_a
      rw [RelField.get_set_ne hne, OHM.getV_updateEntry_self]
      show RelField.get fa (RelField.set fa (some rep_a) _) = some rep_a
      rw [RelField.get_set_self]
    · show RelField.get fa ((OHM.getV (OHM.updateEntry
          (OHM.updateEntry s6.class_info rep_a {} (RelField.set fa (some rep_b)))
          rep_b {} (RelField.set fb (some rep_a))) rep_a).getD {}) = some rep_b
      rw [OHM.getV_updateEntry_ne _ _ _ hab, OHM.getV_updateEntry_self]
      show RelField.get fa (RelField.set fa (some rep_b) _) = some rep_b
      rw [RelField.get_set_self]

/-- C4 witness: the amended theorem applied to establishing `Box(5) = 6`
on the empty state. -/
theorem C4_set_relationship_symmetric_witness :
    RelField.get RelField.unboxedF
        (get_class_info boxOnlyState (rootD boxOnlyState.union_find 6))
        = some (rootD boxOnlyState.union_find 5) ∧
      RelField.get RelField.boxedF
        (get_class_info boxOnlyState (rootD boxOnlyState.union_find 5))
        = some (rootD boxOnlyState.union_find 6) :=
  @C4_set_relationship_symmetric 10 {} 5 6 RelField.boxedF RelField.unboxedF
    boxOnlyState (by decide) (by decide) (by decide)

/-- The number of distinct representatives a state induces on a fixed
variable list: the measure whose strict decrease at every link proves
`union`'s termination. -/
def classesOn (W : List VariableId) (s : EqualityState) : Nat :=
  ((W.map (rootD s.union_find)).dedup).length

theorem dedup_map_le {α β : Type} [DecidableEq β] (L : List α) (f g : α → β)
    (h : ∀ x y, f x = f y → g x = g y) :
    ((L.map g).dedup).length ≤ ((L.map f).dedup).length := by
  induction L with
  | nil => exact Nat.le_refl _
  | cons a L ih =>
    rw [List.map_cons, List.map_cons]
    by_cases hfa : f a ∈ L.map f
    · have hga : g a ∈ L.map g := by
        rcases List.mem_map.1 hfa with ⟨w, hw, hfw⟩
        rw [← h w a hfw]
        exact List.mem_map_of_mem g hw
      rw [List.dedup_cons_of_mem hga, List.dedup_cons_of_mem hfa]
      exact ih
    · rw [List.dedup_cons_of_not_mem hfa, List.length_cons]
      by_cases hga : g a ∈ L.map g
      · rw [List.dedup_cons_of_mem hga]
        exact Nat.le_succ_of_le ih
      · rw [List.dedup_cons_of_not_mem hga, List.length_cons]
        exact Nat.succ_le_succ ih

theorem dedup_map_collapse_lt {β : Type} [DecidableEq β] {M : List β} {o n : β}
    (ho : o ∈ M) (hn : n ∈ M) (hne : o ≠ n) :
    ((M.map (fun x => if x = o then n else x)).dedup).length < (M.dedup).length := by
  rw [← List.card_toFinset, ← List.card_toFinset]
  have htf : (M.map (fun x => if x = o then n else x)).toFinset
      = M.toFinset.image (fun x => if x = o then n else x) := by
    ext y
    simp
  rw [htf]
  have hsub : M.toFinset.image (fun x => if x = o then n else x)
      ⊆ (M.toFinset.erase o).image (fun x => if x = o then n else x) := by
    intro y hy
    rcases Finset.mem_image.1 hy with ⟨x, hx, hxy⟩
    by_cases hxo : x = o
    · refine Finset.mem_image.2
        ⟨n, Finset.mem_erase.2 ⟨Ne.symm hne, List.mem_toFinset.2 hn⟩, ?_⟩
      rw [← hxy, hxo]
      simp [Ne.symm hne]
    · exact Finset.mem_image.2 ⟨x, Finset.mem_erase.2 ⟨hxo, hx⟩, hxy⟩
  calc (M.toFinset.image (fun x => if x = o then n else x)).card
      ≤ ((M.toFinset.erase o).image (fun x => if x = o then n else x)).card :=
        Finset.card_le_card hsub
    _ ≤ (M.toFinset.erase o).card := Finset.card_image_le
    _ < M.toFinset.card := Finset.card_erase_lt_of_mem (List.mem_toFinset.2 ho)

/-- Coarsening the partition can only lower the class measure. -/
theorem classesOn_mono {W : List VariableId} {s s' : EqualityState}
    (h : ∀ u v, EqvIn s u v → EqvIn s' u v) : classesOn W s' ≤ classesOn W s :=
  dedup_map_le W (rootD s.union_find) (rootD s'.union_find)
    (fun x y hxy => (h x y hxy : rootD s'.union_find x = rootD s'.union_find y))

theorem classesOn_congr {W : List VariableId} {s s' : EqualityState}
    (h : ∀ v, rootD s'.union_find v = rootD s.union_find v) :
    classesOn W s' = classesOn W s := by
  unfold classesOn
  rw [List.map_congr_left (fun v hv => h v)]

/-- Linking two distinct roots that both represent some listed variable
strictly decreases the class measure. -/
theorem classesOn_link_lt {W : List VariableId} {s s' : EqualityState}
    {nw od : VariableId}
    (hroots : ∀ v, rootD s'.union_find v =
      if rootD s.union_find v = od then nw else rootD s.union_find v)
    (hodm : od ∈ W.map (rootD s.union_find)) (hnwm : nw ∈ W.map (rootD s.union_find))
    (hne : od ≠ nw) :
    classesOn W s' < classesOn W s := by
  have hmap : W.map (rootD s'.union_find)
      = (W.map (rootD s.union_find)).map (fun x => if x = od then nw else x) := by
    rw [List.map_map]
    exact List.map_congr_left (fun v hv => hroots v)
  unfold classesOn
  rw [hmap]
  exact dedup_map_collapse_lt hodm hnwm hne

/-- The totality hypothesis shape for `union` at a given fuel: fuel above
the class measure of any variable list covering the state and the two
arguments guarantees a result. -/
def RecTotal (fuel : Nat) : Prop :=
  ∀ (W : List VariableId) (s : EqualityState) (a b : VariableId), BaseWF s →
    (∀ x ∈ mentionedVars s, x ∈ W) → a ∈ W → b ∈ W →
    classesOn W s < fuel → (union fuel s a b).isSome

theorem mergeField_total {fuel : Nat} (htot : RecTotal fuel)
    {W : List VariableId} {s : EqualityState} {nv ov : Option VariableId}
    (hwf : BaseWF s) (hsub : ∀ x ∈ mentionedVars s, x ∈ W)
    (hnv : ∀ x, nv = some x → x ∈ W) (hov : ∀ x, ov = some x → x ∈ W)
    (hcl : classesOn W s < fuel) :
    ∃ s' o, mergeField (union fuel) s nv ov = some (s', o) ∧ BaseWF s' ∧
      (∀ x ∈ mentionedVars s', x ∈ W) ∧ classesOn W s' ≤ classesOn W s := by
  rcases nv with _ | nval
  · exact ⟨s, (none : Option VariableId).or ov, rfl, hwf, hsub, Nat.le_refl _⟩
  rcases ov with _ | oval
  · exact ⟨s, (some nval).or none, rfl, hwf, hsub, Nat.le_refl _⟩
  by_cases hne : nval ≠ oval
  · have hiso := htot W s nval oval hwf hsub (hnv nval rfl) (hov oval rfl) hcl
    rcases hu : union fuel s nval oval with _ | ⟨s2, r2⟩
    · rw [hu] at hiso
      simp at hiso
    · obtain ⟨hwf2, hmono, -, -, hment, -⟩ := union_concl hu hwf
      refine ⟨s2, some r2, ?_, hwf2, ?_, classesOn_mono hmono⟩
      · show (if nval ≠ oval then (union fuel s nval oval).map (fun p => (p.1, some p.2))
            else some (s, some nval)) = some (s2, some r2)
        rw [if_pos hne, hu]
        rfl
      · intro x hx
        rcases hment x hx with hm | rfl | rfl
        · exact hsub x hm
        · exact hnv x rfl
        · exact hov x rfl
  · refine ⟨s, some nval, ?_, hwf, hsub, Nat.le_refl _⟩
    show (if nval ≠ oval then (union fuel s nval oval).map (fun p => (p.1, some p.2))
        else some (s, some nval)) = some (s, some nval)
    rw [if_neg hne]

theorem mergeInfos_total {fuel : Nat} (htot : RecTotal fuel)
    {W : List VariableId} {s : EqualityState} {ni oi : ClassInfo}
    (hwf : BaseWF s) (hsub : ∀ x ∈ mentionedVars s, x ∈ W)
    (hni : ∀ x ∈ ni.referenced_vars, x ∈ W) (hoi : ∀ x ∈ oi.referenced_vars, x ∈ W)
    (hcl : classesOn W s < fuel) :
    ∃ s7 mg, mergeInfos (union fuel) s ni oi = some (s7, mg) ∧ BaseWF s7 ∧
      (∀ x ∈ mentionedVars s7, x ∈ W) ∧ classesOn W s7 ≤ classesOn W s := by
  have hnb : ∀ x, ni.boxed_class = some x → x ∈ W := fun x hx =>
    hni x (mem_referenced_vars.2 (.inl hx))
  have hob : ∀ x, oi.boxed_class = some x → x ∈ W := fun x hx =>
    hoi x (mem_referenced_vars.2 (.inl hx))
  have hnu : ∀ x, ni.unboxed_class = some x → x ∈ W := fun x hx =>
    hni x (mem_referenced_vars.2 (.inr (.inr (.inr hx))))
  have hou : ∀ x, oi.unboxed_class = some x → x ∈ W := fun x hx =>
    hoi x (mem_referenced_vars.2 (.inr (.inr (.inr hx))))
  have hns : ∀ x, ni.snapshot_class = some x → x ∈ W := fun x hx =>
    hni x (mem_referenced_vars.2 (.inr (.inr (.inl hx))))
  have hos : ∀ x, oi.snapshot_class = some x → x ∈ W := fun x hx =>
    hoi x (mem_referenced_vars.2 (.inr (.inr (.inl hx))))
  have hno : ∀ x, ni.original_class = some x → x ∈ W := fun x hx =>
    hni x (mem_referenced_vars.2 (.inr (.inl hx)))
  have hoo : ∀ x, oi.original_class = some x → x ∈ W := fun x hx =>
    hoi x (mem_referenced_vars.2 (.inr (.inl hx)))
  obtain ⟨s4, bx, h1, hwf4, hsub4, hc4⟩ := mergeField_total htot hwf hsub hnb hob hcl
  have hcl4 : classesOn W s4 < fuel := Nat.lt_of_le_of_lt hc4 hcl
  obtain ⟨s5, ub, h2, hwf5, hsub5, hc5⟩ := mergeField_total htot hwf4 hsub4 hnu hou hcl4
  have hcl5 : classesOn W s5 < fuel := Nat.lt_of_le_of_lt hc5 hcl4
  obtain ⟨s6, sn, h3, hwf6, hsub6, hc6⟩ := mergeField_total htot hwf5 hsub5 hns hos hcl5
  have hcl6 : classesOn W s6 < fuel := Nat.lt_of_le_of_lt hc6 hcl5
  obtain ⟨s7, og, h4, hwf7, hsub7, hc7⟩ := mergeField_total htot hwf6 hsub6 hno hoo hcl6
  refine ⟨s7, ⟨bx, ub, sn, og⟩, ?_, hwf7, hsub7,
    Nat.le_trans hc7 (Nat.le_trans hc6 (Nat.le_trans hc5 hc4))⟩
  rw [mergeInfos]
  simp only [h1, h2, h3, h4]

/-- The link-and-merge path returns when entered with two distinct roots
of listed variables and fuel at least the class measure: the link itself
strictly lowers the measure below the fuel of the recursive unions. -/
theorem unionLinkGo_total {fuel : Nat} (htot : RecTotal fuel) {W : List VariableId}
    {s : EqualityState} {nw od : VariableId} (hwf : BaseWF s)
    (hnr : get_parent s.union_find nw = nw) (hor : get_parent s.union_find od = od)
    (hlt : nw < od) (hsub : ∀ x ∈ mentionedVars s, x ∈ W)
    (hnwW : nw ∈ W) (hodW : od ∈ W)
    (hnwm : nw ∈ W.map (rootD s.union_find)) (hodm : od ∈ W.map (rootD s.union_find))
    (hcl : classesOn W s ≤ fuel) :
    (unionLinkGo (union fuel) s nw od).isSome := by
  have hne : od ≠ nw := (Nat.ne_of_lt hlt).symm
  rw [unionLinkGo_eq]
  obtain ⟨hf1, hnd1, hvk1, hroots1, hkeys1, hvals1⟩ :=
    link_uf_spec hwf.forest hwf.nodup_uf hwf.values_keys hor hnr hne
  set uf1 := OHM.insertV (OHM.entryOrInsert s.union_find nw nw) od nw with huf1
  set po2 := (OHM.swapRemove s.class_info od).2 with hpo2
  set ci3 := (OHM.swapRemove po2 nw).2 with hci3
  set ni := (OHM.swapRemove po2 nw).1.getD {} with hni
  set oi := (OHM.swapRemove s.class_info od).1.getD {} with hoi
  have hsub3 : ∀ e ∈ ci3, e ∈ s.class_info := by
    intro e he
    rw [hci3] at he
    have h1 := swapRemove_entry_subset he
    rw [hpo2] at h1
    exact swapRemove_entry_subset h1
  have hnd3 : OHM.NodupKeys ci3 := by
    rw [hci3]
    refine OHM.nodupKeys_swapRemove _ _ ?_
    rw [hpo2]
    exact OHM.nodupKeys_swapRemove _ _ hwf.nodup_ci
  have hwf3 : BaseWF ⟨uf1, ci3⟩ := ⟨hf1, hnd1, hnd3, hvk1⟩
  have hni_refs : ∀ x, x ∈ ni.referenced_vars → x ∈ mentionedVars s := by
    intro x hx
    rcases hg : (OHM.swapRemove po2 nw).1 with _ | ci
    · rw [hni, hg] at hx
      simp [Option.getD, ClassInfo.referenced_vars] at hx
    · have hgv : OHM.getV po2 nw = some ci := (OHM.swapRemove_fst po2 nw).symm.trans hg
      have hmem : (nw, ci) ∈ po2 := OHM.getV_mem hgv
      rw [hpo2] at hmem
      have hmem' : (nw, ci) ∈ s.class_info := swapRemove_entry_subset hmem
      rw [hni, hg] at hx
      exact ci_refs_mentioned (List.mem_map_of_mem Prod.snd hmem') hx
  have hoi_refs : ∀ x, x ∈ oi.referenced_vars → x ∈ mentionedVars s := by
    intro x hx
    rcases hg : (OHM.swapRemove s.class_info od).1 with _ | ci
    · rw [hoi, hg] at hx
      simp [Option.getD, ClassInfo.referenced_vars] at hx
    · have hgv : OHM.getV s.class_info od = some ci :=
        (OHM.swapRemove_fst s.class_info od).symm.trans hg
      rw [hoi, hg] at hx
      exact getV_ci_refs_mentioned hgv hx
  have hclose3 : ∀ x ∈ mentionedVars (⟨uf1, ci3⟩ : EqualityState), x ∈ W := by
    intro x hx
    rcases mem_mentioned.1 hx with hk | hv | hck | ⟨ci, hci, hcr⟩
    · rcases (hkeys1 x).1 hk with rfl | rfl | hk'
      · exact hodW
      · exact hnwW
      · exact hsub x (uf_keys_mentioned hk')
    · rcases hvals1 x hv with rfl | hv'
      · exact hnwW
      · exact hsub x (uf_values_mentioned hv')
    · exact hsub x (ci_keys_mentioned (keys_subset_of_entries hsub3 hck))
    · exact hsub x (ci_refs_mentioned (values_subset_of_entries hsub3 hci) hcr)
  have hlink_lt : classesOn W (⟨uf1, ci3⟩ : EqualityState) < classesOn W s :=
    classesOn_link_lt (fun v => hroots1 v) hodm hnwm hne
  have hcl3 : classesOn W (⟨uf1, ci3⟩ : EqualityState) < fuel :=
    Nat.lt_of_lt_of_le hlink_lt hcl
  have hniW : ∀ x ∈ ni.referenced_vars, x ∈ W := fun x hx => hsub x (hni_refs x hx)
  have hoiW : ∀ x ∈ oi.referenced_vars, x ∈ W := fun x hx => hsub x (hoi_refs x hx)
  obtain ⟨s7, mg, hMI, hwf7, hsub7, hc7⟩ :=
    mergeInfos_total htot hwf3 hclose3 hniW hoiW hcl3
  simp only [hMI]
  by_cases hemp : mg.is_empty = true
  · rw [if_pos hemp]
    exact find_isSome_of_forest hwf7.forest nw
  · rw [if_neg hemp]
    rcases hF8 : s7.find nw with _ | ⟨s8, fr⟩
    · have h8 := find_isSome_of_forest hwf7.forest nw
      rw [hF8] at h8
      simp at h8
    · simp only [hF8]
      obtain ⟨hwf8, -, -, -, -, -⟩ := find_eq_spec hwf7 hF8
      exact @find_isSome_of_forest
        ⟨s8.union_find, OHM.insertV s8.class_info fr mg⟩ hwf8.forest nw

/-- `union` is total: any fuel strictly above the class measure of a
variable list covering the state's mentioned variables and the two
arguments returns a result. -/
theorem union_total : ∀ fuel, RecTotal fuel := by
  intro fuel
  induction fuel with
  | zero =>
    intro W s a b hwf hsub ha hb hcl
    exact absurd hcl (Nat.not_lt_zero _)
  | succ n ihn =>
    intro W s a b hwf hsub ha hb hcl
    show (unionBody (union n) s a b).isSome
    rw [unionBody]
    obtain ⟨⟨s1, ra⟩, hfa⟩ :=
      Option.isSome_iff_exists.1 (find_isSome_of_forest hwf.forest a)
    simp only [hfa]
    obtain ⟨hwf1, hra, hci1, hroots1, hkeys1, hment1⟩ := find_eq_spec hwf hfa
    obtain ⟨⟨s2, rb⟩, hfb⟩ :=
      Option.isSome_iff_exists.1 (find_isSome_of_forest hwf1.forest b)
    simp only [hfb]
    obtain ⟨hwf2, hrb, hci2, hroots2, hkeys2, hment2⟩ := find_eq_spec hwf1 hfb
    have hroots20 : ∀ x, rootD s2.union_find x = rootD s.union_find x := fun x =>
      (hroots2 x).trans (hroots1 x)
    by_cases heq : ra = rb
    · rw [if_pos heq]
      rfl
    · rw [if_neg heq]
      have hsub2 : ∀ x ∈ mentionedVars s2, x ∈ W := by
        intro x hx
        rcases hment2 x hx with hx | rfl
        · rcases hment1 x hx with hx | rfl
          · exact hsub x hx
          · exact ha
        · exact hb
      have hcl2 : classesOn W s2 = classesOn W s := classesOn_congr hroots20
      have hraW : ra ∈ W := by
        rcases rootD_mentioned_or_self (s := s) a with hm | he
        · refine hsub ra ?_
          rw [hra]
          exact hm
        · have hea : ra = a := hra.trans he
          rw [hea]
          exact ha
      have hrbW : rb ∈ W := by
        rcases rootD_mentioned_or_self (s := s1) b with hm | he
        · have hm' : rb ∈ mentionedVars s1 := by
            rw [hrb]
            exact hm
          rcases hment1 rb hm' with hm'' | he''
          · exact hsub rb hm''
          · rw [he'']
            exact ha
        · have heb : rb = b := hrb.trans he
          rw [heb]
          exact hb
      have hram : ra ∈ W.map (rootD s2.union_find) :=
        List.mem_map.2 ⟨a, ha, (hroots20 a).trans hra.symm⟩
      have hrbm : rb ∈ W.map (rootD s2.union_find) :=
        List.mem_map.2 ⟨b, hb, (hroots2 b).trans hrb.symm⟩
      have hroot2ra : rootD s2.union_find ra = ra := by
        rw [hroots20, hra]
        exact rootD_idem hwf.forest a
      have hroot2rb : rootD s2.union_find rb = rb := by
        rw [hroots2, hrb]
        exact rootD_idem hwf1.forest b
      have hpra : get_parent s2.union_find ra = ra := by
        rw [← hroot2ra]
        exact rootD_parent_self hwf2.forest ra
      have hprb : get_parent s2.union_find rb = rb := by
        rw [← hroot2rb]
        exact rootD_parent_self hwf2.forest rb
      have hcl2' : classesOn W s2 ≤ n := by
        rw [hcl2]
        exact Nat.lt_succ_iff.1 hcl
      rw [unionLink]
      by_cases hlt : ra < rb
      · rw [if_pos hlt]
        exact unionLinkGo_total ihn hwf2 hpra hprb hlt hsub2 hraW hrbW hram hrbm hcl2'
      · rw [if_neg hlt]
        have hlt' : rb < ra :=
          Nat.lt_of_le_of_ne (Nat.le_of_not_lt hlt) (fun e => heq e.symm)
        exact unionLinkGo_total ihn hwf2 hprb hpra hlt' hsub2 hrbW hraW hrbm hram hcl2'

/-- Sufficient fuel for `union s a b`: the number of equivalence classes
the state induces on its mentioned variables together with the two
arguments, plus one. -/
def unionFuelBound (s : EqualityState) (a b : VariableId) : Nat :=
  classesOn (mentionedVars s ++ [a, b]) s + 1

/-- Two classes `{0}` and `{2}` whose infos point box- and snapshot-wise at
4 and 5 respectively: merging them performs two recursive unions on the
same pair (4, 5). -/
def twoFieldState : EqualityState :=
  ⟨[], [(0, ⟨some 4, none, some 4, none⟩), (2, ⟨some 5, none, some 5, none⟩)]⟩

/-- C8 counterexample: on `twoFieldState` (whose parent map, the empty
forest, satisfies the claim's hypothesis), `union(0, 2)` performs two
recursive unions while merging `class_info`; the second one's before and
after states are IDENTICAL (its arguments are already equivalent), so no
measure — in particular the number of equivalence classes — strictly
decreases at every recursive union. The first conjunct checks that the
instrumented `unionT` agrees with `union` at this input. -/
theorem C8_recursive_union_not_decreasing :
    (unionT 10 twoFieldState 0 2).map (fun p => (p.1, p.2.1))
        = union 10 twoFieldState 0 2 ∧
      (unionT 10 twoFieldState 0 2).map (fun p => p.2.2)
        = some [(⟨[(0, 0), (2, 0)], []⟩, ⟨[(0, 0), (2, 0), (4, 4), (5, 4)], []⟩),
            (⟨[(0, 0), (2, 0), (4, 4), (5, 4)], []⟩,
              ⟨[(0, 0), (2, 0), (4, 4), (5, 4)], []⟩)] ∧
      ((unionT 10 twoFieldState 0 2).map
        (fun p => p.2.2.map (fun q => (classCount q.1, classCount q.2))))
        = some [(1, 2), (2, 2)] := by
  decide

/-- C8 (amended): on a forest parent map `find` terminates for every
variable, and `union` TERMINATES on every well-formed state: fuel equal to
the number of equivalence classes among the state's mentioned variables and
the two arguments, plus one, always yields a result — each LINKING
recursive union strictly decreases that finite class measure, although a
recursive union whose arguments are already equivalent is a no-op and
decreases nothing (the counterexample). Every returning union moreover
coarsens the partition and equates its arguments. -/
theorem C8_find_and_union_terminate :
    (∀ s : EqualityState, Forest s.union_find → ∀ v, (s.find v).isSome) ∧
      (∀ (s : EqualityState) (a b : VariableId), BaseWF s →
        (union (unionFuelBound s a b) s a b).isSome) ∧
      (∀ fuel (s : EqualityState) a b s' r, union fuel s a b = some (s', r) →
        BaseWF s → EqvIn s' a b ∧ ∀ u v, EqvIn s u v → EqvIn s' u v) := by
  refine ⟨fun _ hf v => find_isSome_of_forest hf v, ?_, ?_⟩
  · intro s a b hwf
    refine union_total (unionFuelBound s a b) (mentionedVars s ++ [a, b]) s a b
      hwf ?_ ?_ ?_ ?_
    · intro x hx
      exact List.mem_append.2 (.inl hx)
    · exact List.mem_append.2 (.inr (List.mem_cons_self a [b]))
    · exact List.mem_append.2 (.inr (List.mem_cons_of_mem a (List.mem_cons_self b [])))
    · exact Nat.lt_succ_self _
  · intro fuel s a b s' r h hwf
    exact ⟨(union_concl h hwf).2.2.1, (union_concl h hwf).2.1⟩

/-- C8 witness: find-termination on a two-node forest, full `union`
termination at the fuel bound on the counterexample's own state, and the
coarsening clause at a concrete returning union. -/
theorem C8_find_and_union_terminate_witness :
    ((⟨[(1, 0), (0, 0)], []⟩ : EqualityState).find 1).isSome ∧
      (union (unionFuelBound twoFieldState 0 2) twoFieldState 0 2).isSome ∧
      EqvIn (⟨[(1, 0), (0, 0), (2, 0)], []⟩ : EqualityState) 2 0 :=
  ⟨C8_find_and_union_terminate.1 ⟨[(1, 0), (0, 0)], []⟩ (by decide) 1,
    C8_find_and_union_terminate.2.1 twoFieldState 0 2 (by decide),
    (C8_find_and_union_terminate.2.2 5 ⟨[(1, 0), (0, 0)], []⟩ 2 0
      ⟨[(1, 0), (0, 0), (2, 0)], []⟩ 0 (by decide) (by decide)).1⟩

/-- The lowest-ID-representative property: every variable's representative
is numerically at most the variable. -/
def MinRep (s : EqualityState) : Prop := ∀ v, rootD s.union_find v ≤ v

/-- The invariant every analysis operation preserves: structural
well-formedness plus minimal representatives. -/
def AnalysisInv (s : EqualityState) : Prop := BaseWF s ∧ MinRep s

theorem find_inv {s s1 : EqualityState} {v r : VariableId}
    (h : s.find v = some (s1, r)) (hi : AnalysisInv s) : AnalysisInv s1 := by
  obtain ⟨hwf1, -, -, hroots, -, -⟩ := find_eq_spec hi.1 h
  refine ⟨hwf1, fun w => ?_⟩
  rw [hroots]
  exact hi.2 w

theorem union_inv {fuel : Nat} {s : EqualityState} {a b : VariableId}
    {s' : EqualityState} {r : VariableId} (h : union fuel s a b = some (s', r))
    (hi : AnalysisInv s) : AnalysisInv s' :=
  ⟨(union_concl h hi.1).1, (union_concl h hi.1).2.2.2.2.2 hi.2⟩

theorem get_related_inv {s : EqualityState} {v : VariableId} {f : RelField}
    {s1 : EqualityState} {o : Option VariableId}
    (h : get_related s v f = some (s1, o)) (hi : AnalysisInv s) : AnalysisInv s1 := by
  obtain ⟨hwf1, -, hroots⟩ := get_related_state_spec h hi.1
  refine ⟨hwf1, fun w => ?_⟩
  rw [hroots]
  exact hi.2 w

theorem set_relationship_inv {fuel : Nat} {s : EqualityState} {a b : VariableId}
    {fa fb : RelField} {s' : EqualityState}
    (h : set_relationship fuel s a b fa fb = some s') (hi : AnalysisInv s) :
    AnalysisInv s' := by
  rw [set_relationship] at h
  rcases g1 : get_related s a fa with _ | ⟨s1, ex_a⟩
  · rw [g1] at h
    cases h
  simp only [g1] at h
  have hi1 : AnalysisInv s1 := get_related_inv g1 hi
  have hstep1 : ∃ s2, (match ex_a with
      | some existing => (union fuel s1 b existing).map Prod.fst
      | none => some s1) = some s2 ∧ AnalysisInv s2 := by
    rcases ex_a with _ | existing
    · exact ⟨s1, rfl, hi1⟩
    · rcases hu : union fuel s1 b existing with _ | ⟨s2, r2⟩
      · simp only [] at h
        rw [hu] at h
        cases h
      · refine ⟨s2, ?_, union_inv hu hi1⟩
        show Option.map Prod.fst (union fuel s1 b existing) = some s2
        rw [hu]
        rfl
  obtain ⟨s2, hs2, hi2⟩ := hstep1
  simp only [hs2] at h
  rcases g2 : get_related s2 b fb with _ | ⟨s3, ex_b⟩
  · rw [g2] at h
    cases h
  simp only [g2] at h
  have hi3 : AnalysisInv s3 := get_related_inv g2 hi2
  have hstep2 : ∃ s4, (match ex_b with
      | some existing => (union fuel s3 a existing).map Prod.fst
      | none => some s3) = some s4 ∧ AnalysisInv s4 := by
    rcases ex_b with _ | existing
    · exact ⟨s3, rfl, hi3⟩
    · rcases hu : union fuel s3 a existing with _ | ⟨s4, r4⟩
      · simp only [] at h
        rw [hu] at h
        cases h
      · refine ⟨s4, ?_, union_inv hu hi3⟩
        show Option.map Prod.fst (union fuel s3 a existing) = some s4
        rw [hu]
        rfl
  obtain ⟨s4, hs4, hi4⟩ := hstep2
  simp only [hs4] at h
  rcases f5 : s4.find a with _ | ⟨s5, rep_a⟩
  · rw [f5] at h
    cases h
  simp only [f5] at h
  have hi5 : AnalysisInv s5 := find_inv f5 hi4
  rcases f6 : s5.find b with _ | ⟨s6, rep_b⟩
  · rw [f6] at h
    cases h
  simp only [f6] at h
  cases h
  have hi6 : AnalysisInv s6 := find_inv f6 hi5
  exact ⟨⟨hi6.1.forest, hi6.1.nodup_uf,
    OHM.nodupKeys_updateEntry _ _ _ _ (OHM.nodupKeys_updateEntry _ _ _ _ hi6.1.nodup_ci),
    hi6.1.values_keys⟩, hi6.2⟩

theorem transfer_stmt_inv {fuel : Nat} {s s' : EqualityState} {st : Statement}
    (h : transfer_stmt fuel s st = some s') (hi : AnalysisInv s) : AnalysisInv s' := by
  cases st with
  | snapshotS input original snap =>
    simp only [transfer_stmt] at h
    rcases hu : union fuel s original input with _ | ⟨s1, r⟩
    · rw [hu] at h
      cases h
    · simp only [hu] at h
      exact set_relationship_inv h (union_inv hu hi)
  | desnapS input output =>
    simp only [transfer_stmt] at h
    exact set_relationship_inv h hi
  | intoBoxS input output =>
    simp only [transfer_stmt] at h
    exact set_relationship_inv h hi
  | unboxS input output =>
    simp only [transfer_stmt] at h
    exact set_relationship_inv h hi
  | structConstructS =>
    cases h
    exact hi
  | structDestructureS =>
    cases h
    exact hi
  | enumConstructS =>
    cases h
    exact hi
  | constS =>
    cases h
    exact hi
  | callS f =>
    cases h
    exact hi

/-- An `Option`-valued fold preserves any invariant its step preserves. -/
theorem foldlM_option_inv {α β : Type} {P : β → Prop} {f : β → α → Option β}
    (hf : ∀ b a b', f b a = some b' → P b → P b') :
    ∀ (l : List α) (b b' : β), List.foldlM f b l = some b' → P b → P b' := by
  intro l
  induction l with
  | nil =>
    intro b b' h hb
    rw [List.foldlM_nil] at h
    cases h
    exact hb
  | cons a rest ih =>
    intro b b' h hb
    rw [List.foldlM_cons] at h
    rcases hf1 : f b a with _ | b1
    · rw [hf1] at h
      cases h
    · rw [hf1] at h
      simp only [Option.bind_eq_bind, Option.some_bind] at h
      exact ih b1 b' h (hf b a b1 hf1 hb)

theorem unionGroups_inv {fuel : Nat} {res : EqualityState}
    {groups : List ((VariableId × VariableId) × List VariableId)} {res' : EqualityState}
    (h : unionGroups fuel res groups = some res') (hi : AnalysisInv res) :
    AnalysisInv res' := by
  rw [unionGroups] at h
  refine foldlM_option_inv ?_ groups res res' h hi
  intro b kv b' hstep hb
  rcases kv with ⟨key, l⟩
  rcases l with _ | ⟨first, rest⟩
  · cases hstep
    exact hb
  rcases rest with _ | ⟨x, rest'⟩
  · cases hstep
    exact hb
  refine foldlM_option_inv ?_ (x :: rest') b b' hstep hb
  intro r var r' hst hr
  rcases hu : union fuel r first var with _ | ⟨s2, r2⟩
  · rw [hu] at hst
    cases hst
  · rw [hu] at hst
    cases hst
    exact union_inv hu hr

theorem buildIntersections_inv {res : EqualityState}
    {groups : List ((VariableId × VariableId) × List VariableId)}
    {out : EqualityState × List (VariableId × List (VariableId × VariableId))}
    (h : buildIntersections res groups = some out) (hi : AnalysisInv res) :
    AnalysisInv out.1 := by
  rw [buildIntersections] at h
  refine foldlM_option_inv (P := fun p => AnalysisInv p.1) ?_ groups (res, []) out h hi
  intro p kv p' hstep hp
  rcases kv with ⟨key, l⟩
  rcases l with _ | ⟨v0, lrest⟩
  · cases hstep
    exact hp
  simp only [] at hstep
  rcases hf : p.1.find v0 with _ | ⟨result, rep⟩
  · rw [hf] at hstep
    cases hstep
  · simp only [hf] at hstep
    cases hstep
    exact find_inv hf hp

theorem find_intersection_rep_none_left (res i1 i2 : EqualityState)
    (ints : List (VariableId × List (VariableId × VariableId))) (r2 : Option VariableId) :
    find_intersection_rep res i1 i2 ints none r2 = some (res, none) := rfl

theorem find_intersection_rep_none_right (res i1 i2 : EqualityState)
    (ints : List (VariableId × List (VariableId × VariableId))) (a1 : VariableId) :
    find_intersection_rep res i1 i2 ints (some a1) none = some (res, none) := rfl

/-- Unfolding equation of `find_intersection_rep` when both sides carry a
relation target. -/
theorem find_intersection_rep_some_some (res i1 i2 : EqualityState)
    (ints : List (VariableId × List (VariableId × VariableId))) (a1 a2 : VariableId) :
    find_intersection_rep res i1 i2 ints (some a1) (some a2) =
      (match i1.find_immut a1 with
      | none => none
      | some rr1 =>
        match i2.find_immut a2 with
        | none => none
        | some rr2 =>
          match OHM.getV ints rr1 with
          | none => some (res, none)
          | some lst =>
            match lst.find? (fun q => q.1 == rr2) with
            | none => some (res, none)
            | some q =>
              match res.find q.2 with
              | none => none
              | some (res2, rep) => some (res2, some rep)) := rfl

theorem find_intersection_rep_inv {res : EqualityState} {i1 i2 : EqualityState}
    {ints : List (VariableId × List (VariableId × VariableId))}
    {r1 r2 : Option VariableId} {out : EqualityState × Option VariableId}
    (h : find_intersection_rep res i1 i2 ints r1 r2 = some out) (hi : AnalysisInv res) :
    AnalysisInv out.1 := by
  rcases r1 with _ | a1
  · rw [find_intersection_rep_none_left] at h
    cases h
    exact hi
  rcases r2 with _ | a2
  · rw [find_intersection_rep_none_right] at h
    cases h
    exact hi
  rw [find_intersection_rep_some_some] at h
  rcases h1 : i1.find_immut a1 with _ | rr1
  · rw [h1] at h
    cases h
  simp only [h1] at h
  rcases h2 : i2.find_immut a2 with _ | rr2
  · rw [h2] at h
    cases h
  simp only [h2] at h
  rcases h3 : OHM.getV ints rr1 with _ | lst
  · rw [h3] at h
    cases h
    exact hi
  simp only [h3] at h
  rcases h4 : lst.find? (fun q => q.1 == rr2) with _ | q
  · rw [h4] at h
    cases h
    exact hi
  simp only [h4] at h
  rcases h5 : res.find q.2 with _ | ⟨res2, rep⟩
  · rw [h5] at h
    cases h
  simp only [h5] at h
  cases h
  exact find_inv h5 hi

theorem merge_class_relationships_inv {fuel : Nat} {i1 i2 : EqualityState}
    {ints : List (VariableId × List (VariableId × VariableId))}
    {res res' : EqualityState}
    (h : merge_class_relationships fuel i1 i2 ints res = some res')
    (hi : AnalysisInv res) : AnalysisInv res' := by
  rw [merge_class_relationships] at h
  refine foldlM_option_inv ?_ i1.class_info res res' h hi
  intro b entry b' hstep hb
  refine foldlM_option_inv ?_ ((OHM.getV ints entry.1).getD []) b b' hstep hb
  intro r q r' hst hr
  simp only [] at hst
  rcases hc : OHM.getV i2.class_info q.1 with _ | class2
  · rw [hc] at hst
    cases hst
    exact hr
  simp only [hc] at hst
  rcases h1 : find_intersection_rep r i1 i2 ints entry.2.boxed_class class2.boxed_class
      with _ | ⟨result1, boxedRep⟩
  · rw [h1] at hst
    cases hst
  simp only [h1] at hst
  have hr1 : AnalysisInv result1 := find_intersection_rep_inv h1 hr
  have hstep2 : ∃ result2, (match boxedRep with
      | some br => set_box_relationship fuel result1 q.2 br
      | none => some result1) = some result2 ∧ AnalysisInv result2 := by
    rcases boxedRep with _ | br
    · exact ⟨result1, rfl, hr1⟩
    · rcases hs : set_box_relationship fuel result1 q.2 br with _ | result2
      · simp only [] at hst
        rw [hs] at hst
        cases hst
      · exact ⟨result2, hs, set_relationship_inv hs hr1⟩
  obtain ⟨result2, hs2, hr2⟩ := hstep2
  simp only [hs2] at hst
  rcases h3 : find_intersection_rep result2 i1 i2 ints entry.2.snapshot_class
      class2.snapshot_class with _ | ⟨result3, snapRep⟩
  · rw [h3] at hst
    cases hst
  simp only [h3] at hst
  have hr3 : AnalysisInv result3 := find_intersection_rep_inv h3 hr2
  rcases snapRep with _ | sr
  · cases hst
    exact hr3
  · exact set_relationship_inv hst hr3

theorem empty_analysisInv : AnalysisInv ({} : EqualityState) :=
  ⟨⟨by decide, by decide, by decide, by decide⟩,
    fun v => Nat.le_of_eq (rootD_of_not_mem (by simp [OHM.keys]))⟩

theorem merge_inv {fuel : Nat} {i1 i2 s' : EqualityState}
    (h : EqualityAnalysis.merge fuel i1 i2 = some s') : AnalysisInv s' := by
  rw [EqualityAnalysis.merge] at h
  rcases hg : buildGroups i1 i2 with _ | groups
  · rw [hg] at h
    cases h
  simp only [hg] at h
  rcases hu : unionGroups fuel {} groups with _ | res0
  · rw [hu] at h
    cases h
  simp only [hu] at h
  rcases hb : buildIntersections res0 groups with _ | ⟨res, ints⟩
  · rw [hb] at h
    cases h
  simp only [hb] at h
  exact merge_class_relationships_inv h
    (buildIntersections_inv hb (unionGroups_inv hu empty_analysisInv))

/-- Every analysis-produced state is well-formed with minimal
representatives. -/
theorem produced_inv {s : EqualityState} (hp : Produced s) : AnalysisInv s := by
  induction hp with
  | empty => exact empty_analysisInv
  | stmt hp hfresh htr ih => exact transfer_stmt_inv htr ih
  | edgeUnion hp hfresh hne hu ih => exact union_inv hu ih
  | mergeStep hp1 hp2 hm ih1 ih2 => exact merge_inv hm

/-- C6: in every analysis-produced state, each class's representative is a
member of the class (its own representative) and is the minimum
`VariableId` among all members of the class. -/
theorem C6_lowest_id_representative {s : EqualityState} (hp : Produced s)
    (v : VariableId) :
    EqvIn s v (rootD s.union_find v) ∧
      ∀ u, EqvIn s u v → rootD s.union_find v ≤ u := by
  obtain ⟨hwf, hmin⟩ := produced_inv hp
  constructor
  · show rootD s.union_find v = rootD s.union_find (rootD s.union_find v)
    exact (rootD_idem hwf.forest v).symm
  · intro u huv
    have h' : rootD s.union_find u = rootD s.union_find v := huv
    rw [← h']
    exact hmin u

/-- C6 witness: in the produced state `staleBoxState`, the representative
of 6's class (which is 2) is itself in the class and is at most the
member 2. -/
theorem C6_lowest_id_representative_witness :
    EqvIn staleBoxState 6 (rootD staleBoxState.union_find 6) ∧
      rootD staleBoxState.union_find 6 ≤ 2 := by
  have hp : Produced staleBoxState :=
    @Produced.edgeUnion boxOnlyState staleBoxState 10 2 6 2
      (@Produced.stmt {} boxOnlyState 10 (.intoBoxS 5 6) Produced.empty
        ⟨(by decide : (6 : VariableId) ∉ mentionedVars {}), by decide⟩ (by decide))
      (by decide : (2 : VariableId) ∉ mentionedVars boxOnlyState) (by decide) (by decide)
  exact ⟨(C6_lowest_id_representative hp 6).1,
    (C6_lowest_id_representative hp 6).2 2 (by decide)⟩

/-- The successor ids of a block, as the driver reads them. -/
def succsOf (lowered : LoweredM) (b : Nat) : List Nat :=
  ((lowered.blocks.getD b ⟨[], .notSet⟩).endB).successors

/-- Reachability from the root block along CFG edges. -/
inductive Reach (lowered : LoweredM) : Nat → Prop
  | root : Reach lowered 0
  | step {p t : Nat} : Reach lowered p → p < lowered.blocks.length →
      t ∈ succsOf lowered p → Reach lowered t

/-- The number of CFG edges into `t` from blocks not yet popped. -/
def remCount (lowered : LoweredM) (popped : List Nat) (t : Nat) : Nat :=
  (((List.range lowered.blocks.length).filter (fun p => !(popped.contains p))).map
    (fun p => (succsOf lowered p).count t)).sum

theorem getD_set_self {α : Type} {l : List α} {i : Nat} {v d : α} (h : i < l.length) :
    (l.set i v).getD i d = v := by
  rw [List.getD_eq_getElem?_getD, List.getElem?_set_self]
  · simp
  · exact h

theorem getD_set_ne {α : Type} {l : List α} {i j : Nat} {v d : α} (h : i ≠ j) :
    (l.set i v).getD j d = l.getD j d := by
  rw [List.getD_eq_getElem?_getD, List.getElem?_set_ne h, ← List.getD_eq_getElem?_getD]

theorem remCount_pop {lowered : LoweredM} {popped : List Nat} {b : Nat}
    (hb : b < lowered.blocks.length) (hnb : b ∉ popped) (t : Nat) :
    remCount lowered popped t
      = (succsOf lowered b).count t + remCount lowered (popped ++ [b]) t := by
  rw [remCount, remCount]
  have hmem : b ∈ (List.range lowered.blocks.length).filter (fun p => !(popped.contains p)) := by
    rw [List.mem_filter]
    refine ⟨List.mem_range.2 hb, ?_⟩
    simp [hnb]
  have hperm := List.perm_cons_erase hmem
  have hnd : ((List.range lowered.blocks.length).filter
      (fun p => !(popped.contains p))).Nodup :=
    (List.nodup_range _).filter _
  have herase : ((List.range lowered.blocks.length).filter
        (fun p => !(popped.contains p))).erase b
      = (List.range lowered.blocks.length).filter (fun p => !((popped ++ [b]).contains p)) := by
    rw [hnd.erase_eq_filter, List.filter_filter]
    refine List.filter_congr ?_
    intro x hx
    by_cases hxb : x = b
    · subst hxb
      simp
    · simp [hxb, Ne.symm hxb, bne]
  have hsum := (hperm.map (fun p => (succsOf lowered p).count t)).sum_eq
  rw [hsum, List.map_cons, List.sum_cons, herase]

theorem remCount_eq_zero_iff {lowered : LoweredM} {popped : List Nat} {t : Nat} :
    remCount lowered popped t = 0 ↔
      ∀ p, p < lowered.blocks.length → p ∉ popped → (succsOf lowered p).count t = 0 := by
  rw [remCount, List.sum_eq_zero_iff]
  constructor
  · intro h p hp hnp
    refine h _ (List.mem_map_of_mem _ ?_)
    rw [List.mem_filter]
    exact ⟨List.mem_range.2 hp, by simp [hnp]⟩
  · intro h x hx
    rcases List.mem_map.1 hx with ⟨p, hp, rfl⟩
    rw [List.mem_filter] at hp
    refine h p (List.mem_range.1 hp.1) ?_
    have := hp.2
    simp at this
    exact this

/-- Bump the counter of each target in `ts`, in order (the increment loop
of `compute_predecessor_counts`). -/
def bumpAll (counts : List Nat) (ts : List Nat) : List Nat :=
  ts.foldl (fun c s => c.set s (c.getD s 0 + 1)) counts

theorem bumpAll_length : ∀ (ts : List Nat) (c : List Nat),
    (bumpAll c ts).length = c.length := by
  intro ts
  induction ts with
  | nil => intro c; rfl
  | cons s rest ih =>
    intro c
    show (bumpAll (c.set s (c.getD s 0 + 1)) rest).length = c.length
    rw [ih, List.length_set]

theorem bumpAll_getD : ∀ (ts : List Nat) (c : List Nat), (∀ s ∈ ts, s < c.length) →
    ∀ t, (bumpAll c ts).getD t 0 = c.getD t 0 + ts.count t := by
  intro ts
  induction ts with
  | nil =>
    intro c hc t
    simp [bumpAll]
  | cons s rest ih =>
    intro c hc t
    have hs : s < c.length := hc s (List.mem_cons_self s rest)
    have hrest : ∀ x ∈ rest, x < (c.set s (c.getD s 0 + 1)).length := by
      intro x hx
      rw [List.length_set]
      exact hc x (List.mem_cons_of_mem s hx)
    have hstep : bumpAll c (s :: rest) = bumpAll (c.set s (c.getD s 0 + 1)) rest := rfl
    rw [hstep, ih _ hrest t]
    by_cases hts : t = s
    · subst hts
      rw [getD_set_self hs, List.count_cons_self]
      omega
    · rw [getD_set_ne (fun e => hts e.symm), List.count_cons_of_ne]
      exact fun e => hts (by simpa using e)

/-- One block's contribution to `compute_predecessor_counts` is a bump of
each of its successors. -/
theorem cpc_step_eq_bumpAll (c : List Nat) (block : BlockM) :
    (match block.endB with
      | .goto target _ => c.set target (c.getD target 0 + 1)
      | .matchEnd mi =>
        mi.arms.foldl (fun c arm => c.set arm.block_id (c.getD arm.block_id 0 + 1)) c
      | _ => c) = bumpAll c block.endB.successors := by
  rcases block with ⟨stmts, e⟩
  rcases e with target | mi | _ | _ | _
  · rfl
  · show mi.arms.foldl (fun c arm => c.set arm.block_id (c.getD arm.block_id 0 + 1)) c
      = bumpAll c (mi.arms.map MatchArmM.block_id)
    rw [bumpAll, List.foldl_map]
  · rfl
  · rfl
  · rfl

theorem blocks_foldl_bumpAll : ∀ (bs : List BlockM) (c : List Nat),
    bs.foldl (fun counts block =>
      (match block.endB with
        | .goto target _ => counts.set target (counts.getD target 0 + 1)
        | .matchEnd mi =>
          mi.arms.foldl (fun c arm => c.set arm.block_id (c.getD arm.block_id 0 + 1)) counts
        | _ => counts)) c
      = bs.foldl (fun counts block => bumpAll counts block.endB.successors) c := by
  intro bs
  induction bs with
  | nil => intro c; rfl
  | cons blk rest ih =>
    intro c
    rw [List.foldl_cons, List.foldl_cons, cpc_step_eq_bumpAll, ih]

theorem blocks_foldl_bump_length : ∀ (bs : List BlockM) (c : List Nat),
    (bs.foldl (fun counts block => bumpAll counts block.endB.successors) c).length
      = c.length := by
  intro bs
  induction bs with
  | nil => intro c; rfl
  | cons blk rest ih =>
    intro c
    rw [List.foldl_cons, ih, bumpAll_length]

theorem blocks_foldl_bump_getD : ∀ (bs : List BlockM) (c : List Nat),
    (∀ blk ∈ bs, ∀ s ∈ blk.endB.successors, s < c.length) → ∀ t,
    (bs.foldl (fun counts block => bumpAll counts block.endB.successors) c).getD t 0
      = c.getD t 0 + (bs.flatMap (fun blk => blk.endB.successors)).count t := by
  intro bs
  induction bs with
  | nil =>
    intro c hc t
    simp
  | cons blk rest ih =>
    intro c hc t
    rw [List.foldl_cons]
    have hlen : (bumpAll c blk.endB.successors).length = c.length := bumpAll_length _ _
    have hrest : ∀ b ∈ rest, ∀ s ∈ b.endB.successors,
        s < (bumpAll c blk.endB.successors).length := by
      intro b hb s hs
      rw [hlen]
      exact hc b (List.mem_cons_of_mem blk hb) s hs
    rw [ih _ hrest t, bumpAll_getD _ _ (hc blk (List.mem_cons_self blk rest)) t,
      List.flatMap_cons, List.count_append]
    omega

theorem map_getD_range {α : Type} : ∀ (l : List α) (d : α),
    (List.range l.length).map (fun i => l.getD i d) = l := by
  intro l
  induction l with
  | nil => intro d; rfl
  | cons a rest ih =>
    intro d
    rw [List.length_cons, List.range_succ_eq_map, List.map_cons, List.map_map]
    have hcomp : ((fun i => (a :: rest).getD i d) ∘ Nat.succ) = fun i => rest.getD i d := rfl
    rw [hcomp, ih d]
    rfl

theorem cpc_eq_foldl (lowered : LoweredM) :
    compute_predecessor_counts lowered
      = lowered.blocks.foldl (fun counts block => bumpAll counts block.endB.successors)
          (List.replicate lowered.blocks.length 0) := by
  rw [compute_predecessor_counts]
  exact blocks_foldl_bumpAll lowered.blocks _

theorem cpc_length (lowered : LoweredM) :
    (compute_predecessor_counts lowered).length = lowered.blocks.length := by
  rw [cpc_eq_foldl, blocks_foldl_bump_length, List.length_replicate]

theorem count_flatMap_eq_sum {t : Nat} : ∀ (bs : List BlockM),
    (bs.flatMap (fun blk => blk.endB.successors)).count t
      = (bs.map (fun blk => (blk.endB.successors).count t)).sum := by
  intro bs
  induction bs with
  | nil => rfl
  | cons blk rest ih =>
    rw [List.flatMap_cons, List.count_append, List.map_cons, List.sum_cons, ih]

theorem remCount_nil (lowered : LoweredM) (t : Nat) :
    remCount lowered [] t
      = (lowered.blocks.flatMap (fun blk => blk.endB.successors)).count t := by
  rw [remCount]
  have hf : (List.range lowered.blocks.length).filter
        (fun p => !(([] : List Nat).contains p))
      = List.range lowered.blocks.length := by
    simp
  rw [hf, count_flatMap_eq_sum]
  have hmaps : (List.range lowered.blocks.length).map (fun p => (succsOf lowered p).count t)
      = lowered.blocks.map (fun blk => (blk.endB.successors).count t) := by
    conv_rhs => rw [← map_getD_range lowered.blocks ⟨[], .notSet⟩]
    rw [List.map_map]
    rfl
  rw [hmaps]

theorem getD_replicate_zero (n t : Nat) : (List.replicate n (0 : Nat)).getD t 0 = 0 := by
  by_cases ht : t < n
  · rw [List.getD_eq_getElem?_getD, List.getElem?_replicate]
    simp [ht]
  · rw [List.getD_eq_getElem?_getD, List.getElem?_replicate]
    simp [ht]

theorem cpc_getD {lowered : LoweredM}
    (hvalid : ∀ p, p < lowered.blocks.length → ∀ s ∈ succsOf lowered p,
      s < lowered.blocks.length) (t : Nat) :
    (compute_predecessor_counts lowered).getD t 0 = remCount lowered [] t := by
  rw [cpc_eq_foldl]
  have hv : ∀ blk ∈ lowered.blocks, ∀ s ∈ blk.endB.successors,
      s < (List.replicate lowered.blocks.length (0 : Nat)).length := by
    intro blk hblk s hs
    rw [List.length_replicate]
    rcases List.mem_iff_getElem.1 hblk with ⟨i, hi, hieq⟩
    have hgd : lowered.blocks.getD i ⟨[], .notSet⟩ = blk := by
      rw [List.getD_eq_getElem?_getD, List.getElem?_eq_getElem hi, hieq]
      rfl
    refine hvalid i hi s ?_
    rw [succsOf, hgd]
    exact hs
  rw [blocks_foldl_bump_getD _ _ hv t, getD_replicate_zero, remCount_nil]
  exact Nat.zero_add _

/-- The worklist invariant of the forward driver, parametrized by the
multiset `pend` of in-flight edge targets of the block currently being
propagated (empty at every loop boundary). -/
structure LoopInv {σ Info : Type} (lowered : LoweredM) (st : FwdState σ Info)
    (pend : List Nat) : Prop where
  counts_len : st.predecessor_counts.length = lowered.blocks.length
  info_len : st.block_info.length = lowered.blocks.length
  popped_nodup : st.popped.Nodup
  popped_lt : ∀ b ∈ st.popped, b < lowered.blocks.length
  ready_nodup : st.ready.Nodup
  ready_ok : ∀ b ∈ st.ready, b < lowered.blocks.length ∧ b ∉ st.popped
  counts_eq : ∀ t, t < lowered.blocks.length →
    st.predecessor_counts.getD t 0 = pend.count t + remCount lowered st.popped t
  zero_iff : ∀ t, t < lowered.blocks.length →
    ((t ∈ st.popped ∨ t ∈ st.ready) ↔ pend.count t + remCount lowered st.popped t = 0)

theorem LoopInv.with_a {σ Info : Type} {lowered : LoweredM} {st : FwdState σ Info}
    {pend : List Nat} (h : LoopInv lowered st pend) (x : σ) :
    LoopInv lowered { st with a := x } pend :=
  ⟨h.counts_len, h.info_len, h.popped_nodup, h.popped_lt, h.ready_nodup, h.ready_ok,
    h.counts_eq, h.zero_iff⟩

/-- `add_and_maybe_ready` consumes one pending edge into `t`: the invariant
advances, and popped list and block infos are untouched. -/
theorem add_ready_inv {σ Info : Type} {A : AnalyzerM σ Info} {lowered : LoweredM}
    {st : FwdState σ Info} {t : Nat} {pend : List Nat} {info : Info}
    (hJ : LoopInv lowered st (t :: pend)) (ht : t < lowered.blocks.length) :
    LoopInv lowered (add_and_maybe_ready A lowered st t info) pend ∧
      (add_and_maybe_ready A lowered st t info).popped = st.popped ∧
      (add_and_maybe_ready A lowered st t info).block_info = st.block_info := by
  have hc : st.predecessor_counts.getD t 0
      = pend.count t + remCount lowered st.popped t + 1 := by
    rw [hJ.counts_eq t ht, List.count_cons_self]
    omega
  have htlen : t < st.predecessor_counts.length := by
    rw [hJ.counts_len]
    exact ht
  have hnotin : t ∉ st.popped ∧ t ∉ st.ready := by
    have h0 := hJ.zero_iff t ht
    rw [List.count_cons_self] at h0
    constructor
    · intro hmem
      have := h0.1 (.inl hmem)
      omega
    · intro hmem
      have := h0.1 (.inr hmem)
      omega
  refine ⟨⟨?_, ?_, hJ.popped_nodup, hJ.popped_lt, ?_, ?_, ?_, ?_⟩, rfl, rfl⟩
  · show (st.predecessor_counts.set t (st.predecessor_counts.getD t 0 - 1)).length
      = lowered.blocks.length
    rw [List.length_set]
    exact hJ.counts_len
  · exact hJ.info_len
  · show (if st.predecessor_counts.getD t 0 - 1 = 0 then t :: st.ready else st.ready).Nodup
    by_cases hz : st.predecessor_counts.getD t 0 - 1 = 0
    · rw [if_pos hz]
      exact List.nodup_cons.2 ⟨hnotin.2, hJ.ready_nodup⟩
    · rw [if_neg hz]
      exact hJ.ready_nodup
  · show ∀ b ∈ (if st.predecessor_counts.getD t 0 - 1 = 0 then t :: st.ready
      else st.ready), b < lowered.blocks.length ∧ b ∉ st.popped
    by_cases hz : st.predecessor_counts.getD t 0 - 1 = 0
    · rw [if_pos hz]
      intro b hb
      rcases List.mem_cons.1 hb with rfl | hb
      · exact ⟨ht, hnotin.1⟩
      · exact hJ.ready_ok b hb
    · rw [if_neg hz]
      exact hJ.ready_ok
  · intro u hu
    show (st.predecessor_counts.set t (st.predecessor_counts.getD t 0 - 1)).getD u 0
      = pend.count u + remCount lowered st.popped u
    by_cases hut : u = t
    · subst hut
      rw [getD_set_self htlen, hc]
      omega
    · rw [getD_set_ne (fun e => hut e.symm), hJ.counts_eq u hu,
        List.count_cons_of_ne (fun e => hut (by simpa using e))]
  · intro u hu
    show (u ∈ st.popped ∨ u ∈ (if st.predecessor_counts.getD t 0 - 1 = 0
        then t :: st.ready else st.ready)) ↔
      pend.count u + remCount lowered st.popped u = 0
    have h0 := hJ.zero_iff u hu
    by_cases hut : u = t
    · subst hut
      rw [List.count_cons_self] at h0
      by_cases hz : st.predecessor_counts.getD u 0 - 1 = 0
      · rw [if_pos hz]
        rw [hc] at hz
        constructor
        · intro _
          omega
        · intro _
          exact .inr (List.mem_cons_self u _)
      · rw [if_neg hz]
        rw [hc] at hz
        constructor
        · intro hmem
          rcases hmem with hmem | hmem
          · exact absurd hmem hnotin.1
          · exact absurd hmem hnotin.2
        · intro he
          omega
    · rw [List.count_cons_of_ne (fun e => hut (by simpa using e))] at h0
      by_cases hz : st.predecessor_counts.getD t 0 - 1 = 0
      · rw [if_pos hz]
        rw [← h0]
        constructor
        · intro hmem
          rcases hmem with hmem | hmem
          · exact .inl hmem
          · rcases List.mem_cons.1 hmem with he | hmem
            · exact absurd he hut
            · exact .inr hmem
        · intro hmem
          rcases hmem with hmem | hmem
          · exact .inl hmem
          · exact .inr (List.mem_cons_of_mem t hmem)
      · rw [if_neg hz]
        exact h0

theorem arms_fold_inv {σ Info : Type} {A : AnalyzerM σ Info} {lowered : LoweredM}
    {mi : MatchInfoM} {info : Info} :
    ∀ (arms : List MatchArmM) (st : FwdState σ Info),
      LoopInv lowered st (arms.map MatchArmM.block_id) →
      (∀ ar ∈ arms, ar.block_id < lowered.blocks.length) →
      LoopInv lowered (arms.foldl (fun st arm =>
          add_and_maybe_ready A lowered
            { st with a := (A.transfer_edge st.a info (.matchArmE arm mi)).1 }
            arm.block_id (A.transfer_edge st.a info (.matchArmE arm mi)).2) st) [] ∧
        (arms.foldl (fun st arm =>
          add_and_maybe_ready A lowered
            { st with a := (A.transfer_edge st.a info (.matchArmE arm mi)).1 }
            arm.block_id (A.transfer_edge st.a info (.matchArmE arm mi)).2) st).popped
          = st.popped ∧
        (arms.foldl (fun st arm =>
          add_and_maybe_ready A lowered
            { st with a := (A.transfer_edge st.a info (.matchArmE arm mi)).1 }
            arm.block_id (A.transfer_edge st.a info (.matchArmE arm mi)).2) st).block_info
          = st.block_info := by
  intro arms
  induction arms with
  | nil =>
    intro st hJ hv
    exact ⟨hJ, rfl, rfl⟩
  | cons ar rest ih =>
    intro st hJ hv
    rw [List.foldl_cons]
    have har : ar.block_id < lowered.blocks.length := hv ar (List.mem_cons_self _ _)
    obtain ⟨hJ1, hpop1, hbi1⟩ :=
      add_ready_inv (hJ.with_a (A.transfer_edge st.a info (.matchArmE ar mi)).1) har
    obtain ⟨hJ2, hpop2, hbi2⟩ := ih _ hJ1 (fun x hx => hv x (List.mem_cons_of_mem _ hx))
    exact ⟨hJ2, hpop2.trans hpop1, hbi2.trans hbi1⟩

theorem propagate_inv {σ Info : Type} {A : AnalyzerM σ Info} {lowered : LoweredM}
    {st : FwdState σ Info} {b : Nat} {info : Info}
    (hJ : LoopInv lowered st (succsOf lowered b))
    (hvalid : ∀ s ∈ succsOf lowered b, s < lowered.blocks.length) :
    LoopInv lowered (propagate_to_successors A lowered st b info) [] ∧
      (propagate_to_successors A lowered st b info).popped = st.popped ∧
      (propagate_to_successors A lowered st b info).block_info = st.block_info := by
  rcases hend : (lowered.blocks.getD b ⟨[], .notSet⟩).endB with ⟨target, rem⟩ | mi | _ | _ | _
  · have hsucc : succsOf lowered b = [target] := by
      rw [succsOf, hend]
      rfl
    rw [hsucc] at hJ
    have ht : target < lowered.blocks.length := by
      refine hvalid target ?_
      rw [hsucc]
      exact List.mem_cons_self _ _
    have hprop : propagate_to_successors A lowered st b info
        = add_and_maybe_ready A lowered
            { st with a := (A.transfer_edge st.a info (.gotoE target rem)).1 } target
            (A.transfer_edge st.a info (.gotoE target rem)).2 := by
      unfold propagate_to_successors
      rw [hend]
    rw [hprop]
    exact add_ready_inv (hJ.with_a _) ht
  · have hsucc : succsOf lowered b = mi.arms.map MatchArmM.block_id := by
      rw [succsOf, hend]
      rfl
    rw [hsucc] at hJ
    have hv : ∀ ar ∈ mi.arms, ar.block_id < lowered.blocks.length := by
      intro ar har
      refine hvalid ar.block_id ?_
      rw [hsucc]
      exact List.mem_map_of_mem _ har
    have hprop : propagate_to_successors A lowered st b info
        = mi.arms.foldl (fun st arm =>
            add_and_maybe_ready A lowered
              { st with a := (A.transfer_edge st.a info (.matchArmE arm mi)).1 }
              arm.block_id (A.transfer_edge st.a info (.matchArmE arm mi)).2) st := by
      unfold propagate_to_successors
      rw [hend]
    rw [hprop]
    exact arms_fold_inv mi.arms st hJ hv
  · have hsucc : succsOf lowered b = [] := by
      rw [succsOf, hend]
      rfl
    rw [hsucc] at hJ
    have hprop : propagate_to_successors A lowered st b info = st := by
      unfold propagate_to_successors
      rw [hend]
    rw [hprop]
    exact ⟨hJ, rfl, rfl⟩
  · have hsucc : succsOf lowered b = [] := by
      rw [succsOf, hend]
      rfl
    rw [hsucc] at hJ
    have hprop : propagate_to_successors A lowered st b info = st := by
      unfold propagate_to_successors
      rw [hend]
    rw [hprop]
    exact ⟨hJ, rfl, rfl⟩
  · have hsucc : succsOf lowered b = [] := by
      rw [succsOf, hend]
      rfl
    rw [hsucc] at hJ
    have hprop : propagate_to_successors A lowered st b info = st := by
      unfold propagate_to_successors
      rw [hend]
    rw [hprop]
    exact ⟨hJ, rfl, rfl⟩

/-- One iteration of the driver's loop: pop `b`, transfer, propagate,
store the block's state. -/
def iterBody {σ Info : Type} [Inhabited Info] (A : AnalyzerM σ Info) (lowered : LoweredM)
    (st : FwdState σ Info) (b : Nat) (rest : List Nat) : FwdState σ Info :=
  let st1 : FwdState σ Info := { st with ready := rest, popped := st.popped ++ [b] }
  let block := lowered.blocks.getD b ⟨[], .notSet⟩
  let info0 := (st1.incoming.getD b none).getD default
  let p1 := A.visit_block_start st1.a info0 b block
  let p2 := A.transfer_block p1.1 p1.2 b block
  let st2 := propagate_to_successors A lowered { st1 with a := p2.1 } b p2.2
  { st2 with block_info := st2.block_info.set b (some p2.2) }

theorem runLoop_cons {σ Info : Type} [Inhabited Info] (A : AnalyzerM σ Info)
    (lowered : LoweredM) (fuel : Nat) (st : FwdState σ Info) (b : Nat) (rest : List Nat)
    (h : st.ready = b :: rest) :
    runLoop A lowered (fuel + 1) st = runLoop A lowered fuel (iterBody A lowered st b rest) := by
  conv_lhs => rw [runLoop]
  rw [h]
  rfl

theorem runLoop_nil {σ Info : Type} [Inhabited Info] (A : AnalyzerM σ Info)
    (lowered : LoweredM) (fuel : Nat) (st : FwdState σ Info) (h : st.ready = []) :
    runLoop A lowered fuel st = st := by
  cases fuel with
  | zero => rfl
  | succ fuel =>
    rw [runLoop, h]

/-- One full iteration preserves the loop invariant and the popped/info
correspondence, popping exactly the block at the head of the ready stack. -/
theorem iterBody_inv {σ Info : Type} [Inhabited Info] {A : AnalyzerM σ Info}
    {lowered : LoweredM} {st : FwdState σ Info} {b : Nat} {rest : List Nat}
    (hready : st.ready = b :: rest) (hJ : LoopInv lowered st [])
    (hBI : ∀ t, t < lowered.blocks.length →
      ((st.block_info.getD t none).isSome ↔ t ∈ st.popped))
    (hvalid : ∀ p, p < lowered.blocks.length → ∀ s ∈ succsOf lowered p,
      s < lowered.blocks.length) :
    LoopInv lowered (iterBody A lowered st b rest) [] ∧
      (iterBody A lowered st b rest).popped = st.popped ++ [b] ∧
      (∀ t, t < lowered.blocks.length →
        (((iterBody A lowered st b rest).block_info.getD t none).isSome ↔
          t ∈ (iterBody A lowered st b rest).popped)) := by
  have hbmem : b ∈ st.ready := by
    rw [hready]
    exact List.mem_cons_self _ _
  have hb : b < lowered.blocks.length := (hJ.ready_ok b hbmem).1
  have hbnp : b ∉ st.popped := (hJ.ready_ok b hbmem).2
  have hrest_nodup : rest.Nodup := by
    have := hJ.ready_nodup
    rw [hready] at this
    exact (List.nodup_cons.1 this).2
  have hbrest : b ∉ rest := by
    have := hJ.ready_nodup
    rw [hready] at this
    exact (List.nodup_cons.1 this).1
  have hJ1 : LoopInv lowered
      ({ st with ready := rest, popped := st.popped ++ [b] } : FwdState σ Info)
      (succsOf lowered b) := by
    refine ⟨hJ.counts_len, hJ.info_len, ?_, ?_, ?_, ?_, ?_, ?_⟩
    · show (st.popped ++ [b]).Nodup
      rw [List.nodup_append]
      refine ⟨hJ.popped_nodup, List.nodup_singleton b, ?_⟩
      intro x hx
      rw [List.mem_singleton]
      intro he
      exact hbnp (he ▸ hx)
    · show ∀ x ∈ st.popped ++ [b], x < lowered.blocks.length
      intro x hx
      rcases List.mem_append.1 hx with hx | hx
      · exact hJ.popped_lt x hx
      · rw [List.mem_singleton] at hx
        exact hx ▸ hb
    · exact hrest_nodup
    · show ∀ x ∈ rest, x < lowered.blocks.length ∧ x ∉ st.popped ++ [b]
      intro x hx
      have hxr : x ∈ st.ready := by
        rw [hready]
        exact List.mem_cons_of_mem _ hx
      refine ⟨(hJ.ready_ok x hxr).1, ?_⟩
      intro hmem
      rcases List.mem_append.1 hmem with hmem | hmem
      · exact (hJ.ready_ok x hxr).2 hmem
      · rw [List.mem_singleton] at hmem
        exact hbrest (hmem ▸ hx)
    · intro t ht
      show st.predecessor_counts.getD t 0
        = (succsOf lowered b).count t + remCount lowered (st.popped ++ [b]) t
      rw [hJ.counts_eq t ht, List.count_nil, Nat.zero_add, remCount_pop hb hbnp]
    · intro t ht
      show (t ∈ st.popped ++ [b] ∨ t ∈ rest) ↔
        (succsOf lowered b).count t + remCount lowered (st.popped ++ [b]) t = 0
      have h0 := hJ.zero_iff t ht
      rw [List.count_nil, Nat.zero_add, remCount_pop hb hbnp] at h0
      rw [← h0]
      constructor
      · intro hm
        rcases hm with hm | hm
        · rcases List.mem_append.1 hm with hm | hm
          · exact .inl hm
          · rw [List.mem_singleton] at hm
            exact .inr (hm ▸ hbmem)
        · refine .inr ?_
          rw [hready]
          exact List.mem_cons_of_mem _ hm
      · intro hm
        rcases hm with hm | hm
        · exact .inl (List.mem_append.2 (.inl hm))
        · rw [hready] at hm
          rcases List.mem_cons.1 hm with rfl | hm
          · exact .inl (List.mem_append.2 (.inr (List.mem_singleton.2 rfl)))
          · exact .inr hm
  have hvb : ∀ s ∈ succsOf lowered b, s < lowered.blocks.length := hvalid b hb
  set blockb := lowered.blocks.getD b ⟨[], .notSet⟩ with hblockb
  set info0 := (st.incoming.getD b none).getD (default : Info) with hinfo0
  set p1 := A.visit_block_start st.a info0 b blockb with hp1
  set p2 := A.transfer_block p1.1 p1.2 b blockb with hp2
  have hJ1' : LoopInv lowered
      ({ st with ready := rest, popped := st.popped ++ [b], a := p2.1 } : FwdState σ Info)
      (succsOf lowered b) := hJ1.with_a p2.1
  obtain ⟨hJ2, hpop2, hbi2⟩ :=
    @propagate_inv σ Info A lowered
      { st with ready := rest, popped := st.popped ++ [b], a := p2.1 } b p2.2 hJ1' hvb
  set stP := propagate_to_successors A lowered
      { st with ready := rest, popped := st.popped ++ [b], a := p2.1 } b p2.2 with hstP
  have hiter : iterBody A lowered st b rest
      = { stP with block_info := stP.block_info.set b (some p2.2) } := rfl
  rw [hiter]
  have hpop2' : stP.popped = st.popped ++ [b] := hpop2
  have hbi2' : stP.block_info = st.block_info := hbi2
  have hblen : b < stP.block_info.length := by
    rw [hJ2.info_len]
    exact hb
  refine ⟨⟨hJ2.counts_len, ?_, hJ2.popped_nodup, hJ2.popped_lt, hJ2.ready_nodup,
      hJ2.ready_ok, hJ2.counts_eq, hJ2.zero_iff⟩, hpop2', ?_⟩
  · show (stP.block_info.set b (some p2.2)).length = lowered.blocks.length
    rw [List.length_set]
    exact hJ2.info_len
  · intro t ht
    show ((stP.block_info.set b (some p2.2)).getD t none).isSome = true ↔ t ∈ stP.popped
    rw [hpop2']
    by_cases htb : t = b
    · subst htb
      rw [getD_set_self hblen]
      simp [List.mem_append]
    · rw [getD_set_ne (fun e => htb e.symm), hbi2', hBI t ht, List.mem_append,
        List.mem_singleton]
      constructor
      · exact fun hm => .inl hm
      · intro hm
        rcases hm with hm | hm
        · exact hm
        · exact absurd hm htb

theorem mem_of_nodup_length {l : List Nat} {n : Nat} (hnd : l.Nodup)
    (hlt : ∀ x ∈ l, x < n) (hlen : n ≤ l.length) : ∀ x, x < n → x ∈ l := by
  intro x hx
  have hsub : l.toFinset ⊆ Finset.range n := by
    intro y hy
    rw [List.mem_toFinset] at hy
    exact Finset.mem_range.2 (hlt y hy)
  have hcard : (Finset.range n).card ≤ l.toFinset.card := by
    rw [Finset.card_range, List.toFinset_card_of_nodup hnd]
    exact hlen
  have heq := Finset.eq_of_subset_of_card_le hsub hcard
  have hx' : x ∈ l.toFinset := by
    rw [heq]
    exact Finset.mem_range.2 hx
  rwa [List.mem_toFinset] at hx'

/-- Under acyclicity (a rank increasing along edges) and total
reachability, no edge enters the root block. -/
theorem no_edges_into_root {lowered : LoweredM} (rank : Nat → Nat)
    (hrank : ∀ p, p < lowered.blocks.length → ∀ t ∈ succsOf lowered p, rank p < rank t)
    (hreach : ∀ b, b < lowered.blocks.length → Reach lowered b) :
    ∀ p, p < lowered.blocks.length → (succsOf lowered p).count 0 = 0 := by
  have hrank0 : ∀ p, Reach lowered p → rank 0 ≤ rank p := by
    intro p hp
    induction hp with
    | root => exact Nat.le_refl _
    | step hp hplt hmem ih => exact Nat.le_of_lt (Nat.lt_of_le_of_lt ih (hrank _ hplt _ hmem))
  intro p hp
  rw [List.count_eq_zero]
  intro hmem
  have h1 := hrank p hp 0 hmem
  have h2 := hrank0 p (hreach p hp)
  omega

/-- When the ready stack has emptied, every block has been popped: an
unpopped block of minimal rank would still have an unpopped predecessor. -/
theorem all_popped {σ Info : Type} {lowered : LoweredM} {st : FwdState σ Info}
    (rank : Nat → Nat)
    (hrank : ∀ p, p < lowered.blocks.length → ∀ t ∈ succsOf lowered p, rank p < rank t)
    (hreach : ∀ b, b < lowered.blocks.length → Reach lowered b)
    (hJ : LoopInv lowered st []) (hready : st.ready = []) :
    ∀ b, b < lowered.blocks.length → b ∈ st.popped := by
  have key : ∀ k b, b < lowered.blocks.length → rank b < k → b ∈ st.popped := by
    intro k
    induction k with
    | zero =>
      intro b hb hk
      omega
    | succ k ih =>
      intro b hb hk
      have hrem : remCount lowered st.popped b = 0 := by
        rw [remCount_eq_zero_iff]
        intro p hp hnp
        by_cases hb0 : b = 0
        · exact hb0 ▸ no_edges_into_root rank hrank hreach p hp
        · rw [List.count_eq_zero]
          intro hmem
          have hpr : rank p < rank b := hrank p hp b hmem
          exact hnp (ih p hp (by omega))
      have hmem := (hJ.zero_iff b hb).2 (by simp [hrem])
      rcases hmem with hm | hm
      · exact hm
      · rw [hready] at hm
        cases hm
  intro b hb
  exact key (rank b + 1) b hb (Nat.lt_succ_self _)

theorem getD_replicate_self {α : Type} (n t : Nat) (d : α) :
    (List.replicate n d).getD t d = d := by
  by_cases ht : t < n <;>
    · rw [List.getD_eq_getElem?_getD, List.getElem?_replicate]
      simp [ht]

/-- The driver's loop, run with enough fuel from an invariant state, ends
with an empty ready stack, the invariant intact and the block-info/popped
correspondence. -/
theorem runLoop_inv {σ Info : Type} [Inhabited Info] {A : AnalyzerM σ Info}
    {lowered : LoweredM}
    (hvalid : ∀ p, p < lowered.blocks.length → ∀ s ∈ succsOf lowered p,
      s < lowered.blocks.length) :
    ∀ (fuel : Nat) (st : FwdState σ Info),
      LoopInv lowered st [] →
      (∀ t, t < lowered.blocks.length →
        ((st.block_info.getD t none).isSome ↔ t ∈ st.popped)) →
      lowered.blocks.length ≤ st.popped.length + fuel →
      LoopInv lowered (runLoop A lowered fuel st) [] ∧
        (runLoop A lowered fuel st).ready = [] ∧
        (∀ t, t < lowered.blocks.length →
          (((runLoop A lowered fuel st).block_info.getD t none).isSome ↔
            t ∈ (runLoop A lowered fuel st).popped)) := by
  intro fuel
  induction fuel with
  | zero =>
    intro st hJ hBI hfuel
    have hready : st.ready = [] := by
      rcases hr : st.ready with _ | ⟨b, rest⟩
      · rfl
      · exfalso
        have hbmem : b ∈ st.ready := by
          rw [hr]
          exact List.mem_cons_self _ _
        have hball := mem_of_nodup_length hJ.popped_nodup hJ.popped_lt (by omega)
        exact (hJ.ready_ok b hbmem).2 (hball b (hJ.ready_ok b hbmem).1)
    exact ⟨hJ, hready, hBI⟩
  | succ fuel ih =>
    intro st hJ hBI hfuel
    rcases hr : st.ready with _ | ⟨b, rest⟩
    · rw [runLoop_nil A lowered _ st hr]
      exact ⟨hJ, hr, hBI⟩
    · rw [runLoop_cons A lowered fuel st b rest hr]
      obtain ⟨hJ', hpop', hBI'⟩ := iterBody_inv hr hJ hBI hvalid
      refine ih (iterBody A lowered st b rest) hJ' hBI' ?_
      rw [hpop', List.length_append]
      simp only [List.length_cons, List.length_nil]
      omega

/-- C7: for a lowered function whose CFG is acyclic (witnessed by a rank
increasing along every edge), whose successor ids are in range, and whose
every block is reachable from the root, the forward driver's `run` (with
fuel at least the number of blocks) pops every block exactly once and
stores a `Some` state for every block. -/
theorem C7_driver_visits_each_block_once {σ Info : Type} [Inhabited Info]
    (A : AnalyzerM σ Info) (a0 : σ) (lowered : LoweredM) (rank : Nat → Nat) (fuel : Nat)
    (hn : 0 < lowered.blocks.length)
    (hvalid : ∀ p, p < lowered.blocks.length → ∀ s ∈ succsOf lowered p,
      s < lowered.blocks.length)
    (hrank : ∀ p, p < lowered.blocks.length → ∀ t ∈ succsOf lowered p, rank p < rank t)
    (hreach : ∀ b, b < lowered.blocks.length → Reach lowered b)
    (hfuel : lowered.blocks.length ≤ fuel) :
    ∀ b, b < lowered.blocks.length →
      (ForwardDataflowAnalysis.run A a0 lowered fuel).popped.count b = 1 ∧
        ((ForwardDataflowAnalysis.run A a0 lowered fuel).block_info.getD b none).isSome := by
  set q := A.initial_info a0 0 (lowered.blocks.getD 0 ⟨[], .notSet⟩).endB with hq
  have hrun : ForwardDataflowAnalysis.run A a0 lowered fuel
      = runLoop A lowered fuel
          ⟨q.1, compute_predecessor_counts lowered,
            (List.replicate lowered.blocks.length (none : Option Info)).set 0 (some q.2),
            List.replicate lowered.blocks.length (none : Option Info), [0], []⟩ := rfl
  have hJ0 : LoopInv lowered
      (⟨q.1, compute_predecessor_counts lowered,
        (List.replicate lowered.blocks.length (none : Option Info)).set 0 (some q.2),
        List.replicate lowered.blocks.length (none : Option Info), [0], []⟩ :
          FwdState σ Info) [] := by
    refine ⟨cpc_length lowered, List.length_replicate _ _, List.nodup_nil, ?_,
      List.nodup_singleton 0, ?_, ?_, ?_⟩
    · intro b hb
      cases hb
    · intro b hb
      rw [List.mem_singleton] at hb
      subst hb
      exact ⟨hn, fun h => by cases h⟩
    · intro t ht
      show (compute_predecessor_counts lowered).getD t 0
        = ([] : List Nat).count t + remCount lowered [] t
      rw [List.count_nil, Nat.zero_add]
      exact cpc_getD hvalid t
    · intro t ht
      show (t ∈ ([] : List Nat) ∨ t ∈ [0]) ↔
        ([] : List Nat).count t + remCount lowered [] t = 0
      rw [List.count_nil, Nat.zero_add, List.mem_singleton]
      by_cases ht0 : t = 0
      · subst ht0
        constructor
        · intro _
          rw [remCount_eq_zero_iff]
          intro p hp hnp
          exact no_edges_into_root rank hrank hreach p hp
        · intro _
          exact .inr rfl
      · constructor
        · intro hm
          rcases hm with hm | hm
          · cases hm
          · exact absurd hm ht0
        · intro he
          exfalso
          cases hreach t ht with
          | root => exact ht0 rfl
          | step hpr hplt hmem =>
            rename_i p2
            have hz := remCount_eq_zero_iff.1 he p2 hplt (fun h => by cases h)
            rw [List.count_eq_zero] at hz
            exact hz hmem
  have hBI0 : ∀ t, t < lowered.blocks.length →
      (((List.replicate lowered.blocks.length (none : Option Info)).getD t none).isSome ↔
        t ∈ ([] : List Nat)) := by
    intro t ht
    rw [getD_replicate_self]
    simp
  obtain ⟨hJf, hreadyf, hBIf⟩ :=
    runLoop_inv hvalid fuel
      ⟨q.1, compute_predecessor_counts lowered,
        (List.replicate lowered.blocks.length (none : Option Info)).set 0 (some q.2),
        List.replicate lowered.blocks.length (none : Option Info), [0], []⟩
      hJ0 hBI0 (by simpa using hfuel)
  have hall := all_popped rank hrank hreach hJf hreadyf
  intro b hb
  rw [hrun]
  exact ⟨List.count_eq_one_of_mem hJf.popped_nodup (hall b hb),
    (hBIf b hb).2 (hall b hb)⟩

/-- An analyzer with no state, used to witness the driver theorem. -/
def unitAnalyzer : AnalyzerM Unit Unit :=
  ⟨fun a _ _ => (a, ()), fun a _ _ _ _ => (a, ()), fun a i _ _ => (a, i),
    fun a i _ _ => (a, i), fun a i _ => (a, i)⟩

/-- A two-block function: the root jumps to block 1, which returns. -/
def twoBlockFn : LoweredM := ⟨[⟨[], .goto 1 []⟩, ⟨[], .ret⟩]⟩

/-- C7 witness: on the two-block function, the driver pops both blocks
exactly once and stores a state for each. -/
theorem C7_driver_visits_each_block_once_witness :
    ((ForwardDataflowAnalysis.run unitAnalyzer () twoBlockFn 2).popped.count 0 = 1 ∧
        ((ForwardDataflowAnalysis.run unitAnalyzer () twoBlockFn 2).block_info.getD 0
          none).isSome) ∧
      ((ForwardDataflowAnalysis.run unitAnalyzer () twoBlockFn 2).popped.count 1 = 1 ∧
        ((ForwardDataflowAnalysis.run unitAnalyzer () twoBlockFn 2).block_info.getD 1
          none).isSome) := by
  have h := C7_driver_visits_each_block_once unitAnalyzer () twoBlockFn (fun x => x) 2
    (by decide) (by decide) (by decide)
    (by
      intro b hb
      have hb2 : b < 2 := hb
      interval_cases b
      · exact Reach.root
      · exact Reach.step Reach.root (by decide) (by decide))
    (by decide)
  exact ⟨h 0 (by decide), h 1 (by decide)⟩

/-- A well-formed state in which two distinct classes (1 and 2) both carry
a box relation onto class 3, with no back-pointer recorded at 3. -/
def dupBoxState : EqualityState :=
  ⟨[(1, 1), (2, 2), (3, 3)],
    [(1, ⟨some 3, none, none, none⟩), (2, ⟨some 3, none, none, none⟩)]⟩

/-- C2 counterexample: merging `dupBoxState` with itself EQUATES variables
1 and 2 (the second box install finds 3's unboxed pointer already set to
1's class and unions), although `find(1) ≠ find(2)` in both inputs — so
"merge is intersection" fails on these well-formed states. -/
theorem C2_merge_not_intersection :
    BaseWF dupBoxState ∧
      EqualityAnalysis.merge 20 dupBoxState dupBoxState
        = some ⟨[(1, 1), (2, 1)],
            [(3, ⟨none, some 1, none, none⟩), (1, ⟨some 3, none, none, none⟩)]⟩ ∧
      EqvIn ⟨[(1, 1), (2, 1)],
          [(3, ⟨none, some 1, none, none⟩), (1, ⟨some 3, none, none, none⟩)]⟩ 1 2 ∧
      ¬ EqvIn dupBoxState 1 2 := by
  decide

theorem union_ok {fuel : Nat} {s : EqualityState} {a b : VariableId}
    {s' : EqualityState} {r : VariableId} (h : union fuel s a b = some (s', r))
    (hi : AnalysisInv s) :
    AnalysisInv s' ∧ ∀ u w, EqvIn s u w → EqvIn s' u w :=
  ⟨union_inv h hi, (union_concl h hi.1).2.1⟩

theorem find_ok {s s1 : EqualityState} {v r : VariableId}
    (h : s.find v = some (s1, r)) (hi : AnalysisInv s) :
    AnalysisInv s1 ∧ ∀ u w, EqvIn s u w → EqvIn s1 u w := by
  obtain ⟨-, -, -, hroots, -, -⟩ := find_eq_spec hi.1 h
  refine ⟨find_inv h hi, fun u w huw => ?_⟩
  show rootD s1.union_find u = rootD s1.union_find w
  rw [hroots, hroots]
  exact huw

theorem get_related_ok {s : EqualityState} {v : VariableId} {f : RelField}
    {s1 : EqualityState} {o : Option VariableId}
    (h : get_related s v f = some (s1, o)) (hi : AnalysisInv s) :
    AnalysisInv s1 ∧ ∀ u w, EqvIn s u w → EqvIn s1 u w := by
  obtain ⟨-, -, hroots⟩ := get_related_state_spec h hi.1
  refine ⟨get_related_inv h hi, fun u w huw => ?_⟩
  show rootD s1.union_find u = rootD s1.union_find w
  rw [hroots, hroots]
  exact huw

theorem set_relationship_ok {fuel : Nat} {s : EqualityState} {a b : VariableId}
    {fa fb : RelField} {s' : EqualityState}
    (h : set_relationship fuel s a b fa fb = some s') (hi : AnalysisInv s) :
    AnalysisInv s' ∧ ∀ u w, EqvIn s u w → EqvIn s' u w := by
  rw [set_relationship] at h
  rcases g1 : get_related s a fa with _ | ⟨s1, ex_a⟩
  · rw [g1] at h
    cases h
  simp only [g1] at h
  obtain ⟨hi1, hm1⟩ := get_related_ok g1 hi
  have hstep1 : ∃ s2, (match ex_a with
      | some existing => (union fuel s1 b existing).map Prod.fst
      | none => some s1) = some s2 ∧ AnalysisInv s2 ∧
        (∀ u w, EqvIn s1 u w → EqvIn s2 u w) := by
    rcases ex_a with _ | existing
    · exact ⟨s1, rfl, hi1, fun _ _ hh => hh⟩
    · rcases hu : union fuel s1 b existing with _ | ⟨s2, r2⟩
      · simp only [] at h
        rw [hu] at h
        cases h
      · refine ⟨s2, ?_, (union_ok hu hi1).1, (union_ok hu hi1).2⟩
        show Option.map Prod.fst (union fuel s1 b existing) = some s2
        rw [hu]
        rfl
  obtain ⟨s2, hs2, hi2, hm2⟩ := hstep1
  simp only [hs2] at h
  rcases g2 : get_related s2 b fb with _ | ⟨s3, ex_b⟩
  · rw [g2] at h
    cases h
  simp only [g2] at h
  obtain ⟨hi3, hm3⟩ := get_related_ok g2 hi2
  have hstep2 : ∃ s4, (match ex_b with
      | some existing => (union fuel s3 a existing).map Prod.fst
      | none => some s3) = some s4 ∧ AnalysisInv s4 ∧
        (∀ u w, EqvIn s3 u w → EqvIn s4 u w) := by
    rcases ex_b with _ | existing
    · exact ⟨s3, rfl, hi3, fun _ _ hh => hh⟩
    · rcases hu : union fuel s3 a existing with _ | ⟨s4, r4⟩
      · simp only [] at h
        rw [hu] at h
        cases h
      · refine ⟨s4, ?_, (union_ok hu hi3).1, (union_ok hu hi3).2⟩
        show Option.map Prod.fst (union fuel s3 a existing) = some s4
        rw [hu]
        rfl
  obtain ⟨s4, hs4, hi4, hm4⟩ := hstep2
  simp only [hs4] at h
  rcases f5 : s4.find a with _ | ⟨s5, rep_a⟩
  · rw [f5] at h
    cases h
  simp only [f5] at h
  obtain ⟨hi5, hm5⟩ := find_ok f5 hi4
  rcases f6 : s5.find b with _ | ⟨s6, rep_b⟩
  · rw [f6] at h
    cases h
  simp only [f6] at h
  cases h
  obtain ⟨hi6, hm6⟩ := find_ok f6 hi5
  refine ⟨⟨⟨hi6.1.forest, hi6.1.nodup_uf,
    OHM.nodupKeys_updateEntry _ _ _ _ (OHM.nodupKeys_updateEntry _ _ _ _ hi6.1.nodup_ci),
    hi6.1.values_keys⟩, hi6.2⟩, ?_⟩
  intro u w huw
  exact hm6 u w (hm5 u w (hm4 u w (hm3 u w (hm2 u w (hm1 u w huw)))))

theorem find_intersection_rep_ok {res : EqualityState} {i1 i2 : EqualityState}
    {ints : List (VariableId × List (VariableId × VariableId))}
    {r1 r2 : Option VariableId} {out : EqualityState × Option VariableId}
    (h : find_intersection_rep res i1 i2 ints r1 r2 = some out) (hi : AnalysisInv res) :
    AnalysisInv out.1 ∧ ∀ u w, EqvIn res u w → EqvIn out.1 u w := by
  rcases r1 with _ | a1
  · rw [find_intersection_rep_none_left] at h
    cases h
    exact ⟨hi, fun _ _ hh => hh⟩
  rcases r2 with _ | a2
  · rw [find_intersection_rep_none_right] at h
    cases h
    exact ⟨hi, fun _ _ hh => hh⟩
  rw [find_intersection_rep_some_some] at h
  rcases h1 : i1.find_immut a1 with _ | rr1
  · rw [h1] at h
    cases h
  simp only [h1] at h
  rcases h2 : i2.find_immut a2 with _ | rr2
  · rw [h2] at h
    cases h
  simp only [h2] at h
  rcases h3 : OHM.getV ints rr1 with _ | lst
  · rw [h3] at h
    cases h
    exact ⟨hi, fun _ _ hh => hh⟩
  simp only [h3] at h
  rcases h4 : lst.find? (fun q => q.1 == rr2) with _ | q
  · rw [h4] at h
    cases h
    exact ⟨hi, fun _ _ hh => hh⟩
  simp only [h4] at h
  rcases h5 : res.find q.2 with _ | ⟨res2, rep⟩
  · rw [h5] at h
    cases h
  simp only [h5] at h
  cases h
  exact find_ok h5 hi

theorem merge_class_relationships_ok {fuel : Nat} {i1 i2 : EqualityState}
    {ints : List (VariableId × List (VariableId × VariableId))}
    {res res' : EqualityState}
    (h : merge_class_relationships fuel i1 i2 ints res = some res')
    (hi : AnalysisInv res) :
    AnalysisInv res' ∧ ∀ u w, EqvIn res u w → EqvIn res' u w := by
  rw [merge_class_relationships] at h
  refine foldlM_option_inv (P := fun b => AnalysisInv b ∧ ∀ u w, EqvIn res u w → EqvIn b u w)
    ?_ i1.class_info res res' h ⟨hi, fun _ _ hh => hh⟩
  intro b entry b' hstep hb
  refine foldlM_option_inv
    (P := fun c => AnalysisInv c ∧ ∀ u w, EqvIn res u w → EqvIn c u w)
    ?_ ((OHM.getV ints entry.1).getD []) b b' hstep hb
  intro r q r' hst hr
  simp only [] at hst
  rcases hc : OHM.getV i2.class_info q.1 with _ | class2
  · rw [hc] at hst
    cases hst
    exact hr
  simp only [hc] at hst
  rcases h1 : find_intersection_rep r i1 i2 ints entry.2.boxed_class class2.boxed_class
      with _ | ⟨result1, boxedRep⟩
  · rw [h1] at hst
    cases hst
  simp only [h1] at hst
  obtain ⟨hr1, hmr1⟩ := find_intersection_rep_ok h1 hr.1
  have hstep2 : ∃ result2, (match boxedRep with
      | some br => set_box_relationship fuel result1 q.2 br
      | none => some result1) = some result2 ∧ AnalysisInv result2 ∧
        (∀ u w, EqvIn result1 u w → EqvIn result2 u w) := by
    rcases boxedRep with _ | br
    · exact ⟨result1, rfl, hr1, fun _ _ hh => hh⟩
    · rcases hs : set_box_relationship fuel result1 q.2 br with _ | result2
      · simp only [] at hst
        rw [hs] at hst
        cases hst
      · exact ⟨result2, hs, (set_relationship_ok hs hr1).1, (set_relationship_ok hs hr1).2⟩
  obtain ⟨result2, hs2, hr2, hmr2⟩ := hstep2
  simp only [hs2] at hst
  rcases h3 : find_intersection_rep result2 i1 i2 ints entry.2.snapshot_class
      class2.snapshot_class with _ | ⟨result3, snapRep⟩
  · rw [h3] at hst
    cases hst
  simp only [h3] at hst
  obtain ⟨hr3, hmr3⟩ := find_intersection_rep_ok h3 hr2
  rcases snapRep with _ | sr
  · cases hst
    exact ⟨hr3, fun u w huw => hmr3 u w (hmr2 u w (hmr1 u w (hr.2 u w huw)))⟩
  · refine ⟨(set_relationship_ok hst hr3).1, fun u w huw => ?_⟩
    exact (set_relationship_ok hst hr3).2 u w
      (hmr3 u w (hmr2 u w (hmr1 u w (hr.2 u w huw))))

theorem buildIntersections_ok {res : EqualityState}
    {groups : List ((VariableId × VariableId) × List VariableId)}
    {out : EqualityState × List (VariableId × List (VariableId × VariableId))}
    (h : buildIntersections res groups = some out) (hi : AnalysisInv res) :
    AnalysisInv out.1 ∧ ∀ u w, EqvIn res u w → EqvIn out.1 u w := by
  rw [buildIntersections] at h
  refine foldlM_option_inv
    (P := fun p => AnalysisInv p.1 ∧ ∀ u w, EqvIn res u w → EqvIn p.1 u w)
    ?_ groups (res, []) out h ⟨hi, fun _ _ hh => hh⟩
  intro p kv p' hstep hp
  rcases kv with ⟨key, l⟩
  rcases l with _ | ⟨v0, lrest⟩
  · cases hstep
    exact hp
  simp only [] at hstep
  rcases hf : p.1.find v0 with _ | ⟨result, rep⟩
  · rw [hf] at hstep
    cases hstep
  · simp only [hf] at hstep
    cases hstep
    exact ⟨(find_ok hf hp.1).1, fun u w huw => (find_ok hf hp.1).2 u w (hp.2 u w huw)⟩

theorem unionGroups_ok {fuel : Nat} {res : EqualityState}
    {groups : List ((VariableId × VariableId) × List VariableId)} {res' : EqualityState}
    (h : unionGroups fuel res groups = some res') (hi : AnalysisInv res) :
    AnalysisInv res' ∧ ∀ u w, EqvIn res u w → EqvIn res' u w := by
  rw [unionGroups] at h
  refine foldlM_option_inv
    (P := fun b => AnalysisInv b ∧ ∀ u w, EqvIn res u w → EqvIn b u w)
    ?_ groups res res' h ⟨hi, fun _ _ hh => hh⟩
  intro b kv b' hstep hb
  rcases kv with ⟨key, l⟩
  rcases l with _ | ⟨first, rest⟩
  · cases hstep
    exact hb
  rcases rest with _ | ⟨x, rest'⟩
  · cases hstep
    exact hb
  refine foldlM_option_inv
    (P := fun c => AnalysisInv c ∧ ∀ u w, EqvIn res u w → EqvIn c u w)
    ?_ (x :: rest') b b' hstep hb
  intro r var r' hst hr
  rcases hu : union fuel r first var with _ | ⟨s2, r2⟩
  · rw [hu] at hst
    cases hst
  · rw [hu] at hst
    cases hst
    exact ⟨(union_ok hu hr.1).1, fun u w huw => (union_ok hu hr.1).2 u w (hr.2 u w huw)⟩

/-- Folding the unions of one group equates the anchor `first` with every
member of the rest. -/
theorem group_fold_members {fuel : Nat} {first : VariableId} :
    ∀ (rest : List VariableId) (acc acc' : EqualityState),
      rest.foldlM (fun r var => (union fuel r first var).map Prod.fst) acc = some acc' →
      AnalysisInv acc →
      AnalysisInv acc' ∧ (∀ u w, EqvIn acc u w → EqvIn acc' u w) ∧
        ∀ var ∈ rest, EqvIn acc' first var := by
  intro rest
  induction rest with
  | nil =>
    intro acc acc' h hi
    rw [List.foldlM_nil] at h
    cases h
    exact ⟨hi, fun _ _ hh => hh, fun var hv => absurd hv (by simp)⟩
  | cons var rest' ih =>
    intro acc acc' h hi
    rw [List.foldlM_cons] at h
    rcases hu : union fuel acc first var with _ | ⟨s2, r2⟩
    · rw [hu] at h
      cases h
    · rw [hu] at h
      simp only [Option.map_some', Option.bind_eq_bind, Option.some_bind] at h
      have hfv : EqvIn s2 first var := (union_concl hu hi.1).2.2.1
      obtain ⟨hi', hm', hmem'⟩ := ih s2 acc' h (union_inv hu hi)
      refine ⟨hi', fun u w huw => hm' u w ((union_ok hu hi).2 u w huw), ?_⟩
      intro y hy
      rcases List.mem_cons.1 hy with rfl | hy
      · exact hm' _ _ hfv
      · exact hmem' y hy

/-- `unionGroups` equates any two members of any group. -/
theorem unionGroups_equates {fuel : Nat} {res res' : EqualityState}
    {groups : List ((VariableId × VariableId) × List VariableId)}
    (h : unionGroups fuel res groups = some res') (hi : AnalysisInv res)
    {k : VariableId × VariableId} {l : List VariableId} (hmem : (k, l) ∈ groups)
    {x y : VariableId} (hx : x ∈ l) (hy : y ∈ l) :
    EqvIn res' x y := by
  obtain ⟨pre, post, hsplit⟩ := List.append_of_mem hmem
  subst hsplit
  rw [unionGroups, List.foldlM_append] at h
  rcases h1 : pre.foldlM (fun result kv =>
      (match kv.2 with
      | [] => some result
      | [_] => some result
      | first :: rest =>
        rest.foldlM (fun r var => (EqualityState.union fuel r first var).map Prod.fst)
          result)) res with _ | acc1
  · rw [h1] at h
    cases h
  rw [h1] at h
  simp only [Option.bind_eq_bind, Option.some_bind, List.foldlM_cons] at h
  have hiacc1 : AnalysisInv acc1 := by
    have hpre : unionGroups fuel res pre = some acc1 := by
      rw [unionGroups]
      exact h1
    exact (unionGroups_ok hpre hi).1
  rcases l with _ | ⟨first, rest⟩
  · cases hx
  rcases rest with _ | ⟨m2, rest2⟩
  · rw [List.mem_singleton] at hx hy
    rw [hx, hy]
    exact rfl
  · simp only [] at h
    rcases h2 : (m2 :: rest2).foldlM
        (fun r var => (EqualityState.union fuel r first var).map Prod.fst) acc1
        with _ | acc2
    · rw [h2] at h
      cases h
    rw [h2] at h
    simp only [Option.bind_eq_bind, Option.some_bind] at h
    obtain ⟨hiacc2, hmono2, hmem2⟩ := group_fold_members (m2 :: rest2) acc1 acc2 h2 hiacc1
    have hanchor : ∀ z ∈ first :: m2 :: rest2, EqvIn acc2 first z := by
      intro z hz
      rcases List.mem_cons.1 hz with rfl | hz
      · show rootD acc2.union_find z = rootD acc2.union_find z
        rfl
      · exact hmem2 z hz
    have hxy : EqvIn acc2 x y := by
      have hfx : rootD acc2.union_find first = rootD acc2.union_find x := hanchor x hx
      have hfy : rootD acc2.union_find first = rootD acc2.union_find y := hanchor y hy
      show rootD acc2.union_find x = rootD acc2.union_find y
      rw [← hfx, hfy]
    have hpost : unionGroups fuel acc2 post = some res' := by
      rw [unionGroups]
      exact h
    exact (unionGroups_ok hpost hiacc2).2 x y hxy

theorem find_immut_forest {s : EqualityState} (hf : Forest s.union_find) (v : VariableId) :
    s.find_immut v = some (rootD s.union_find v) := by
  rw [find_immut]
  exact rootsTo_findD (rootsTo_rootD hf v)

/-- Two distinct equated variables both occur as parent-map keys (using
that parent values are keys). -/
theorem mem_keys_of_nontrivial_eqv {s : EqualityState} (hwf : BaseWF s) {u v : VariableId}
    (h : rootD s.union_find u = rootD s.union_find v) (hne : u ≠ v) :
    u ∈ OHM.keys s.union_find := by
  by_cases hk : u ∈ OHM.keys s.union_find
  · exact hk
  · have hu : rootD s.union_find u = u := rootD_of_not_mem hk
    have hv : rootD s.union_find v = u := by
      rw [← h, hu]
    rcases (rootsTo_rootD hwf.forest v).root_mem_values with he | hval
    · rw [hv] at he
      exact absurd he hne
    · rw [hv] at hval
      rcases List.mem_map.1 hval with ⟨e, he, hesnd⟩
      have := hwf.values_keys e he
      rw [hesnd] at this
      exact this

theorem mem_mrv_left {A B : EqualityState} {u : VariableId}
    (h : u ∈ OHM.keys A.union_find) : u ∈ merge_referenced_vars A B := by
  rw [merge_referenced_vars]
  exact List.mem_append.2 (.inl (List.mem_append.2 (.inl h)))

/-- Every referenced variable lands in the group of its representative
pair. -/
theorem buildGroups_complete {A B : EqualityState} {groups :
    List ((VariableId × VariableId) × List VariableId)}
    (h : buildGroups A B = some groups) (hfA : Forest A.union_find)
    (hfB : Forest B.union_find) :
    ∀ x ∈ merge_referenced_vars A B,
      ∃ l, OHM.getV groups (rootD A.union_find x, rootD B.union_find x) = some l ∧
        x ∈ l := by
  rw [buildGroups] at h
  suffices hgen : ∀ (lvs : List VariableId)
      (g g' : List ((VariableId × VariableId) × List VariableId)),
      lvs.foldlM (fun groups var =>
        match A.find_immut var, B.find_immut var with
        | some r1, some r2 =>
          some (OHM.updateEntry groups (r1, r2) [] (fun l => l ++ [var]))
        | _, _ => none) g = some g' →
      (∀ x, (∃ l, OHM.getV g (rootD A.union_find x, rootD B.union_find x) = some l ∧
          x ∈ l) →
        ∃ l, OHM.getV g' (rootD A.union_find x, rootD B.union_find x) = some l ∧ x ∈ l) ∧
      (∀ x ∈ lvs,
        ∃ l, OHM.getV g' (rootD A.union_find x, rootD B.union_find x) = some l ∧
          x ∈ l) by
    intro x hx
    exact (hgen (merge_referenced_vars A B) [] groups h).2 x hx
  intro lvs
  induction lvs with
  | nil =>
    intro g g' h
    rw [List.foldlM_nil] at h
    cases h
    exact ⟨fun x hx => hx, fun x hx => absurd hx (by simp)⟩
  | cons var rest ih =>
    intro g g' h
    rw [List.foldlM_cons, find_immut_forest hfA, find_immut_forest hfB] at h
    simp only [Option.bind_eq_bind, Option.some_bind] at h
    set g1 := OHM.updateEntry g (rootD A.union_find var, rootD B.union_find var) []
      (fun l => l ++ [var]) with hg1
    have hstep : ∀ x, (∃ l, OHM.getV g (rootD A.union_find x, rootD B.union_find x)
        = some l ∧ x ∈ l) →
        ∃ l, OHM.getV g1 (rootD A.union_find x, rootD B.union_find x) = some l ∧
          x ∈ l := by
      intro x hx
      rcases hx with ⟨l, hgv, hxl⟩
      by_cases hk : (rootD A.union_find x, rootD B.union_find x)
          = (rootD A.union_find var, rootD B.union_find var)
      · rw [hg1, hk, OHM.getV_updateEntry_self]
        refine ⟨_, rfl, ?_⟩
        rw [← hk, hgv]
        exact List.mem_append.2 (.inl hxl)
      · rw [hg1, OHM.getV_updateEntry_ne _ _ _ hk]
        exact ⟨l, hgv, hxl⟩
    have hvar : ∃ l, OHM.getV g1 (rootD A.union_find var, rootD B.union_find var)
        = some l ∧ var ∈ l := by
      rw [hg1, OHM.getV_updateEntry_self]
      exact ⟨_, rfl, List.mem_append.2 (.inr (List.mem_singleton.2 rfl))⟩
    obtain ⟨hmono, hall⟩ := ih g1 g' h
    refine ⟨fun x hx => hmono x (hstep x hx), ?_⟩
    intro x hx
    rcases List.mem_cons.1 hx with rfl | hx
    · exact hmono x hvar
    · exact hall x hx

/-- C2 (amended): the sound half of "merge is intersection" — for
well-formed inputs, any equality holding in BOTH inputs still holds in the
merged state (members of a common class form one group, which
`unionGroups` unions; the remaining phases only coarsen).  The converse
half of the original claim is false: the relation-install phase can union
classes that are distinct in both inputs (see the counterexample). -/
theorem C2_merge_preserves_common_equalities {fuel : Nat} {A B M : EqualityState}
    (h : EqualityAnalysis.merge fuel A B = some M) (hwfA : BaseWF A) (hwfB : BaseWF B)
    {u v : VariableId} (hA : EqvIn A u v) (hB : EqvIn B u v) : EqvIn M u v := by
  by_cases huv : u = v
  · rw [huv]
    exact rfl
  have hA' : rootD A.union_find u = rootD A.union_find v := hA
  have hB' : rootD B.union_find u = rootD B.union_find v := hB
  rw [EqualityAnalysis.merge] at h
  rcases hg : buildGroups A B with _ | groups
  · rw [hg] at h
    cases h
  simp only [hg] at h
  rcases hug : unionGroups fuel {} groups with _ | res0
  · rw [hug] at h
    cases h
  simp only [hug] at h
  rcases hb : buildIntersections res0 groups with _ | ⟨res, ints⟩
  · rw [hb] at h
    cases h
  simp only [hb] at h
  have hu : u ∈ merge_referenced_vars A B :=
    mem_mrv_left (mem_keys_of_nontrivial_eqv hwfA hA' huv)
  have hv : v ∈ merge_referenced_vars A B :=
    mem_mrv_left (mem_keys_of_nontrivial_eqv hwfA hA'.symm (Ne.symm huv))
  obtain ⟨l, hgv, hul⟩ := buildGroups_complete hg hwfA.forest hwfB.forest u hu
  obtain ⟨l2, hgv2, hvl⟩ := buildGroups_complete hg hwfA.forest hwfB.forest v hv
  have hkey : (rootD A.union_find v, rootD B.union_find v)
      = (rootD A.union_find u, rootD B.union_find u) := by
    rw [hA', hB']
  rw [hkey, hgv] at hgv2
  cases hgv2
  have heq0 : EqvIn res0 u v :=
    unionGroups_equates hug empty_analysisInv (OHM.getV_mem hgv) hul hvl
  obtain ⟨hires, hmono1⟩ := buildIntersections_ok hb (unionGroups_ok hug empty_analysisInv).1
  exact (merge_class_relationships_ok h hires).2 u v (hmono1 u v heq0)

/-- C2 witness: merging `branchA` with itself keeps the common equality of
1 and 2. -/
theorem C2_merge_preserves_common_equalities_witness :
    EqvIn (⟨[(1, 1), (2, 1), (4, 1)],
        [(1, ⟨some 6, none, none, none⟩), (6, ⟨none, some 1, none, none⟩)]⟩ :
          EqualityState) 1 2 :=
  @C2_merge_preserves_common_equalities 20 branchA branchA
    ⟨[(1, 1), (2, 1), (4, 1)],
      [(1, ⟨some 6, none, none, none⟩), (6, ⟨none, some 1, none, none⟩)]⟩
    (by decide) (by decide) (by decide) 1 2 (by decide) (by decide)
